import Mathlib

/-!
# Monomials and polynomials as term chains

A shallow embedding of `Monomial.c` and `Polynomial.c`.

Conventions of the embedding.

* A `double` / `long double` coefficient is an exact rational number: rounding
  is not represented, and neither is the C `errno` of `pow`.  The range error of
  `strtod`, which the term reader tests, is represented: a text whose exact value
  is outside the range of a `double` is reported with `ERANGE`.  The constant
  `0.0001` is the rational `1/10000`.
* A linked chain of `Monomial`s (the `next` pointers) is a `List Monomial`; a
  `NULL` chain is the empty list.
* A degree is a natural number.  The arithmetic on chains is embedded for degrees
  that fit every C integer type they pass through (`long`, `int`, `unsigned int`);
  the term reader, which receives exponents of any size from text, carries the
  conversions explicitly (LP64: 64-bit `long`, 32-bit `int`).
* A C string is the list of its characters before the terminating NUL; a `char*`
  cursor into it is the suffix it points to, `*cursor` is the head of that suffix
  (NUL at the end) and `cursor++` drops the head.
* A heap array of `double` is a `List ℚ`; an access outside it is the fault
  `outOfBounds`, a failing `assert` the fault `assertion`, and a call of
  `exit(EXIT_FAILURE)` the fault `fatalExit`.  Allocation never fails.
* A `while` loop whose number of iterations is not fixed by its data runs on a
  fuel counter; running out of fuel is the fault `diverges`.
-/

namespace ImacPolynomials

/-- Ways in which a call does not return normally. -/
inductive Fault where
  | assertion
  | outOfBounds
  | fatalExit
  | diverges
  deriving DecidableEq, Repr

/-- The enum `MONOMIALS_ERRNO` of `Monomial.h`. -/
inductive MONOMIALS_ERRNO where
  | MONOMIAL_SUCCESS
  | MONOMIAL_MATH_ERROR
  | MONOMIAL_ILLEGAL_OPERATION
  | MONOMIAL_INPUT_ERROR
  deriving DecidableEq, Repr

/-- The `struct Monomial` of `Monomial.c`, without its `next` link. -/
structure Monomial where
  coefficient : ℚ
  degree : Nat
  deriving DecidableEq

/-- The `struct Polynomial` of `Polynomial.c`: the chain starting at `first` and
the cached `degree`. -/
structure Polynomial where
  first : List Monomial
  degree : Nat
  deriving DecidableEq

/-! ## Monomial.c -/

/-- Function `monomial_create`. -/
def monomial_create (coefficient : ℚ) (degree : Nat) : Monomial :=
  { coefficient := coefficient, degree := degree }

/-- Function `monomial_copy`. -/
def monomial_copy (monomial : Monomial) : Monomial :=
  monomial_create monomial.coefficient monomial.degree

/-- Function `monomial_compute`: `coefficient * pow(x, degree)`. -/
def monomial_compute (monomial : Monomial) (x : Int) : ℚ :=
  monomial.coefficient * (x : ℚ) ^ monomial.degree

/-- Function `monomial_derivative`: the local `degree` is the signed `degree - 1`. -/
def monomial_derivative (monomial : Monomial) : Monomial :=
  let coefficient : ℚ := monomial.coefficient * (monomial.degree : ℚ)
  let degree : Int := (monomial.degree : Int) - 1
  if degree < 0 then monomial_create 0 0 else monomial_create coefficient degree.toNat

/-- Function `monomial_product`. -/
def monomial_product (leftm rightm : Monomial) : Monomial :=
  let coefficient : ℚ := leftm.coefficient * rightm.coefficient
  let degree : Nat := leftm.degree + rightm.degree
  monomial_create coefficient degree

/-! ## Polynomial.c: the chain engine -/

/-- Function `is_coefficient_null`. -/
def is_coefficient_null (coefficient : ℚ) : Bool :=
  decide (coefficient > -(1 / 10000 : ℚ)) && decide (coefficient < (1 / 10000 : ℚ))

/-- Function `polynomial_create_empty`. -/
def polynomial_create_empty : Polynomial :=
  { first := [], degree := 0 }

/-- The `while` loop of `polynomial_recalculate_degree`. -/
def recalculate_degree_loop : List Monomial → Nat → Nat
  | [], degree => degree
  | monomial :: next, degree =>
    recalculate_degree_loop next (if monomial.degree > degree then monomial.degree else degree)

/-- Function `polynomial_recalculate_degree`. -/
def polynomial_recalculate_degree (polynomial : Polynomial) : Polynomial :=
  { polynomial with degree := recalculate_degree_loop polynomial.first 0 }

/-- The `while` loop of `polynomial_convert_to_array`:
`array[degree] = coefficient` for each monomial of the chain. -/
def convert_to_array_loop : List Monomial → List ℚ → Except Fault (List ℚ)
  | [], array => .ok array
  | current :: next, array =>
    if current.degree < array.length then
      convert_to_array_loop next (array.set current.degree current.coefficient)
    else .error .outOfBounds

/-- Function `polynomial_convert_to_array`. -/
def polynomial_convert_to_array (polynomial : Polynomial) (array : List ℚ) :
    Except Fault (List ℚ) :=
  match polynomial.first with
  | [] => .error .assertion
  | current :: next => convert_to_array_loop (current :: next) array

/-- The `for` loop of `polynomial_compute_method_horner`; the first argument is
`index_coeff_array + 1`, the loop running while `index_coeff_array >= 0`. -/
def horner_loop (coeff_array : List ℚ) (x : Int) : Nat → ℚ → ℚ
  | 0, result => result
  | index + 1, result =>
    horner_loop coeff_array x index (result * (x : ℚ) + coeff_array.getD index 0)

/-- Function `polynomial_compute_method_horner`. -/
def polynomial_compute_method_horner (polynomial : Polynomial) (x : Int) : Except Fault ℚ :=
  match polynomial.first with
  | [] => .error .assertion
  | _ :: _ =>
    let degree := polynomial.degree
    let coeff_array := List.replicate (degree + 1) (0 : ℚ)
    match polynomial_convert_to_array polynomial coeff_array with
    | .error e => .error e
    | .ok coeff_array =>
      .ok (horner_loop coeff_array x degree (coeff_array.getD degree 0))

/-- Function `polynomial_compute`. -/
def polynomial_compute (polynomial : Polynomial) (x : Int) : Except Fault ℚ :=
  polynomial_compute_method_horner polynomial x

/-- Function `polynomial_copy`. -/
def polynomial_copy (polynomial : Polynomial) : Polynomial :=
  polynomial_recalculate_degree
    { first := polynomial.first.map monomial_copy, degree := 0 }

/-- Function `polynomial_create`: one monomial for index 0, then one for each index of
`1 .. degree`; the array must hold `degree + 1` coefficients. -/
def polynomial_create (coefficients : List ℚ) (degree : Nat) : Except Fault Polynomial :=
  if degree < coefficients.length then
    .ok { first := monomial_create (coefficients.getD 0 0) 0 ::
            (List.range' 1 degree).map
              (fun index => monomial_create (coefficients.getD index 0) index),
          degree := degree }
  else .error .outOfBounds

/-- The `while` loop of `polynomial_remove_null_monomials`. -/
def remove_null_monomials_loop : List Monomial → List Monomial
  | [] => []
  | current :: next =>
    if is_coefficient_null current.coefficient then remove_null_monomials_loop next
    else current :: remove_null_monomials_loop next

/-- Function `polynomial_remove_null_monomials`. -/
def polynomial_remove_null_monomials (polynomial : Polynomial) : Polynomial :=
  polynomial_recalculate_degree
    { polynomial with first := remove_null_monomials_loop polynomial.first }

/-- The `while` loop of `polynomial_reduct`: `coefficients[degree] += coefficient`. -/
def reduct_loop : List Monomial → List ℚ → Except Fault (List ℚ)
  | [], coefficients => .ok coefficients
  | current :: next, coefficients =>
    if current.degree < coefficients.length then
      reduct_loop next
        (coefficients.set current.degree
          (coefficients.getD current.degree 0 + current.coefficient))
    else .error .outOfBounds

/-- Function `polynomial_reduct`. -/
def polynomial_reduct (polynomial : Polynomial) : Except Fault Polynomial :=
  let coefficients := List.replicate (polynomial.degree + 1) (0 : ℚ)
  match reduct_loop polynomial.first coefficients with
  | .error e => .error e
  | .ok coefficients =>
    match polynomial_create coefficients polynomial.degree with
    | .error e => .error e
    | .ok reducted => .ok (polynomial_remove_null_monomials reducted)

/-- The inner `while` loop of `polynomial_product`, over the chain of `rightp`. -/
def product_inner_loop (current : Monomial) : List Monomial → List ℚ → Except Fault (List ℚ)
  | [], result_coefficients => .ok result_coefficients
  | rightm :: next, result_coefficients =>
    let productm := monomial_product current rightm
    if productm.degree < result_coefficients.length then
      product_inner_loop current next
        (result_coefficients.set productm.degree
          (result_coefficients.getD productm.degree 0 + productm.coefficient))
    else .error .outOfBounds

/-- The outer `while` loop of `polynomial_product`, over the chain of `leftp`. -/
def product_outer_loop : List Monomial → List Monomial → List ℚ → Except Fault (List ℚ)
  | [], _, result_coefficients => .ok result_coefficients
  | current :: next, rightp_first, result_coefficients =>
    match product_inner_loop current rightp_first result_coefficients with
    | .error e => .error e
    | .ok result_coefficients => product_outer_loop next rightp_first result_coefficients

/-- Function `polynomial_product`. -/
def polynomial_product (leftp rightp : Polynomial) : Except Fault Polynomial :=
  let result_degree := leftp.degree + rightp.degree
  let result_coefficients := List.replicate (result_degree + 1) (0 : ℚ)
  match product_outer_loop leftp.first rightp.first result_coefficients with
  | .error e => .error e
  | .ok result_coefficients =>
    match polynomial_create result_coefficients result_degree with
    | .error e => .error e
    | .ok product => .ok (polynomial_remove_null_monomials product)

/-- Function `polynomial_sum`. -/
def polynomial_sum (leftp rightp : Polynomial) : Except Fault Polynomial :=
  let degree := if leftp.degree > rightp.degree then leftp.degree else rightp.degree
  let coeff_array0 := List.replicate (degree + 1) (0 : ℚ)
  let coeff_array1 := List.replicate (degree + 1) (0 : ℚ)
  match polynomial_convert_to_array leftp coeff_array0 with
  | .error e => .error e
  | .ok coeff_array0 =>
    match polynomial_convert_to_array rightp coeff_array1 with
    | .error e => .error e
    | .ok coeff_array1 =>
      .ok (polynomial_remove_null_monomials
        { first := (List.range (degree + 1)).map
            (fun index_coeff =>
              monomial_create (coeff_array0.getD index_coeff 0 + coeff_array1.getD index_coeff 0)
                index_coeff),
          degree := degree })

/-- Function `polynomial_derivative`. -/
def polynomial_derivative (polynomial : Polynomial) : Except Fault Polynomial :=
  match polynomial.first with
  | [] => .error .assertion
  | cursor_oldp :: next =>
    if (polynomial.degree : Int) - 1 < 0 then
      .ok { first := [monomial_create 0 0], degree := 0 }
    else
      .ok (polynomial_remove_null_monomials
        { first := (cursor_oldp :: next).map monomial_derivative,
          degree := polynomial.degree - 1 })

/-- The `while (power > 1)` loop of `polynomial_power`. -/
def power_loop (polynomial : Polynomial) : Nat → Polynomial → Except Fault Polynomial
  | 0, result => .ok result
  | power + 1, result =>
    if power + 1 > 1 then
      match polynomial_product result polynomial with
      | .error e => .error e
      | .ok result => power_loop polynomial power result
    else .ok result

/-- Function `polynomial_power`. -/
def polynomial_power (polynomial : Polynomial) (power : Int) : Except Fault Polynomial :=
  if power > 0 then power_loop polynomial power.toNat (polynomial_copy polynomial)
  else .error .assertion

/-! ## The C library, as far as the term reader uses it -/

/-- The terminating character of a C string. -/
def NUL : Char := Char.ofNat 0

/-- The character under a cursor: `*cursor`. -/
def peek (cursor : List Char) : Char := cursor.headD NUL

/-- Function `isdigit` of `ctype.h` (C locale). -/
def isdigit (c : Char) : Bool := decide (48 ≤ c.toNat) && decide (c.toNat ≤ 57)

/-- Function `isxdigit` of `ctype.h` (C locale). -/
def isxdigit (c : Char) : Bool :=
  isdigit c || (decide (97 ≤ c.toNat) && decide (c.toNat ≤ 102))
    || (decide (65 ≤ c.toNat) && decide (c.toNat ≤ 70))

/-- Value of a hexadecimal digit. -/
def xdigit_value (c : Char) : Nat :=
  if isdigit c then c.toNat - 48
  else if decide (97 ≤ c.toNat) && decide (c.toNat ≤ 102) then c.toNat - 87
  else c.toNat - 55

/-- Value of a run of digits in the given base. -/
def digits_value (base : Nat) (digits : List Char) : Nat :=
  digits.foldl (fun value c => base * value + xdigit_value c) 0

/-- The loop `while(*cursor == ' ') cursor++;`. -/
def skip_spaces : List Char → List Char
  | [] => []
  | c :: cursor => if c = ' ' then skip_spaces cursor else c :: cursor

/-- The limit `LONG_MAX` of a 64-bit `long`. -/
def LONG_MAX : Int := 2 ^ 63 - 1

/-- Conversion of a `long` to `int` (32 bits, wrapping). -/
def long_to_int (val : Int) : Int := (val + 2 ^ 31) % 2 ^ 32 - 2 ^ 31

/-- Conversion of an `int` to `unsigned int` (32 bits). -/
def int_to_unsigned (degree : Int) : Nat := (degree % 2 ^ 32).toNat

/-- Modelled from the C standard: `strtol(nptr, &end, 10)` on a text that starts
with a digit, which is how the term reader calls it.  The result is the value,
the end cursor, and whether `errno` is set to `ERANGE`. -/
def strtol (nptr : List Char) : Int × List Char × Bool :=
  let value : Int := (digits_value 10 (nptr.takeWhile isdigit) : Nat)
  let endptr := nptr.dropWhile isdigit
  if value > LONG_MAX then (LONG_MAX, endptr, true) else (value, endptr, false)

/-- The optional exponent part of a floating constant: the letter `lower` or
`upper`, an optional sign and a non-empty run of decimal digits.  Gives whether
the exponent is negative, its magnitude and the text after it. -/
def read_exponent (lower upper : Char) : List Char → Option (Bool × Nat × List Char)
  | [] => none
  | c :: rest =>
    if c = lower ∨ c = upper then
      let negative := decide (peek rest = '-')
      let digits := if peek rest = '+' ∨ peek rest = '-' then rest.tail else rest
      if isdigit (peek digits) then
        some (negative, digits_value 10 (digits.takeWhile isdigit), digits.dropWhile isdigit)
      else none
    else none

/-- A mantissa scaled by `base ^ exponent` or its inverse. -/
def scale (base : Nat) (mantissa : ℚ) (negative : Bool) (exponent : Nat) : ℚ :=
  if negative then mantissa / ((base ^ exponent : Nat) : ℚ)
  else mantissa * ((base ^ exponent : Nat) : ℚ)

/-- A mantissa in the given base: digits, optionally a point and more digits, with
at least one digit in all.  Gives the value and the text after it. -/
def read_mantissa (base : Nat) (digit : Char → Bool) (s : List Char) : Option (ℚ × List Char) :=
  let integer_part := s.takeWhile digit
  let rest := s.dropWhile digit
  let fraction_part := if peek rest = '.' then rest.tail.takeWhile digit else []
  let after := if peek rest = '.' then rest.tail.dropWhile digit else rest
  if integer_part.isEmpty && fraction_part.isEmpty then none
  else
    some ((digits_value base integer_part : ℚ) +
        (digits_value base fraction_part : ℚ) / ((base ^ fraction_part.length : Nat) : ℚ),
      after)

/-- The decimal form of `strtod`. -/
def strtod_decimal (nptr : List Char) : ℚ × List Char :=
  match read_mantissa 10 isdigit nptr with
  | none => (0, nptr)
  | some (mantissa, rest) =>
    match read_exponent 'e' 'E' rest with
    | some (negative, exponent, endptr) => (scale 10 mantissa negative exponent, endptr)
    | none => (mantissa, rest)

/-- The hexadecimal form of `strtod`, on the text after `0x` or `0X`. -/
def strtod_hexadecimal (s : List Char) : Option (ℚ × List Char) :=
  match read_mantissa 16 isxdigit s with
  | none => none
  | some (mantissa, rest) =>
    match read_exponent 'p' 'P' rest with
    | some (negative, exponent, endptr) => some (scale 2 mantissa negative exponent, endptr)
    | none => some (mantissa, rest)

/-- Modelled from the C standard: `strtod(nptr, &end)` on a text that starts with
a digit, which is how the term reader calls it: the longest initial decimal or
hexadecimal floating constant, as an exact value, and the end cursor (`nptr`
itself when nothing is converted).  Whether the call stores `ERANGE` in `errno`
is `strtod_erange`; the C function then returns a bound of the range in place of
the value, which the term reader discards. -/
def strtod (nptr : List Char) : ℚ × List Char :=
  match nptr with
  | '0' :: c :: s =>
    if c = 'x' ∨ c = 'X' then
      match strtod_hexadecimal s with
      | some converted => converted
      | none => strtod_decimal nptr
    else strtod_decimal nptr
  | _ => strtod_decimal nptr

/-- The least magnitude that does not round to a finite `double` (IEEE 754
binary64, rounding to nearest): `DBL_MAX` plus half a unit in its last place. -/
def DBL_OVERFLOW : ℚ := ((2 ^ 1024 - 2 ^ 970 : Nat) : ℚ)

/-- The limit `DBL_MIN` of `float.h`: the least positive normalized `double`. -/
def DBL_MIN : ℚ := 1 / ((2 ^ 1022 : Nat) : ℚ)

/-- Modelled from the C standard: whether a conversion of `strtod` whose exact
value is `value`, which is not negative, is a range error: the value overflows
the range of a `double`, or it underflows, being neither zero nor as large as
`DBL_MIN`. -/
def strtod_range_error (value : ℚ) : Bool :=
  decide (DBL_OVERFLOW ≤ value) || (decide (0 < value) && decide (value < DBL_MIN))

/-- Modelled from the C standard: whether `strtod(nptr, &end)` stores `ERANGE` in
`errno`, on a text that starts with a digit.  On overflow the standard requires
it.  On underflow it leaves it to the implementation: `ERANGE` is stored here for
every value below `DBL_MIN` other than zero, which is what the GNU C library does
when the result is not exact (rounding is not represented).  The theorems that
state a successful read are about values that are zero or at least `DBL_MIN`,
and those that state a rejection for the range are about overflow. -/
def strtod_erange (nptr : List Char) : Bool :=
  strtod_range_error (strtod nptr).1

/-! ## Monomial.c: the sum of two terms -/

/-- Function `monomial_sum`, from the value of `monomials_errno` before the call: the
returned monomial and the value of `monomials_errno` after it.  The C `errno` is
cleared at the start and the addition of two `double`s does not set it.  The
`long` degree of `leftm` goes through the local `int degree` to the
`unsigned int` parameter of `monomial_create`. -/
def monomial_sum (leftm rightm : Monomial) (monomials_errno : MONOMIALS_ERRNO) :
    Monomial × MONOMIALS_ERRNO :=
  let errno : Nat := 0
  let monomials_errno :=
    if leftm.degree ≠ rightm.degree then MONOMIALS_ERRNO.MONOMIAL_ILLEGAL_OPERATION
    else monomials_errno
  let coefficient : ℚ := leftm.coefficient + rightm.coefficient
  let degree : Int := long_to_int leftm.degree
  let monomials_errno :=
    if errno ≠ 0 then MONOMIALS_ERRNO.MONOMIAL_MATH_ERROR else monomials_errno
  (monomial_create coefficient (int_to_unsigned degree), monomials_errno)

/-! ## Monomial.c: the term reader -/

/-- The copy of `read_double_from_string` with its first `x` overwritten by a
space: `strcpy(copy, cursor); *strchr(copy, 'x') = ' ';`. -/
def replace_first_x : List Char → List Char
  | [] => []
  | c :: s => if c = 'x' then ' ' :: s else c :: replace_first_x s

/-- Function `read_double_from_string`: the value and `*end`.  In the branch of the copy
the test `*end == copy` compares the caller's cursor with the fresh copy and never
holds. -/
def read_double_from_string (string : List Char) : ℚ × List Char :=
  let cursor := skip_spaces string
  if !isdigit (peek cursor) then (0, string)
  else
    let xcursor := cursor.dropWhile (fun c => c == '.' || isdigit c)
    if peek xcursor = 'x' then
      let copy := replace_first_x cursor
      let converted := strtod copy
      (converted.1, cursor.drop (copy.length - converted.2.length))
    else
      let converted := strtod cursor
      if converted.2.length = cursor.length then (0, string) else converted

/-- Whether `errno`, cleared before the call, is `ERANGE` after
`read_double_from_string`: it is stored by the call of `strtod`, on the copy when
the copy is made, and by nothing else. -/
def read_double_erange (string : List Char) : Bool :=
  let cursor := skip_spaces string
  if !isdigit (peek cursor) then false
  else
    let xcursor := cursor.dropWhile (fun c => c == '.' || isdigit c)
    if peek xcursor = 'x' then strtod_erange (replace_first_x cursor)
    else strtod_erange cursor

/-- The outcome of `monomial_create_from_string`: the returned monomial (`none`
for `NULL`), the value left in `*end`, and the value of `monomials_errno`. -/
structure TermRead where
  monomial : Option Monomial
  end_cursor : List Char
  monomials_errno : MONOMIALS_ERRNO
  deriving DecidableEq

/-- The failure exit of `monomial_create_from_string`:
`monomials_errno = MONOMIAL_INPUT_ERROR; *end = string; return NULL;`. -/
def input_error (string : List Char) : TermRead :=
  { monomial := none, end_cursor := string,
    monomials_errno := MONOMIALS_ERRNO.MONOMIAL_INPUT_ERROR }

/-- The success exit of `monomial_create_from_string`: the sign is applied, `*end`
is set to the cursor, and the `int degree` goes to the `unsigned int` parameter
of `monomial_create`. -/
def term_read (sign : Char) (coefficient : ℚ) (degree : Int) (cursor : List Char)
    (monomials_errno : MONOMIALS_ERRNO) : TermRead :=
  { monomial := some (monomial_create (if sign = '-' then -coefficient else coefficient)
      (int_to_unsigned degree)),
    end_cursor := cursor,
    monomials_errno := monomials_errno }

/-- Step 3 and 4 of `monomial_create_from_string`: from the cursor after the
coefficient, read `x` and the exponent. -/
def read_variable (string : List Char) (sign : Char) (coefficient : ℚ) (coeff_read : Bool)
    (cursor : List Char) (monomials_errno : MONOMIALS_ERRNO) : TermRead :=
  if peek cursor = 'x' then
    let coefficient := if !coeff_read then 1 else coefficient
    let cursor := cursor.tail
    if peek cursor = '^' then
      let cursor := cursor.tail
      if !isdigit (peek cursor) then input_error string
      else
        let converted := strtol cursor
        let val := converted.1
        let converter_end := converted.2.1
        if converter_end.length = cursor.length ∨ converted.2.2 = true then input_error string
        else if val < 0 then input_error string
        else term_read sign coefficient (long_to_int val) converter_end monomials_errno
    else
      if peek cursor ≠ ' ' ∧ peek cursor ≠ NUL then input_error string
      else term_read sign coefficient 1 cursor monomials_errno
  else
    if !coeff_read then input_error string
    else
      if peek cursor = NUL ∨ peek cursor = ' ' then
        term_read sign coefficient 0 cursor monomials_errno
      else input_error string

/-- Step 2 of `monomial_create_from_string`: from the cursor after the sign and
the spaces, read the coefficient when a digit is there, then go on with step 3.
The test is `converter_end == cursor || errno != 0`, `errno` being cleared before
the call of `read_double_from_string`. -/
def read_coefficient (string : List Char) (sign : Char) (cursor : List Char)
    (monomials_errno : MONOMIALS_ERRNO) : TermRead :=
  if isdigit (peek cursor) then
    let converted := read_double_from_string cursor
    let converter_end := converted.2
    if converter_end.length = cursor.length ∨ read_double_erange cursor = true then
      input_error string
    else read_variable string sign converted.1 true converter_end monomials_errno
  else read_variable string sign 0 false cursor monomials_errno

/-- Function `monomial_create_from_string`, from the value of `monomials_errno` before the
call: skip spaces, step 1 (the sign), skip spaces, then steps 2 to 4. -/
def monomial_create_from_string (string : List Char) (monomials_errno : MONOMIALS_ERRNO) :
    TermRead :=
  let cursor := skip_spaces string
  let sign := if peek cursor = '+' ∨ peek cursor = '-' then peek cursor else '+'
  let cursor := if peek cursor = '+' ∨ peek cursor = '-' then cursor.tail else cursor
  let cursor := skip_spaces cursor
  read_coefficient string sign cursor monomials_errno

/-! ## Polynomial.c: the polynomial reader -/

/-- The `while(*cursor != '\0')` loop of `polynomial_create_from_string`: the chain
read so far and `max_monomial_degree`.  A `NULL` monomial without input error
would fail the assertion of `monomial_get_degree`. -/
def create_from_string_loop :
    Nat → List Char → List Monomial → Nat → Except Fault (List Monomial × Nat)
  | 0, _, _, _ => .error .diverges
  | fuel + 1, cursor, chain, max_monomial_degree =>
    if peek cursor = NUL then .ok (chain, max_monomial_degree)
    else
      let read := monomial_create_from_string cursor MONOMIALS_ERRNO.MONOMIAL_SUCCESS
      if read.monomials_errno = MONOMIALS_ERRNO.MONOMIAL_INPUT_ERROR then .error .fatalExit
      else
        match read.monomial with
        | none => .error .assertion
        | some new_monomial =>
          create_from_string_loop fuel (skip_spaces read.end_cursor) (chain ++ [new_monomial])
            (if max_monomial_degree < new_monomial.degree then new_monomial.degree
              else max_monomial_degree)

/-- Function `polynomial_create_from_string`; `none` is the `NULL` result. -/
def polynomial_create_from_string (string : List Char) : Except Fault (Option Polynomial) :=
  match create_from_string_loop (string.length + 1) string [] 0 with
  | .error e => .error e
  | .ok (chain, max_monomial_degree) =>
    let new_polynomial :=
      polynomial_remove_null_monomials { first := chain, degree := max_monomial_degree }
    match new_polynomial.first with
    | [] => .ok none
    | _ :: _ =>
      match polynomial_reduct new_polynomial with
      | .error e => .error e
      | .ok reducted =>
        match reducted.first with
        | [] => .ok none
        | _ :: _ => .ok (some reducted)

/-! ## The C library: formatted output -/

/-- The character of a decimal digit. -/
def digit_char (d : Nat) : Char := Char.ofNat (48 + d)

/-- The decimal digits of a number, most significant first, put before `acc`; the
first argument bounds the number of digits. -/
def decimal_digits : Nat → Nat → List Char → List Char
  | 0, _, acc => acc
  | fuel + 1, n, acc =>
    if n / 10 = 0 then digit_char (n % 10) :: acc
    else decimal_digits fuel (n / 10) (digit_char (n % 10) :: acc)

/-- Modelled from the C standard: the conversion `%ld` of `fprintf` for a value
that is not negative, as the degrees are: its decimal digits without leading
zeros. -/
def format_ld (n : Nat) : List Char := decimal_digits (n + 1) n []

/-- The nearest natural number to a rational that is not negative, ties to even. -/
def round_half_even (q : ℚ) : Nat :=
  let f : Int := Rat.floor q
  let r : ℚ := q - (f : ℚ)
  (if r < 1 / 2 then f else if 1 / 2 < r then f + 1 else if f % 2 = 0 then f else f + 1).toNat

/-- Modelled from the C standard: the conversion `%.2lf` of `fprintf`: a `-` for
a negative value, the digits before the point, the point and two digits after it,
the value being rounded to the nearest hundredth. -/
def format_2lf (c : ℚ) : List Char :=
  let h := round_half_even (|c| * 100)
  (if c < 0 then ['-'] else []) ++
    (format_ld (h / 100) ++ ['.', digit_char (h / 10 % 10), digit_char (h % 10)])

/-! ## Polynomial.c: writing to a file -/

/-- The end-of-line character. -/
def NEWLINE : Char := Char.ofNat 10

/-- The `while` loop of `polynomial_write_to_file` over the chain of one
polynomial: what it prints.  The flag tells whether `monomial` is
`currentp->first`. -/
def write_to_file_loop : Bool → List Monomial → List Char
  | _, [] => []
  | is_first, monomial :: next =>
    (if is_first = false ∧ monomial.coefficient ≥ 0 then ['+', ' '] else []) ++
      (format_2lf monomial.coefficient ++
        ('x' :: '^' :: (format_ld monomial.degree ++
          (' ' :: write_to_file_loop false next))))

/-- The line that `polynomial_write_to_file` prints for one polynomial, without
the end-of-line character. -/
def write_to_file_line (currentp : Polynomial) : List Char :=
  write_to_file_loop true currentp.first

/-- Function `polynomial_write_to_file`: the text written to the file when it
opens, one line for each polynomial that is not `NULL`. -/
def polynomial_write_to_file : List (Option Polynomial) → List Char
  | [] => []
  | none :: polynomials => polynomial_write_to_file polynomials
  | some currentp :: polynomials =>
    write_to_file_line currentp ++ (NEWLINE :: polynomial_write_to_file polynomials)

/-! ## Notions in which the properties are stated -/

deriving instance DecidableEq for Except

/-- The accumulated coefficient of degree `d`: the sum of the coefficients of all
terms of degree `d` of a chain. -/
def coeff_sum (chain : List Monomial) (d : Nat) : ℚ :=
  ((chain.filter (fun m => m.degree = d)).map (fun m => m.coefficient)).sum

/-- The largest degree of a term of a chain, 0 for the empty chain. -/
def max_degree (chain : List Monomial) : Nat :=
  chain.foldr (fun m d => max m.degree d) 0

/-- The coefficient of degree `d` in a chain, 0 when no term has that degree. -/
def coefficient_at (chain : List Monomial) (d : Nat) : ℚ :=
  match chain.find? (fun m => m.degree = d) with
  | some m => m.coefficient
  | none => 0

/-- The coefficient of degree `d` of a product: the sum of
`a.coefficient * b.coefficient` over the pairs of a term `a` of the first chain
and a term `b` of the second with `a.degree + b.degree = d`. -/
def product_sum (chainA chainB : List Monomial) (d : Nat) : ℚ :=
  (((chainA.product chainB).filter (fun ab => ab.1.degree + ab.2.degree = d)).map
    (fun ab => ab.1.coefficient * ab.2.coefficient)).sum

/-- The normalization invariant of a chain: at most one term per degree, no term
with a coefficient below the tolerance, and a cached degree that is the largest
degree present. -/
def normalized (p : Polynomial) : Prop :=
  (p.first.map (fun m => m.degree)).Nodup ∧
    (∀ m ∈ p.first, ¬ |m.coefficient| < 1 / 10000) ∧
    p.degree = max_degree p.first

instance (p : Polynomial) : Decidable (normalized p) := by
  unfold normalized; infer_instance

/-- The chain that `polynomial_create` followed by
`polynomial_remove_null_monomials` leaves for the coefficients `g 0 .. g (n-1)`. -/
def dense_chain (g : Nat → ℚ) (n : Nat) : List Monomial :=
  ((List.range n).map (fun index => monomial_create (g index) index)).filter
    (fun m => !is_coefficient_null m.coefficient)

/-- The terms that the term reader finds on a line when every read succeeds:
from the cursor, either the line is exhausted, or `monomial_create_from_string`
returns a term and the rest of the terms follows after the spaces behind it. -/
inductive ParsesTo : List Char → List Monomial → Prop where
  | done (cursor : List Char) (h : peek cursor = NUL) : ParsesTo cursor []
  | term (cursor : List Char) (m : Monomial) (terms : List Monomial)
      (h : peek cursor ≠ NUL)
      (hm : (monomial_create_from_string cursor MONOMIALS_ERRNO.MONOMIAL_SUCCESS).monomial
        = some m)
      (hrest : ParsesTo
        (skip_spaces
          (monomial_create_from_string cursor MONOMIALS_ERRNO.MONOMIAL_SUCCESS).end_cursor)
        terms) :
      ParsesTo cursor (m :: terms)

/-- The chain of a result of `polynomial_create_from_string`; the `NULL` result
has no term. -/
def chain_of (result : Option Polynomial) : List Monomial :=
  match result with
  | none => []
  | some p => p.first

/-- The pieces of a term text: `lead` spaces, an optional sign (`some true` for
`-`, `some false` for `+`), `gap` spaces, the digits of the coefficient before the
point (none when the coefficient is absent), optionally a point and the digits
after it, whether the letter `x` is there, and optionally `^` and the digits of
the exponent. -/
structure TermText where
  lead : Nat
  sign : Option Bool
  gap : Nat
  integer_part : List Char
  fraction_part : Option (List Char)
  marker : Bool
  exponent : Option (List Char)

/-- The characters of the sign of a term text. -/
def sign_text : Option Bool → List Char
  | none => []
  | some false => ['+']
  | some true => ['-']

/-- The characters of the point and the fraction of a coefficient. -/
def fraction_text : Option (List Char) → List Char
  | none => []
  | some f => '.' :: f

/-- The characters of `^` and the exponent. -/
def exponent_text : Option (List Char) → List Char
  | none => []
  | some e => '^' :: e

/-- The characters of the variable part of a term text. -/
def variable_text (marker : Bool) (exponent : Option (List Char)) : List Char :=
  if marker = true then 'x' :: exponent_text exponent else []

/-- The value of the digits after the point. -/
def fraction_value : Option (List Char) → ℚ
  | none => 0
  | some f => (digits_value 10 f : ℚ) / ((10 ^ f.length : Nat) : ℚ)

/-- The degree after `x`: 1 without an exponent, else the value of the exponent. -/
def variable_degree : Option (List Char) → Nat
  | none => 1
  | some e => digits_value 10 e

/-- What may follow a term: after an exponent anything but a digit, otherwise a
space or the end of the string. -/
def may_follow : Option (List Char) → List Char → Bool
  | some _, rest => !isdigit (peek rest)
  | none, rest => rest.isEmpty || peek rest == ' '

namespace TermText

/-- The characters of a term text. -/
def text (t : TermText) : List Char :=
  List.replicate t.lead ' ' ++
    (sign_text t.sign ++
      (List.replicate t.gap ' ' ++
        ((t.integer_part ++ fraction_text t.fraction_part) ++
          variable_text t.marker t.exponent)))

/-- A term text is well formed when the coefficient and the exponent are runs of
decimal digits, the coefficient starts with a digit, an exponent comes only after
`x`, and the coefficient or `x` is there. -/
def well_formed (t : TermText) : Bool :=
  t.integer_part.all isdigit &&
    (match t.fraction_part with
      | none => true
      | some f => !t.integer_part.isEmpty && f.all isdigit) &&
    (!t.integer_part.isEmpty || t.marker) &&
    (match t.exponent with
      | none => true
      | some e => t.marker && !e.isEmpty && e.all isdigit)

/-- The coefficient a term text denotes: the decimal value of the coefficient, 1
when it is absent, negated after the sign `-`. -/
def coefficient (t : TermText) : ℚ :=
  let magnitude : ℚ :=
    if t.integer_part.isEmpty then 1
    else (digits_value 10 t.integer_part : ℚ) + fraction_value t.fraction_part
  if t.sign = some true then -magnitude else magnitude

/-- The degree a term text denotes: 0 without `x`, 1 for `x`, `e` for `x^e`. -/
def degree (t : TermText) : Nat :=
  if t.marker = true then variable_degree t.exponent else 0

/-- What may follow a term text: after an exponent anything but a digit,
otherwise a space or the end of the string. -/
def followed_by (t : TermText) (rest : List Char) : Bool :=
  may_follow t.exponent rest

end TermText

/-- The term text `x^4294967296`, whose exponent is `2^32`. -/
def wide_exponent_term : TermText :=
  { lead := 0, sign := none, gap := 0, integer_part := [], fraction_part := none,
    marker := true, exponent := some "4294967296".toList }

/-- The term text `x^9223372036854775808`, whose exponent is `LONG_MAX + 1`. -/
def long_exponent_term : TermText :=
  { lead := 0, sign := none, gap := 0, integer_part := [], fraction_part := none,
    marker := true, exponent := some "9223372036854775808".toList }

/-- The term text of the digit `1` followed by 309 zeros, the number `10^309`. -/
def huge_coefficient_term : TermText :=
  { lead := 0, sign := none, gap := 0, integer_part := '1' :: List.replicate 309 '0',
    fraction_part := none, marker := false, exponent := none }

/-- The term text `+2x^3`. -/
def plus_two_x_cubed : TermText :=
  { lead := 0, sign := some false, gap := 0, integer_part := ['2'], fraction_part := none,
    marker := true, exponent := some ['3'] }

/-- The 25 strings that `monomial_tests_run` reads. -/
def monomial_test_strings : List String :=
  ["2", "-2", " - 2 ", "+2", " + 2 ",
   "2x", "-2x", " - 2x ", "+2x", " + 2x ",
   "2x^2", "-2x^2", " - 2x^2 ", "+2x^2", " + 2x^2 ",
   "x^2", "-x^2", " - x^2 ", "+x^2", " + x^2 ",
   "x", "-x", " - x ", "+x", " + x "]

/-- Some term read that the scan of a line starts fails with the input error:
from the cursor, the line is not exhausted and either the read at the cursor
fails, or it returns a term and a later read, after the spaces behind that term,
fails. -/
inductive ParseFails : List Char → Prop where
  | here (cursor : List Char) (h : peek cursor ≠ NUL)
      (hfail : (monomial_create_from_string cursor
        MONOMIALS_ERRNO.MONOMIAL_SUCCESS).monomials_errno =
          MONOMIALS_ERRNO.MONOMIAL_INPUT_ERROR) :
      ParseFails cursor
  | later (cursor : List Char) (m : Monomial) (h : peek cursor ≠ NUL)
      (hm : (monomial_create_from_string cursor MONOMIALS_ERRNO.MONOMIAL_SUCCESS).monomial
        = some m)
      (hrest : ParseFails
        (skip_spaces
          (monomial_create_from_string cursor MONOMIALS_ERRNO.MONOMIAL_SUCCESS).end_cursor)) :
      ParseFails cursor

/-- The cached-degree invariant of a chain: the cached degree is the largest
degree of a term of the chain, 0 when the chain has no term. -/
def cached_degree_exact (p : Polynomial) : Prop :=
  p.degree = max_degree p.first

instance (p : Polynomial) : Decidable (cached_degree_exact p) := by
  unfold cached_degree_exact; infer_instance

/-- The negation of a chain: the same degrees with the negated coefficients, and
the same cached degree. -/
def negation (p : Polynomial) : Polynomial :=
  { first := p.first.map (fun m => { coefficient := -m.coefficient, degree := m.degree }),
    degree := p.degree }

/-- The number of calls of `monomial_create_from_string` that the loop of
`polynomial_create_from_string` makes from a cursor, on the same fuel. -/
def term_reads : Nat → List Char → Nat
  | 0, _ => 0
  | fuel + 1, cursor =>
    if peek cursor = NUL then 0
    else
      let read := monomial_create_from_string cursor MONOMIALS_ERRNO.MONOMIAL_SUCCESS
      if read.monomials_errno = MONOMIALS_ERRNO.MONOMIAL_INPUT_ERROR then 1
      else
        match read.monomial with
        | none => 1
        | some _ => 1 + term_reads fuel (skip_spaces read.end_cursor)

/-- A value in the range of a `double`: zero, or a magnitude from `DBL_MIN` up to
the overflow threshold. -/
def in_double_range (value : ℚ) : Prop :=
  value = 0 ∨ (DBL_MIN ≤ |value| ∧ |value| < DBL_OVERFLOW)

instance (value : ℚ) : Decidable (in_double_range value) := by
  unfold in_double_range; infer_instance

/-- The text after the leading spaces of a string, its optional sign and the
spaces after the sign: where a coefficient or the variable marker is expected. -/
def after_sign (string : List Char) : List Char :=
  skip_spaces
    (if peek (skip_spaces string) = '+' ∨ peek (skip_spaces string) = '-'
      then (skip_spaces string).tail else skip_spaces string)

/-- The text after the coefficient of a string, when a coefficient is there (a
digit after the sign): where the variable marker is expected. -/
def after_coefficient (string : List Char) : List Char :=
  if isdigit (peek (after_sign string)) then (read_double_from_string (after_sign string)).2
  else after_sign string

/-! ## Arrays -/

theorem getD_set_eq (l : List ℚ) (i : Nat) (v : ℚ) (h : i < l.length) :
    (l.set i v).getD i 0 = v := by
  simp [List.getD_eq_getElem?_getD, h]

theorem getD_set_ne (l : List ℚ) (i j : Nat) (v : ℚ) (h : i ≠ j) :
    (l.set i v).getD j 0 = l.getD j 0 := by
  simp [List.getD_eq_getElem?_getD, List.getElem?_set_ne h]

theorem getD_replicate_zero (n d : Nat) : (List.replicate n (0 : ℚ)).getD d 0 = 0 := by
  simp only [List.getD_eq_getElem?_getD, List.getElem?_replicate]
  split <;> rfl

theorem getD_beyond (l : List ℚ) (d : Nat) (h : l.length ≤ d) : l.getD d 0 = 0 := by
  simp [List.getD_eq_getElem?_getD, List.getElem?_eq_none h]

/-! ## Stripping and the cached degree -/

theorem is_coefficient_null_iff (c : ℚ) : is_coefficient_null c = true ↔ |c| < 1 / 10000 := by
  simp [is_coefficient_null, abs_lt]

theorem not_null_iff (c : ℚ) : (!is_coefficient_null c) = true ↔ 1 / 10000 ≤ |c| := by
  rw [Bool.not_eq_true', ← not_lt, ← is_coefficient_null_iff]
  cases is_coefficient_null c <;> simp

theorem remove_null_monomials_loop_eq (l : List Monomial) :
    remove_null_monomials_loop l = l.filter (fun m => !is_coefficient_null m.coefficient) := by
  induction l with
  | nil => rfl
  | cons m l ih =>
    unfold remove_null_monomials_loop
    by_cases h : is_coefficient_null m.coefficient = true
    · simp [h, ih]
    · simp [h, ih]

theorem recalculate_degree_loop_eq (l : List Monomial) (d : Nat) :
    recalculate_degree_loop l d = max d (max_degree l) := by
  induction l generalizing d with
  | nil => simp [recalculate_degree_loop, max_degree]
  | cons m l ih =>
    simp only [recalculate_degree_loop, ih]
    have hm : max_degree (m :: l) = max m.degree (max_degree l) := rfl
    rw [hm]
    split <;> omega

theorem remove_null_first (p : Polynomial) :
    (polynomial_remove_null_monomials p).first =
      p.first.filter (fun m => !is_coefficient_null m.coefficient) := by
  simp [polynomial_remove_null_monomials, polynomial_recalculate_degree,
    remove_null_monomials_loop_eq]

theorem remove_null_degree (p : Polynomial) :
    (polynomial_remove_null_monomials p).degree =
      max_degree (polynomial_remove_null_monomials p).first := by
  simp [polynomial_remove_null_monomials, polynomial_recalculate_degree,
    recalculate_degree_loop_eq]

theorem max_degree_le (l : List Monomial) (n : Nat) (h : ∀ m ∈ l, m.degree ≤ n) :
    max_degree l ≤ n := by
  induction l with
  | nil => simp [max_degree]
  | cons m l ih =>
    have hm : max_degree (m :: l) = max m.degree (max_degree l) := rfl
    rw [hm]
    have h1 := h m (List.mem_cons_self _ _)
    have h2 := ih (fun a ha => h a (List.mem_cons_of_mem _ ha))
    omega

theorem le_max_degree (l : List Monomial) (m : Monomial) (h : m ∈ l) :
    m.degree ≤ max_degree l := by
  induction l with
  | nil => cases h
  | cons a l ih =>
    have hm : max_degree (a :: l) = max a.degree (max_degree l) := rfl
    rw [hm]
    rcases List.mem_cons.mp h with h | h
    · subst h; omega
    · have := ih h; omega

/-! ## From a coefficient array back to a chain -/

theorem polynomial_create_ok (coefficients : List ℚ) (degree : Nat)
    (h : degree < coefficients.length) :
    polynomial_create coefficients degree =
      .ok { first := (List.range (degree + 1)).map
              (fun index => monomial_create (coefficients.getD index 0) index),
            degree := degree } := by
  simp [polynomial_create, h, List.range_eq_range', List.range'_succ]

theorem create_strip_first (coefficients : List ℚ) (degree : Nat) :
    (polynomial_remove_null_monomials
      { first := (List.range (degree + 1)).map
          (fun index => monomial_create (coefficients.getD index 0) index),
        degree := degree }).first =
      dense_chain (fun index => coefficients.getD index 0) (degree + 1) := by
  rw [remove_null_first]; rfl

theorem mem_dense_chain (g : Nat → ℚ) (n : Nat) (m : Monomial) :
    m ∈ dense_chain g n ↔
      m.degree < n ∧ m.coefficient = g m.degree ∧ 1 / 10000 ≤ |g m.degree| := by
  unfold dense_chain
  rw [List.mem_filter, List.mem_map, not_null_iff]
  constructor
  · rintro ⟨⟨i, hi, rfl⟩, hc⟩
    exact ⟨List.mem_range.mp hi, rfl, hc⟩
  · rintro ⟨hd, hc, ha⟩
    refine ⟨⟨m.degree, List.mem_range.mpr hd, ?_⟩, ?_⟩
    · cases m; simp_all [monomial_create]
    · rw [hc]; exact ha

theorem pairwise_dense_chain (g : Nat → ℚ) (n : Nat) :
    (dense_chain g n).Pairwise (fun a b => a.degree < b.degree) := by
  unfold dense_chain
  apply List.Pairwise.filter
  rw [List.pairwise_map]
  exact List.pairwise_lt_range n

theorem dense_chain_congr (g g2 : Nat → ℚ) (n : Nat) (h : ∀ i, i < n → g i = g2 i) :
    dense_chain g n = dense_chain g2 n := by
  unfold dense_chain
  congr 1
  apply List.map_congr_left
  intro i hi
  rw [h i (List.mem_range.mp hi)]

/-! ## Reduction -/

theorem coeff_sum_cons (m : Monomial) (l : List Monomial) (d : Nat) :
    coeff_sum (m :: l) d = (if m.degree = d then m.coefficient else 0) + coeff_sum l d := by
  unfold coeff_sum
  by_cases h : m.degree = d <;> simp [List.filter_cons, h]

theorem coeff_sum_absent (l : List Monomial) (d : Nat) (h : ∀ m ∈ l, m.degree ≠ d) :
    coeff_sum l d = 0 := by
  induction l with
  | nil => rfl
  | cons m l ih =>
    rw [coeff_sum_cons, ih (fun a ha => h a (List.mem_cons_of_mem _ ha))]
    simp [h m (List.mem_cons_self _ _)]

theorem reduct_loop_spec (l : List Monomial) (coefficients : List ℚ)
    (h : ∀ m ∈ l, m.degree < coefficients.length) :
    ∃ result, reduct_loop l coefficients = .ok result ∧
      result.length = coefficients.length ∧
      ∀ d, result.getD d 0 = coefficients.getD d 0 + coeff_sum l d := by
  induction l generalizing coefficients with
  | nil => exact ⟨coefficients, rfl, rfl, fun d => by simp [coeff_sum]⟩
  | cons m l ih =>
    have hm := h m (List.mem_cons_self _ _)
    obtain ⟨result, hr, hlen, hget⟩ :=
      ih (coefficients.set m.degree (coefficients.getD m.degree 0 + m.coefficient))
        (fun a ha => by simpa using h a (List.mem_cons_of_mem _ ha))
    refine ⟨result, ?_, by simpa using hlen, ?_⟩
    · rw [reduct_loop, if_pos hm]; exact hr
    · intro d
      rw [hget d, coeff_sum_cons]
      by_cases hd : m.degree = d
      · subst hd
        rw [getD_set_eq _ _ _ hm]; simp; ring
      · rw [getD_set_ne _ _ _ _ hd]; simp [hd]

theorem polynomial_reduct_eq (A : Polynomial) (hA : ∀ m ∈ A.first, m.degree ≤ A.degree) :
    ∃ R, polynomial_reduct A = .ok R ∧
      R.first = dense_chain (coeff_sum A.first) (A.degree + 1) ∧
      R.degree = max_degree R.first := by
  obtain ⟨result, hr, hlen, hget⟩ :=
    reduct_loop_spec A.first (List.replicate (A.degree + 1) 0)
      (fun m hm => by have := hA m hm; simp; omega)
  have hlt : A.degree < result.length := by rw [hlen]; simp
  refine ⟨polynomial_remove_null_monomials
    { first := (List.range (A.degree + 1)).map
        (fun index => monomial_create (result.getD index 0) index),
      degree := A.degree }, ?_, ?_, remove_null_degree _⟩
  · simp only [polynomial_reduct, hr, polynomial_create_ok _ _ hlt]
  · rw [create_strip_first]
    apply dense_chain_congr
    intro i _
    rw [hget i, getD_replicate_zero]; simp

/-- C4: for a chain whose cached degree bounds every term degree,
`polynomial_reduct` returns a chain that holds a term `m` exactly when
`m = (s_d, d)` with `s_d` the accumulated coefficient of its degree and
`|s_d| >= 0.0001`; the terms are in strictly ascending degree (so at most one per
degree), none has a near-zero coefficient, and the cached degree is the largest
degree present (0 for the empty result).  `2x + 4x` reduces to `6x`. -/
theorem polynomial_reduct_spec (A : Polynomial)
    (hA : ∀ m ∈ A.first, m.degree ≤ A.degree) :
    (∃ R, polynomial_reduct A = .ok R ∧
      (∀ m, m ∈ R.first ↔
        m.coefficient = coeff_sum A.first m.degree ∧
          1 / 10000 ≤ |coeff_sum A.first m.degree|) ∧
      R.first.Pairwise (fun a b => a.degree < b.degree) ∧
      (∀ m ∈ R.first, ¬ |m.coefficient| < 1 / 10000) ∧
      R.degree = max_degree R.first) ∧
    polynomial_reduct { first := [⟨2, 1⟩, ⟨4, 1⟩], degree := 1 } =
      .ok { first := [⟨6, 1⟩], degree := 1 } := by
  refine ⟨?_, by decide!⟩
  obtain ⟨R, hR, hfirst, hdeg⟩ := polynomial_reduct_eq A hA
  have hmem : ∀ m, m ∈ R.first ↔
      m.coefficient = coeff_sum A.first m.degree ∧
        1 / 10000 ≤ |coeff_sum A.first m.degree| := by
    intro m
    rw [hfirst, mem_dense_chain]
    constructor
    · rintro ⟨_, hc, ha⟩; exact ⟨hc, ha⟩
    · rintro ⟨hc, ha⟩
      refine ⟨?_, hc, ha⟩
      by_contra hlt
      rw [coeff_sum_absent A.first m.degree
        (fun a ha hd => hlt (by have := hA a ha; omega))] at ha
      norm_num at ha
  refine ⟨R, hR, hmem, ?_, ?_, hdeg⟩
  · rw [hfirst]; exact pairwise_dense_chain _ _
  · intro m hm
    obtain ⟨hc, ha⟩ := (hmem m).mp hm
    rw [hc]; exact not_lt.mpr ha

/-- C4, at a chain: `2x + 4x`. -/
theorem polynomial_reduct_spec_witness :
    (∀ m ∈ ({ first := [⟨2, 1⟩, ⟨4, 1⟩], degree := 1 } : Polynomial).first,
      m.degree ≤ ({ first := [⟨2, 1⟩, ⟨4, 1⟩], degree := 1 } : Polynomial).degree) ∧
    ∃ R, polynomial_reduct { first := [⟨2, 1⟩, ⟨4, 1⟩], degree := 1 } = .ok R ∧
      R.degree = max_degree R.first :=
  ⟨by decide,
    let ⟨R, hR, _, _, _, hdeg⟩ :=
      (polynomial_reduct_spec { first := [⟨2, 1⟩, ⟨4, 1⟩], degree := 1 } (by decide)).1
    ⟨R, hR, hdeg⟩⟩

/-! ## Product -/

theorem list_product_cons (a : Monomial) (A B : List Monomial) :
    (a :: A).product B = B.map (fun b => (a, b)) ++ A.product B := by
  simp [List.product]

theorem product_sum_nil (B : List Monomial) (d : Nat) : product_sum [] B d = 0 := by
  simp [product_sum, List.product]

theorem product_sum_cons (a : Monomial) (A B : List Monomial) (d : Nat) :
    product_sum (a :: A) B d =
      ((B.filter (fun b => a.degree + b.degree = d)).map
        (fun b => a.coefficient * b.coefficient)).sum + product_sum A B d := by
  unfold product_sum
  rw [list_product_cons, List.filter_append, List.map_append, List.sum_append,
    List.filter_map, List.map_map]
  rfl

theorem product_sum_absent (A B : List Monomial) (d : Nat)
    (h : ∀ a ∈ A, ∀ b ∈ B, a.degree + b.degree ≠ d) : product_sum A B d = 0 := by
  induction A with
  | nil => exact product_sum_nil B d
  | cons a A ih =>
    rw [product_sum_cons, ih (fun x hx => h x (List.mem_cons_of_mem _ hx))]
    have hnil : B.filter (fun b => a.degree + b.degree = d) = [] := by
      rw [List.filter_eq_nil_iff]
      intro b hb
      simpa using h a (List.mem_cons_self _ _) b hb
    rw [hnil]; simp

theorem product_inner_loop_spec (current : Monomial) (B : List Monomial) (rc : List ℚ)
    (h : ∀ b ∈ B, current.degree + b.degree < rc.length) :
    ∃ result, product_inner_loop current B rc = .ok result ∧
      result.length = rc.length ∧
      ∀ d, result.getD d 0 = rc.getD d 0 +
        ((B.filter (fun b => current.degree + b.degree = d)).map
          (fun b => current.coefficient * b.coefficient)).sum := by
  induction B generalizing rc with
  | nil => exact ⟨rc, rfl, rfl, fun d => by simp⟩
  | cons b B ih =>
    have hb : (monomial_product current b).degree < rc.length :=
      h b (List.mem_cons_self _ _)
    obtain ⟨result, hr, hlen, hget⟩ :=
      ih (rc.set (monomial_product current b).degree
          (rc.getD (monomial_product current b).degree 0 +
            (monomial_product current b).coefficient))
        (fun x hx => by simpa using h x (List.mem_cons_of_mem _ hx))
    refine ⟨result, ?_, by simpa using hlen, ?_⟩
    · rw [product_inner_loop, if_pos hb]; exact hr
    · intro d
      rw [hget d]
      by_cases hd : current.degree + b.degree = d
      · have hd2 : (monomial_product current b).degree = d := hd
        rw [hd2, getD_set_eq _ _ _ (hd2 ▸ hb)]
        simp [List.filter_cons, hd, monomial_product, monomial_create]; ring
      · have hd2 : (monomial_product current b).degree ≠ d := hd
        rw [getD_set_ne _ _ _ _ hd2]
        simp [List.filter_cons, hd]

theorem product_outer_loop_spec (A B : List Monomial) (rc : List ℚ)
    (h : ∀ a ∈ A, ∀ b ∈ B, a.degree + b.degree < rc.length) :
    ∃ result, product_outer_loop A B rc = .ok result ∧
      result.length = rc.length ∧
      ∀ d, result.getD d 0 = rc.getD d 0 + product_sum A B d := by
  induction A generalizing rc with
  | nil => exact ⟨rc, rfl, rfl, fun d => by simp [product_sum_nil]⟩
  | cons a A ih =>
    obtain ⟨r1, hr1, hlen1, hget1⟩ :=
      product_inner_loop_spec a B rc (h a (List.mem_cons_self _ _))
    obtain ⟨r2, hr2, hlen2, hget2⟩ :=
      ih r1 (fun x hx b hb => by rw [hlen1]; exact h x (List.mem_cons_of_mem _ hx) b hb)
    refine ⟨r2, ?_, by rw [hlen2, hlen1], ?_⟩
    · rw [product_outer_loop, hr1]; exact hr2
    · intro d
      rw [hget2 d, hget1 d, product_sum_cons]; ring

theorem polynomial_product_eq (A B : Polynomial)
    (hA : ∀ m ∈ A.first, m.degree ≤ A.degree) (hB : ∀ m ∈ B.first, m.degree ≤ B.degree) :
    ∃ R, polynomial_product A B = .ok R ∧
      R.first = dense_chain (product_sum A.first B.first) (A.degree + B.degree + 1) ∧
      R.degree = max_degree R.first := by
  obtain ⟨result, hr, hlen, hget⟩ :=
    product_outer_loop_spec A.first B.first (List.replicate (A.degree + B.degree + 1) 0)
      (fun a ha b hb => by have := hA a ha; have := hB b hb; simp; omega)
  have hlt : A.degree + B.degree < result.length := by rw [hlen]; simp
  refine ⟨polynomial_remove_null_monomials
    { first := (List.range (A.degree + B.degree + 1)).map
        (fun index => monomial_create (result.getD index 0) index),
      degree := A.degree + B.degree }, ?_, ?_, remove_null_degree _⟩
  · simp only [polynomial_product, hr, polynomial_create_ok _ _ hlt]
  · rw [create_strip_first]
    apply dense_chain_congr
    intro i _
    rw [hget i, getD_replicate_zero]; simp

/-- C5: for chains whose cached degrees are their largest term degrees,
`polynomial_product` returns a chain that holds a term `m` exactly when its degree
`d` is at most `deg A + deg B` and `m = (p_d, d)` with `p_d` the sum of
`a.coefficient * b.coefficient` over the pairs with `a.degree + b.degree = d` and
`|p_d| >= 0.0001`, in strictly ascending degree; and
`product({(2,1)}, {(3,2)}) = {(6,3)}`. -/
theorem polynomial_product_spec (A B : Polynomial)
    (hA : A.degree = max_degree A.first) (hB : B.degree = max_degree B.first) :
    (∃ R, polynomial_product A B = .ok R ∧
      (∀ m, m ∈ R.first ↔
        m.degree ≤ A.degree + B.degree ∧
          m.coefficient = product_sum A.first B.first m.degree ∧
          1 / 10000 ≤ |product_sum A.first B.first m.degree|) ∧
      R.first.Pairwise (fun a b => a.degree < b.degree)) ∧
    polynomial_product { first := [⟨2, 1⟩], degree := 1 } { first := [⟨3, 2⟩], degree := 2 } =
      .ok { first := [⟨6, 3⟩], degree := 3 } := by
  refine ⟨?_, by decide!⟩
  obtain ⟨R, hR, hfirst, _⟩ := polynomial_product_eq A B
    (fun m hm => hA ▸ le_max_degree _ m hm) (fun m hm => hB ▸ le_max_degree _ m hm)
  refine ⟨R, hR, ?_, ?_⟩
  · intro m
    rw [hfirst, mem_dense_chain, Nat.lt_succ_iff]
  · rw [hfirst]; exact pairwise_dense_chain _ _

/-- C5, at the chains `2x` and `3x^2`. -/
theorem polynomial_product_spec_witness :
    ({ first := [⟨2, 1⟩], degree := 1 } : Polynomial).degree = max_degree [⟨2, 1⟩] ∧
    ({ first := [⟨3, 2⟩], degree := 2 } : Polynomial).degree = max_degree [⟨3, 2⟩] ∧
    ∃ R, polynomial_product { first := [⟨2, 1⟩], degree := 1 }
        { first := [⟨3, 2⟩], degree := 2 } = .ok R ∧
      R.first.Pairwise (fun a b => a.degree < b.degree) :=
  ⟨by decide, by decide,
    let ⟨R, hR, _, hp⟩ :=
      (polynomial_product_spec { first := [⟨2, 1⟩], degree := 1 }
        { first := [⟨3, 2⟩], degree := 2 } (by decide) (by decide)).1
    ⟨R, hR, hp⟩⟩

/-! ## The dense array of a chain -/

theorem coefficient_at_cons (m : Monomial) (l : List Monomial) (d : Nat) :
    coefficient_at (m :: l) d = if m.degree = d then m.coefficient else coefficient_at l d := by
  unfold coefficient_at
  by_cases h : m.degree = d <;> simp [List.find?_cons, h]

theorem coefficient_at_absent (l : List Monomial) (d : Nat) (h : ∀ m ∈ l, m.degree ≠ d) :
    coefficient_at l d = 0 := by
  induction l with
  | nil => rfl
  | cons m l ih =>
    rw [coefficient_at_cons, if_neg (h m (List.mem_cons_self _ _))]
    exact ih (fun a ha => h a (List.mem_cons_of_mem _ ha))

theorem convert_to_array_loop_spec (l : List Monomial) (array : List ℚ)
    (hnd : (l.map (fun m => m.degree)).Nodup) (h : ∀ m ∈ l, m.degree < array.length) :
    ∃ result, convert_to_array_loop l array = .ok result ∧
      result.length = array.length ∧
      ∀ d, result.getD d 0 =
        if d ∈ l.map (fun m => m.degree) then coefficient_at l d else array.getD d 0 := by
  induction l generalizing array with
  | nil => exact ⟨array, rfl, rfl, fun d => by simp⟩
  | cons m l ih =>
    have hm := h m (List.mem_cons_self _ _)
    rw [List.map_cons, List.nodup_cons] at hnd
    obtain ⟨result, hr, hlen, hget⟩ :=
      ih (array.set m.degree m.coefficient) hnd.2
        (fun a ha => by simpa using h a (List.mem_cons_of_mem _ ha))
    refine ⟨result, ?_, by simpa using hlen, ?_⟩
    · rw [convert_to_array_loop, if_pos hm]; exact hr
    · intro d
      rw [hget d, coefficient_at_cons]
      by_cases hd : m.degree = d
      · subst hd
        rw [if_neg hnd.1, getD_set_eq _ _ _ hm]
        simp
      · rw [getD_set_ne _ _ _ _ hd, if_neg hd]
        have hiff : (d ∈ List.map (fun m => m.degree) (m :: l)) ↔
            d ∈ List.map (fun m => m.degree) l := by
          simp only [List.map_cons, List.mem_cons]
          constructor
          · rintro (h1 | h1)
            · exact absurd h1.symm hd
            · exact h1
          · exact Or.inr
        by_cases hin : d ∈ List.map (fun m => m.degree) l
        · rw [if_pos hin, if_pos (hiff.mpr hin)]
        · rw [if_neg hin, if_neg (fun hc => hin (hiff.mp hc))]

theorem polynomial_convert_to_array_zero (A : Polynomial) (n : Nat) (hne : A.first ≠ [])
    (hnd : (A.first.map (fun m => m.degree)).Nodup) (h : ∀ m ∈ A.first, m.degree < n) :
    ∃ result, polynomial_convert_to_array A (List.replicate n 0) = .ok result ∧
      result.length = n ∧ ∀ d, result.getD d 0 = coefficient_at A.first d := by
  obtain ⟨result, hr, hlen, hget⟩ :=
    convert_to_array_loop_spec A.first (List.replicate n 0) hnd (by simpa using h)
  refine ⟨result, ?_, by simpa using hlen, ?_⟩
  · unfold polynomial_convert_to_array
    cases hA : A.first with
    | nil => exact absurd hA hne
    | cons a l => rw [hA] at hr; exact hr
  · intro d
    rw [hget d, getD_replicate_zero]
    split
    · rfl
    · rename_i hin
      symm
      apply coefficient_at_absent
      intro m hm hd
      exact hin (List.mem_map.mpr ⟨m, hm, hd⟩)

/-! ## Sum -/

theorem polynomial_sum_eq (A B : Polynomial) (hneA : A.first ≠ []) (hneB : B.first ≠ [])
    (hndA : (A.first.map (fun m => m.degree)).Nodup)
    (hndB : (B.first.map (fun m => m.degree)).Nodup)
    (hA : ∀ m ∈ A.first, m.degree ≤ A.degree) (hB : ∀ m ∈ B.first, m.degree ≤ B.degree) :
    ∃ R, polynomial_sum A B = .ok R ∧
      R.first = dense_chain (fun d => coefficient_at A.first d + coefficient_at B.first d)
        (max A.degree B.degree + 1) ∧
      R.degree = max_degree R.first := by
  have hmax : (if A.degree > B.degree then A.degree else B.degree) = max A.degree B.degree := by
    split <;> omega
  obtain ⟨r0, hr0, _, hget0⟩ :=
    polynomial_convert_to_array_zero A (max A.degree B.degree + 1) hneA hndA
      (fun m hm => by have := hA m hm; omega)
  obtain ⟨r1, hr1, _, hget1⟩ :=
    polynomial_convert_to_array_zero B (max A.degree B.degree + 1) hneB hndB
      (fun m hm => by have := hB m hm; omega)
  refine ⟨polynomial_remove_null_monomials
    { first := (List.range (max A.degree B.degree + 1)).map
        (fun index_coeff => monomial_create (r0.getD index_coeff 0 + r1.getD index_coeff 0)
          index_coeff),
      degree := max A.degree B.degree }, ?_, ?_, remove_null_degree _⟩
  · simp only [polynomial_sum, hmax, hr0, hr1]
  · rw [remove_null_first]
    show dense_chain (fun index_coeff => r0.getD index_coeff 0 + r1.getD index_coeff 0) _ = _
    apply dense_chain_congr
    intro i _
    rw [hget0 i, hget1 i]

/-- C6: for non-empty normalized chains, `polynomial_sum` returns a chain that
holds a term `m` exactly when its degree `d` is at most `max(deg A, deg B)` and
`m = (a_d + b_d, d)` with `|a_d + b_d| >= 0.0001`, where `a_d`, `b_d` are the
coefficients of degree `d` in `A`, `B` (0 when absent); the terms are in strictly
ascending degree. -/
theorem polynomial_sum_spec (A B : Polynomial) (hneA : A.first ≠ []) (hneB : B.first ≠ [])
    (hA : normalized A) (hB : normalized B) :
    ∃ R, polynomial_sum A B = .ok R ∧
      (∀ m, m ∈ R.first ↔
        m.degree ≤ max A.degree B.degree ∧
          m.coefficient = coefficient_at A.first m.degree + coefficient_at B.first m.degree ∧
          1 / 10000 ≤ |coefficient_at A.first m.degree + coefficient_at B.first m.degree|) ∧
      R.first.Pairwise (fun a b => a.degree < b.degree) := by
  obtain ⟨R, hR, hfirst, _⟩ := polynomial_sum_eq A B hneA hneB hA.1 hB.1
    (fun m hm => hA.2.2 ▸ le_max_degree _ m hm) (fun m hm => hB.2.2 ▸ le_max_degree _ m hm)
  refine ⟨R, hR, ?_, ?_⟩
  · intro m
    rw [hfirst, mem_dense_chain, Nat.lt_succ_iff]
  · rw [hfirst]; exact pairwise_dense_chain _ _

/-- C6, at `2 + 5x - 7x^2` and `2x - 11`, whose sum is `-9 + 7x - 7x^2`. -/
theorem polynomial_sum_spec_witness :
    normalized { first := [⟨2, 0⟩, ⟨5, 1⟩, ⟨-7, 2⟩], degree := 2 } ∧
    normalized { first := [⟨-11, 0⟩, ⟨2, 1⟩], degree := 1 } ∧
    polynomial_sum { first := [⟨2, 0⟩, ⟨5, 1⟩, ⟨-7, 2⟩], degree := 2 }
        { first := [⟨-11, 0⟩, ⟨2, 1⟩], degree := 1 } =
      .ok { first := [⟨-9, 0⟩, ⟨7, 1⟩, ⟨-7, 2⟩], degree := 2 } ∧
    ∃ R, polynomial_sum { first := [⟨2, 0⟩, ⟨5, 1⟩, ⟨-7, 2⟩], degree := 2 }
        { first := [⟨-11, 0⟩, ⟨2, 1⟩], degree := 1 } = .ok R ∧
      R.first.Pairwise (fun a b => a.degree < b.degree) :=
  ⟨by decide!, by decide!, by decide!,
    let ⟨R, hR, _, hp⟩ :=
      polynomial_sum_spec { first := [⟨2, 0⟩, ⟨5, 1⟩, ⟨-7, 2⟩], degree := 2 }
        { first := [⟨-11, 0⟩, ⟨2, 1⟩], degree := 1 } (by decide) (by decide)
        (by decide!) (by decide!)
    ⟨R, hR, hp⟩⟩

/-! ## Evaluation -/

theorem horner_loop_eq (coeff_array : List ℚ) (x : Int) (n : Nat) (result : ℚ) :
    horner_loop coeff_array x n result =
      result * (x : ℚ) ^ n + ∑ i ∈ Finset.range n, coeff_array.getD i 0 * (x : ℚ) ^ i := by
  induction n generalizing result with
  | zero => simp [horner_loop]
  | succ n ih =>
    rw [horner_loop, ih, Finset.sum_range_succ]
    ring

theorem sum_coefficient_at (l : List Monomial) (n : Nat) (f : Nat → ℚ)
    (hnd : (l.map (fun m => m.degree)).Nodup) (h : ∀ m ∈ l, m.degree < n) :
    ∑ i ∈ Finset.range n, coefficient_at l i * f i =
      (l.map (fun m => m.coefficient * f m.degree)).sum := by
  induction l with
  | nil => simp [coefficient_at]
  | cons m l ih =>
    rw [List.map_cons, List.nodup_cons] at hnd
    have hm := h m (List.mem_cons_self _ _)
    have h0 : coefficient_at l m.degree = 0 :=
      coefficient_at_absent l m.degree
        (fun a ha hd => hnd.1 (List.mem_map.mpr ⟨a, ha, hd⟩))
    have hsplit : ∀ i, coefficient_at (m :: l) i * f i =
        coefficient_at l i * f i +
          (if m.degree = i then (m.coefficient - coefficient_at l i) * f i else 0) := by
      intro i
      rw [coefficient_at_cons]
      split <;> ring
    simp only [hsplit, Finset.sum_add_distrib, Finset.sum_ite_eq, Finset.mem_range, hm,
      if_true, h0, List.map_cons, List.sum_cons]
    rw [ih hnd.2 (fun a ha => h a (List.mem_cons_of_mem _ ha))]
    ring

/-- C7: for a non-empty chain with pairwise distinct degrees whose cached degree
is its largest term degree, and every integer `x`, the Horner evaluation
`polynomial_compute` returns the sum over the terms of `coefficient * x^degree`,
which is the sum of `monomial_compute` over the terms; the chain read from
`7x^3 + x^2 -9x + 30` evaluates to 201 at `x = 3`. -/
theorem polynomial_compute_spec (A : Polynomial) (x : Int) (hne : A.first ≠ [])
    (hnd : (A.first.map (fun m => m.degree)).Nodup) (hdeg : A.degree = max_degree A.first) :
    polynomial_compute A x =
        .ok ((A.first.map (fun m => m.coefficient * (x : ℚ) ^ m.degree)).sum) ∧
      polynomial_compute A x = .ok ((A.first.map (fun m => monomial_compute m x)).sum) ∧
      ∃ P, polynomial_create_from_string "7x^3 + x^2 -9x + 30".toList = .ok (some P) ∧
        polynomial_compute P 3 = .ok 201 := by
  have hmain : polynomial_compute A x =
      .ok ((A.first.map (fun m => m.coefficient * (x : ℚ) ^ m.degree)).sum) := by
    have hb : ∀ m ∈ A.first, m.degree < A.degree + 1 := fun m hm => by
      have := le_max_degree _ m hm; omega
    obtain ⟨arr, harr, _, hget⟩ :=
      polynomial_convert_to_array_zero A (A.degree + 1) hne hnd hb
    unfold polynomial_compute polynomial_compute_method_horner
    cases hA : A.first with
    | nil => exact absurd hA hne
    | cons a l =>
      simp only [harr, horner_loop_eq]
      congr 1
      have hs := sum_coefficient_at A.first (A.degree + 1) (fun i => (x : ℚ) ^ i) hnd hb
      rw [Finset.sum_range_succ] at hs
      simp only [hget]
      rw [← hA, ← hs]; ring
  refine ⟨hmain, hmain, ⟨[⟨30, 0⟩, ⟨-9, 1⟩, ⟨1, 2⟩, ⟨7, 3⟩], 3⟩, by decide!, by decide!⟩

/-- C7, at the chain `30 - 9x + x^2 + 7x^3` and `x = 3`. -/
theorem polynomial_compute_spec_witness :
    (([⟨30, 0⟩, ⟨-9, 1⟩, ⟨1, 2⟩, ⟨7, 3⟩] : List Monomial).map (fun m => m.degree)).Nodup ∧
    (3 : Nat) = max_degree [⟨30, 0⟩, ⟨-9, 1⟩, ⟨1, 2⟩, ⟨7, 3⟩] ∧
    polynomial_compute { first := [⟨30, 0⟩, ⟨-9, 1⟩, ⟨1, 2⟩, ⟨7, 3⟩], degree := 3 } 3 =
      .ok (([⟨30, 0⟩, ⟨-9, 1⟩, ⟨1, 2⟩, ⟨7, 3⟩] : List Monomial).map
        (fun m => m.coefficient * ((3 : Int) : ℚ) ^ m.degree)).sum :=
  ⟨by decide, by decide,
    (polynomial_compute_spec { first := [⟨30, 0⟩, ⟨-9, 1⟩, ⟨1, 2⟩, ⟨7, 3⟩], degree := 3 } 3
      (by decide) (by decide) (by decide)).1⟩

/-! ## Derivative -/

theorem monomial_derivative_zero (m : Monomial) (h : m.degree = 0) :
    monomial_derivative m = ⟨0, 0⟩ := by
  simp [monomial_derivative, h, monomial_create]

theorem monomial_derivative_pos (m : Monomial) (h : 1 ≤ m.degree) :
    monomial_derivative m = ⟨m.coefficient * (m.degree : ℚ), m.degree - 1⟩ := by
  have hlt : ¬ ((m.degree : Int) - 1 < 0) := by omega
  have hnat : ((m.degree : Int) - 1).toNat = m.degree - 1 := by omega
  simp only [monomial_derivative, if_neg hlt, hnat, monomial_create]

theorem derivative_strip (l : List Monomial) (h : ∀ m ∈ l, ¬ |m.coefficient| < 1 / 10000) :
    (l.map monomial_derivative).filter (fun m => !is_coefficient_null m.coefficient) =
      (l.filter (fun m => 1 ≤ m.degree)).map
        (fun m => ⟨m.coefficient * (m.degree : ℚ), m.degree - 1⟩) := by
  induction l with
  | nil => rfl
  | cons m l ih =>
    have ih2 := ih (fun a ha => h a (List.mem_cons_of_mem _ ha))
    have hm := h m (List.mem_cons_self _ _)
    by_cases hd : 1 ≤ m.degree
    · have hkeep : (!is_coefficient_null (m.coefficient * (m.degree : ℚ))) = true := by
        rw [not_null_iff, abs_mul]
        have h1 : (1 : ℚ) ≤ |(m.degree : ℚ)| := by
          rw [abs_of_nonneg (by positivity)]; exact_mod_cast hd
        have h2 : 1 / 10000 ≤ |m.coefficient| := not_lt.mp hm
        nlinarith [abs_nonneg m.coefficient]
      rw [List.map_cons, monomial_derivative_pos m hd, List.filter_cons, if_pos hkeep,
        List.filter_cons, if_pos (by simpa using hd), List.map_cons, ih2]
    · have h0 : m.degree = 0 := by omega
      have hdrop : ¬ ((!is_coefficient_null (0 : ℚ)) = true) := by decide!
      rw [List.map_cons, monomial_derivative_zero m h0, List.filter_cons, if_neg hdrop,
        List.filter_cons, if_neg (by simpa using hd), ih2]

theorem max_degree_cons (m : Monomial) (l : List Monomial) :
    max_degree (m :: l) = max m.degree (max_degree l) := rfl

theorem max_degree_derivative (l : List Monomial) :
    max_degree ((l.filter (fun m => 1 ≤ m.degree)).map
      (fun m => (⟨m.coefficient * (m.degree : ℚ), m.degree - 1⟩ : Monomial))) =
      max_degree l - 1 := by
  induction l with
  | nil => rfl
  | cons m l ih =>
    by_cases hd : 1 ≤ m.degree
    · rw [List.filter_cons, if_pos (by simpa using hd), List.map_cons, max_degree_cons,
        max_degree_cons, ih]
      show max (m.degree - 1) (max_degree l - 1) = max m.degree (max_degree l) - 1
      omega
    · rw [List.filter_cons, if_neg (by simpa using hd), max_degree_cons, ih]
      omega

/-- C8: for a normalized chain of cached degree at least 1,
`polynomial_derivative` returns the chain of the terms `(c * d, d - 1)` for the
terms `(c, d)` of the input with `d >= 1`, in the input's order (a term of degree
0 contributes nothing), with cached degree `deg A - 1`. -/
theorem polynomial_derivative_spec (A : Polynomial) (hA : normalized A)
    (hdeg : 1 ≤ A.degree) :
    ∃ R, polynomial_derivative A = .ok R ∧
      R.first = (A.first.filter (fun m => 1 ≤ m.degree)).map
        (fun m => ⟨m.coefficient * (m.degree : ℚ), m.degree - 1⟩) ∧
      R.degree = A.degree - 1 := by
  obtain ⟨_, hnn, hmd⟩ := hA
  have hlt : ¬ ((A.degree : Int) - 1 < 0) := by omega
  cases hf : A.first with
  | nil => rw [hmd, hf] at hdeg; simp [max_degree] at hdeg
  | cons a l =>
    have hfirst : (polynomial_remove_null_monomials
        { first := (a :: l).map monomial_derivative, degree := A.degree - 1 }).first =
        ((a :: l).filter (fun m => 1 ≤ m.degree)).map
          (fun m => ⟨m.coefficient * (m.degree : ℚ), m.degree - 1⟩) := by
      rw [remove_null_first]
      exact derivative_strip (a :: l) (hf ▸ hnn)
    refine ⟨polynomial_remove_null_monomials
      { first := (a :: l).map monomial_derivative, degree := A.degree - 1 }, ?_, hfirst, ?_⟩
    · simp only [polynomial_derivative, hf, if_neg hlt]
    · rw [remove_null_degree, hfirst, max_degree_derivative, hmd, hf]

/-- C8, at `2 + 5x - 7x^2`, whose derivative is `5 - 14x`. -/
theorem polynomial_derivative_spec_witness :
    normalized { first := [⟨2, 0⟩, ⟨5, 1⟩, ⟨-7, 2⟩], degree := 2 } ∧
    polynomial_derivative { first := [⟨2, 0⟩, ⟨5, 1⟩, ⟨-7, 2⟩], degree := 2 } =
      .ok { first := [⟨5, 0⟩, ⟨-14, 1⟩], degree := 1 } ∧
    ∃ R, polynomial_derivative { first := [⟨2, 0⟩, ⟨5, 1⟩, ⟨-7, 2⟩], degree := 2 } = .ok R ∧
      R.degree = 2 - 1 :=
  ⟨by decide!, by decide!,
    let ⟨R, hR, _, hd⟩ :=
      polynomial_derivative_spec { first := [⟨2, 0⟩, ⟨5, 1⟩, ⟨-7, 2⟩], degree := 2 }
        (by decide!) (by decide)
    ⟨R, hR, hd⟩⟩

/-- C9: the derivative of a non-empty chain whose cached degree is 0, in
particular of the constant chain `{(c,0)}` for every `c`, is the chain holding the
single term `(0,0)` with cached degree 0; `derivative({(5,0)}) = {(0,0)}`. -/
theorem polynomial_derivative_constant (A : Polynomial) (hne : A.first ≠ [])
    (hdeg : A.degree = 0) :
    polynomial_derivative A = .ok { first := [⟨0, 0⟩], degree := 0 } ∧
      (∀ c : ℚ, polynomial_derivative { first := [⟨c, 0⟩], degree := 0 } =
        .ok { first := [⟨0, 0⟩], degree := 0 }) ∧
      polynomial_derivative { first := [⟨5, 0⟩], degree := 0 } =
        .ok { first := [⟨0, 0⟩], degree := 0 } := by
  refine ⟨?_, fun c => rfl, rfl⟩
  cases hf : A.first with
  | nil => exact absurd hf hne
  | cons a l => simp [polynomial_derivative, hf, hdeg, monomial_create]

/-- C9, at the chain `5 + 3` of cached degree 0. -/
theorem polynomial_derivative_constant_witness :
    ({ first := [⟨5, 0⟩, ⟨3, 0⟩], degree := 0 } : Polynomial).first ≠ [] ∧
    polynomial_derivative { first := [⟨5, 0⟩, ⟨3, 0⟩], degree := 0 } =
      .ok { first := [⟨0, 0⟩], degree := 0 } :=
  ⟨by decide,
    (polynomial_derivative_constant { first := [⟨5, 0⟩, ⟨3, 0⟩], degree := 0 }
      (by decide) rfl).1⟩

/-! ## Power -/

theorem monomial_copy_eq (m : Monomial) : monomial_copy m = m := rfl

theorem map_monomial_copy (l : List Monomial) : l.map monomial_copy = l := by
  induction l with
  | nil => rfl
  | cons m l ih => rw [List.map_cons, ih, monomial_copy_eq]

theorem polynomial_copy_first (A : Polynomial) : (polynomial_copy A).first = A.first := by
  simp [polynomial_copy, polynomial_recalculate_degree, map_monomial_copy]

theorem polynomial_copy_degree (A : Polynomial) :
    (polynomial_copy A).degree = max_degree A.first := by
  simp [polynomial_copy, polynomial_recalculate_degree, map_monomial_copy,
    recalculate_degree_loop_eq]

theorem dense_chain_extend (g : Nat → ℚ) (n k : Nat) (h : ∀ i, n ≤ i → g i = 0) :
    dense_chain g (n + k) = dense_chain g n := by
  induction k with
  | zero => rfl
  | succ k ih =>
    have hdrop : ¬ ((!is_coefficient_null (g (n + k))) = true) := by
      rw [h (n + k) (by omega)]; decide!
    rw [← ih]
    unfold dense_chain
    rw [← Nat.add_assoc, List.range_succ, List.map_append, List.filter_append]
    simp only [List.map_cons, List.map_nil, List.filter_cons, List.filter_nil]
    rw [if_neg (by simpa [monomial_create] using hdrop)]
    simp

theorem max_degree_attained (l : List Monomial) (h : l ≠ []) :
    ∃ m ∈ l, m.degree = max_degree l := by
  induction l with
  | nil => exact absurd rfl h
  | cons a l ih =>
    rw [max_degree_cons]
    by_cases hl : l = []
    · subst hl
      exact ⟨a, List.mem_cons_self _ _, by simp [max_degree]⟩
    · obtain ⟨m, hm, hmd⟩ := ih hl
      by_cases hle : max_degree l ≤ a.degree
      · exact ⟨a, List.mem_cons_self _ _, by omega⟩
      · exact ⟨m, List.mem_cons_of_mem _ hm, by omega⟩

theorem product_inner_loop_fault (current : Monomial) (B : List Monomial) (rc : List ℚ)
    (h : ∃ b ∈ B, rc.length ≤ current.degree + b.degree) :
    product_inner_loop current B rc = .error .outOfBounds := by
  induction B generalizing rc with
  | nil => obtain ⟨b, hb, _⟩ := h; cases hb
  | cons b0 B ih =>
    rw [product_inner_loop]
    by_cases hb0 : (monomial_product current b0).degree < rc.length
    · rw [if_pos hb0]
      apply ih
      obtain ⟨b, hb, hlen⟩ := h
      rcases List.mem_cons.mp hb with rfl | hb
      · exact absurd hb0 (by have : (monomial_product current b).degree =
          current.degree + b.degree := rfl
                             omega)
      · exact ⟨b, hb, by simpa using hlen⟩
    · rw [if_neg hb0]

theorem product_inner_loop_total (current : Monomial) (B : List Monomial) (rc : List ℚ) :
    product_inner_loop current B rc = .error .outOfBounds ∨
      ∃ result, product_inner_loop current B rc = .ok result ∧ result.length = rc.length := by
  by_cases h : ∃ b ∈ B, rc.length ≤ current.degree + b.degree
  · exact Or.inl (product_inner_loop_fault current B rc h)
  · right
    obtain ⟨result, hr, hlen, _⟩ := product_inner_loop_spec current B rc
      (fun b hb => by
        by_contra hc
        exact h ⟨b, hb, by omega⟩)
    exact ⟨result, hr, hlen⟩

theorem product_outer_loop_fault (A B : List Monomial) (rc : List ℚ)
    (h : ∃ a ∈ A, ∃ b ∈ B, rc.length ≤ a.degree + b.degree) :
    product_outer_loop A B rc = .error .outOfBounds := by
  induction A generalizing rc with
  | nil => obtain ⟨a, ha, _⟩ := h; cases ha
  | cons a0 A ih =>
    rw [product_outer_loop]
    rcases product_inner_loop_total a0 B rc with herr | ⟨result, hr, hlen⟩
    · rw [herr]
    · rw [hr]
      apply ih
      obtain ⟨a, ha, b, hb, hlen2⟩ := h
      rcases List.mem_cons.mp ha with rfl | ha
      · rw [product_inner_loop_fault a B rc ⟨b, hb, hlen2⟩] at hr
        cases hr
      · exact ⟨a, ha, b, hb, by rw [hlen]; exact hlen2⟩

theorem polynomial_product_fault (A B : Polynomial)
    (h : ∃ a ∈ A.first, ∃ b ∈ B.first, A.degree + B.degree < a.degree + b.degree) :
    polynomial_product A B = .error .outOfBounds := by
  obtain ⟨a, ha, b, hb, hlt⟩ := h
  have hf := product_outer_loop_fault A.first B.first
    (List.replicate (A.degree + B.degree + 1) 0)
    ⟨a, ha, b, hb, by simp; omega⟩
  simp only [polynomial_product, hf]

theorem power_loop_succ (A : Polynomial) (n : Nat) (hn : 1 ≤ n) (result : Polynomial) :
    power_loop A (n + 1) result =
      match power_loop A n result with
      | .ok P => polynomial_product P A
      | .error e => .error e := by
  induction n generalizing result with
  | zero => omega
  | succ k ih =>
    have hgt : k + 1 + 1 > 1 := by omega
    rw [power_loop, if_pos hgt]
    by_cases hk : 1 ≤ k
    · conv_rhs => rw [power_loop, if_pos (by omega : k + 1 > 1)]
      cases hp : polynomial_product result A with
      | error e => rfl
      | ok r => exact ih hk r
    · have hk0 : k = 0 := by omega
      subst hk0
      cases hp : polynomial_product result A with
      | error e => simp [power_loop, hp]
      | ok r => simp [power_loop, hp]

theorem polynomial_product_copy (A : Polynomial) :
    polynomial_product (polynomial_copy A) A = polynomial_product A A := by
  by_cases hle : max_degree A.first ≤ A.degree
  · have hbA : ∀ m ∈ A.first, m.degree ≤ A.degree := fun m hm => by
      have := le_max_degree _ m hm; omega
    have hbC : ∀ m ∈ (polynomial_copy A).first, m.degree ≤ (polynomial_copy A).degree := by
      intro m hm
      rw [polynomial_copy_first] at hm
      rw [polynomial_copy_degree]; exact le_max_degree _ m hm
    obtain ⟨R1, h1, hf1, hd1⟩ := polynomial_product_eq (polynomial_copy A) A hbC hbA
    obtain ⟨R2, h2, hf2, hd2⟩ := polynomial_product_eq A A hbA hbA
    rw [polynomial_copy_first, polynomial_copy_degree] at hf1
    have hzero : ∀ i, max_degree A.first + max_degree A.first + 1 ≤ i →
        product_sum A.first A.first i = 0 := by
      intro i hi
      apply product_sum_absent
      intro a ha b hb
      have := le_max_degree _ a ha
      have := le_max_degree _ b hb
      omega
    have e1 : max_degree A.first + A.degree + 1 =
        (max_degree A.first + max_degree A.first + 1) + (A.degree - max_degree A.first) := by
      omega
    have e2 : A.degree + A.degree + 1 =
        (max_degree A.first + max_degree A.first + 1) +
          ((A.degree - max_degree A.first) + (A.degree - max_degree A.first)) := by
      omega
    rw [e1, dense_chain_extend _ _ _ hzero] at hf1
    rw [e2, dense_chain_extend _ _ _ hzero] at hf2
    rw [h1, h2]
    congr 1
    cases R1; cases R2
    simp only at hf1 hf2 hd1 hd2
    subst hf1 hf2 hd1 hd2
    rfl
  · have hne : A.first ≠ [] := by
      intro h; rw [h] at hle; simp [max_degree] at hle
    obtain ⟨m, hm, hmd⟩ := max_degree_attained A.first hne
    rw [polynomial_product_fault A A ⟨m, hm, m, hm, by omega⟩]
    apply polynomial_product_fault
    rw [polynomial_copy_first, polynomial_copy_degree]
    exact ⟨m, hm, m, hm, by omega⟩

/-- C10: `polynomial_power(A, 1)` is the copy of `A`, which has the terms of `A` in
the order of `A`; for every `n >= 1`, `polynomial_power(A, n + 1)` is
`polynomial_product(polynomial_power(A, n), A)`, so that `polynomial_power(A, n)`
is obtained by `n - 1` products from the copy; and `polynomial_power(A, 2)` is
`polynomial_product(A, A)`. -/
theorem polynomial_power_spec (A : Polynomial) (n : Int) (hn : 1 ≤ n) :
    (∃ P, polynomial_power A 1 = .ok P ∧ P.first = A.first) ∧
      polynomial_power A (n + 1) =
        (match polynomial_power A n with
          | .ok P => polynomial_product P A
          | .error e => .error e) ∧
      polynomial_power A 2 = polynomial_product A A := by
  refine ⟨⟨polynomial_copy A, rfl, polynomial_copy_first A⟩, ?_, ?_⟩
  · have h1 : n + 1 > 0 := by omega
    have h2 : n > 0 := by omega
    have h3 : (n + 1).toNat = n.toNat + 1 := by omega
    unfold polynomial_power
    rw [if_pos h1, if_pos h2, h3]
    exact power_loop_succ A n.toNat (by omega) _
  · have h : polynomial_power A 2 = polynomial_product (polynomial_copy A) A := by
      show power_loop A 2 (polynomial_copy A) = _
      rw [power_loop]
      cases hp : polynomial_product (polynomial_copy A) A with
      | error e => simp
      | ok r => simp [power_loop]
    rw [h, polynomial_product_copy]

/-- C10, at `1 + x` and `n = 2`: the cube is the square times `1 + x`. -/
theorem polynomial_power_spec_witness :
    (1 : Int) ≤ 2 ∧
    polynomial_power { first := [⟨1, 0⟩, ⟨1, 1⟩], degree := 1 } (2 + 1) =
      (match polynomial_power { first := [⟨1, 0⟩, ⟨1, 1⟩], degree := 1 } 2 with
        | .ok P => polynomial_product P { first := [⟨1, 0⟩, ⟨1, 1⟩], degree := 1 }
        | .error e => .error e) ∧
    polynomial_power { first := [⟨1, 0⟩, ⟨1, 1⟩], degree := 1 } 3 =
      .ok { first := [⟨1, 0⟩, ⟨3, 1⟩, ⟨3, 2⟩, ⟨1, 3⟩], degree := 3 } :=
  ⟨by decide,
    (polynomial_power_spec { first := [⟨1, 0⟩, ⟨1, 1⟩], degree := 1 } 2 (by decide)).2.1,
    by decide!⟩

/-! ## The term reader: failure and progress -/

theorem tail_length_le (s : List Char) : s.tail.length ≤ s.length := by
  cases s <;> simp

theorem strtol_end (s : List Char) : (strtol s).2.1 = s.dropWhile isdigit := by
  unfold strtol
  dsimp only
  split <;> rfl

theorem read_variable_cases (string : List Char) (sign : Char) (coefficient : ℚ)
    (coeff_read : Bool) (cursor : List Char) :
    (∀ e, read_variable string sign coefficient coeff_read cursor e = input_error string) ∨
      ∃ c d cur, cur.length ≤ cursor.length ∧
        (coeff_read = false → cur.length < cursor.length) ∧
        ∀ e, read_variable string sign coefficient coeff_read cursor e =
          term_read sign c d cur e := by
  by_cases hx : peek cursor = 'x'
  · have hcons : cursor ≠ [] := by
      intro h; rw [h] at hx; revert hx; decide
    have htail : cursor.tail.length < cursor.length := by
      cases cursor with
      | nil => exact absurd rfl hcons
      | cons c t => simp
    by_cases hc : peek cursor.tail = '^'
    · by_cases hd : (!isdigit (peek cursor.tail.tail)) = true
      · left; intro e
        unfold read_variable
        rw [if_pos hx]; dsimp only
        rw [if_pos hc]
        rw [if_pos hd]
      · have hlen : (strtol cursor.tail.tail).2.1.length ≤ cursor.tail.tail.length := by
          rw [strtol_end]; exact (List.dropWhile_sublist _).length_le
        have htt := tail_length_le cursor.tail
        by_cases h1 : (strtol cursor.tail.tail).2.1.length = cursor.tail.tail.length ∨
            (strtol cursor.tail.tail).2.2 = true
        · left; intro e
          unfold read_variable
          rw [if_pos hx]; dsimp only
          rw [if_pos hc]
          rw [if_neg hd, if_pos h1]
        · by_cases h2 : (strtol cursor.tail.tail).1 < 0
          · left; intro e
            unfold read_variable
            rw [if_pos hx]; dsimp only
            rw [if_pos hc]
            rw [if_neg hd, if_neg h1, if_pos h2]
          · right
            refine ⟨if (!coeff_read) = true then 1 else coefficient,
              long_to_int (strtol cursor.tail.tail).1, (strtol cursor.tail.tail).2.1,
              by omega, fun _ => by omega, fun e => ?_⟩
            unfold read_variable
            rw [if_pos hx]; dsimp only
            rw [if_pos hc]
            rw [if_neg hd, if_neg h1, if_neg h2]
    · by_cases h1 : peek cursor.tail ≠ ' ' ∧ peek cursor.tail ≠ NUL
      · left; intro e
        unfold read_variable
        rw [if_pos hx]; dsimp only
        rw [if_neg hc, if_pos h1]
      · right
        refine ⟨if (!coeff_read) = true then 1 else coefficient, 1, cursor.tail,
          by omega, fun _ => by omega, fun e => ?_⟩
        unfold read_variable
        rw [if_pos hx]; dsimp only
        rw [if_neg hc, if_neg h1]
  · cases coeff_read with
    | false =>
      left; intro e
      unfold read_variable
      rw [if_neg hx]
      rfl
    | true =>
      by_cases h1 : peek cursor = NUL ∨ peek cursor = ' '
      · right
        refine ⟨coefficient, 0, cursor, le_refl _, fun h => (by cases h), fun e => ?_⟩
        unfold read_variable
        rw [if_neg hx, if_pos h1]
        rfl
      · left; intro e
        unfold read_variable
        rw [if_neg hx, if_neg h1]
        rfl

theorem skip_spaces_length (s : List Char) : (skip_spaces s).length ≤ s.length := by
  induction s with
  | nil => simp [skip_spaces]
  | cons c t ih =>
    unfold skip_spaces
    split
    · simp; omega
    · simp

theorem read_mantissa_length (base : Nat) (digit : Char → Bool) (s : List Char)
    (v : ℚ) (after : List Char) (h : read_mantissa base digit s = some (v, after)) :
    after.length ≤ s.length := by
  unfold read_mantissa at h
  dsimp only at h
  have h1 : (s.dropWhile digit).length ≤ s.length := (List.dropWhile_sublist _).length_le
  have h2 : ((s.dropWhile digit).tail.dropWhile digit).length ≤
      (s.dropWhile digit).tail.length := (List.dropWhile_sublist _).length_le
  have h3 := tail_length_le (s.dropWhile digit)
  by_cases hc : ((s.takeWhile digit).isEmpty &&
      (if peek (s.dropWhile digit) = '.' then (s.dropWhile digit).tail.takeWhile digit
        else []).isEmpty) = true
  · rw [if_pos hc] at h; cases h
  · rw [if_neg hc] at h
    simp only [Option.some.injEq, Prod.mk.injEq] at h
    rw [← h.2]
    split <;> omega

theorem read_exponent_length (lower upper : Char) (s : List Char) (neg : Bool) (e : Nat)
    (after : List Char) (h : read_exponent lower upper s = some (neg, e, after)) :
    after.length ≤ s.length := by
  cases s with
  | nil => simp [read_exponent] at h
  | cons c rest =>
    unfold read_exponent at h
    dsimp only at h
    have h1 := (List.dropWhile_sublist isdigit
      (l := if peek rest = '+' ∨ peek rest = '-' then rest.tail else rest)).length_le
    have h2 : (if peek rest = '+' ∨ peek rest = '-' then rest.tail else rest).length ≤
        rest.length := by
      split
      · exact tail_length_le rest
      · exact le_refl _
    by_cases hc : c = lower ∨ c = upper
    · rw [if_pos hc] at h
      by_cases hd : isdigit (peek (if peek rest = '+' ∨ peek rest = '-' then rest.tail
          else rest)) = true
      · rw [if_pos hd] at h
        simp only [Option.some.injEq, Prod.mk.injEq] at h
        rw [← h.2.2]
        simp only [List.length_cons]
        omega
      · rw [if_neg hd] at h; cases h
    · rw [if_neg hc] at h; cases h

theorem strtod_decimal_length (s : List Char) : (strtod_decimal s).2.length ≤ s.length := by
  unfold strtod_decimal
  cases hm : read_mantissa 10 isdigit s with
  | none => exact le_refl _
  | some r =>
    obtain ⟨v, after⟩ := r
    have h1 := read_mantissa_length _ _ _ _ _ hm
    dsimp only
    cases he : read_exponent 'e' 'E' after with
    | none => exact h1
    | some q =>
      obtain ⟨neg, e, fin⟩ := q
      have h2 := read_exponent_length _ _ _ _ _ _ he
      dsimp only
      omega

theorem strtod_hexadecimal_length (s : List Char) (r : ℚ × List Char)
    (h : strtod_hexadecimal s = some r) : r.2.length ≤ s.length := by
  unfold strtod_hexadecimal at h
  cases hm : read_mantissa 16 isxdigit s with
  | none => rw [hm] at h; cases h
  | some q =>
    obtain ⟨v, after⟩ := q
    have h1 := read_mantissa_length _ _ _ _ _ hm
    rw [hm] at h
    dsimp only at h
    cases he : read_exponent 'p' 'P' after with
    | none =>
      rw [he] at h
      simp only [Option.some.injEq] at h
      rw [← h]; exact h1
    | some q2 =>
      obtain ⟨neg, e, fin⟩ := q2
      have h2 := read_exponent_length _ _ _ _ _ _ he
      rw [he] at h
      simp only [Option.some.injEq] at h
      rw [← h]
      show fin.length ≤ s.length
      omega

theorem strtod_length (s : List Char) : (strtod s).2.length ≤ s.length := by
  unfold strtod
  split
  · rename_i c t
    split
    · cases hh : strtod_hexadecimal t with
      | none => exact strtod_decimal_length _
      | some r =>
        have := strtod_hexadecimal_length t r hh
        simp only [List.length_cons]
        omega
    · exact strtod_decimal_length _
  · exact strtod_decimal_length _

theorem read_double_from_string_length (s : List Char) :
    (read_double_from_string s).2.length ≤ s.length := by
  unfold read_double_from_string
  dsimp only
  have h1 := skip_spaces_length s
  have h2 := strtod_length (skip_spaces s)
  split
  · exact le_refl _
  · split
    · simp only [List.length_drop]
      omega
    · split
      · exact le_refl _
      · omega

theorem read_coefficient_cases (string : List Char) (sign : Char) (cursor : List Char) :
    (∀ e, read_coefficient string sign cursor e = input_error string) ∨
      ∃ c d cur, cur.length < cursor.length ∧
        ∀ e, read_coefficient string sign cursor e = term_read sign c d cur e := by
  by_cases hd : isdigit (peek cursor) = true
  · by_cases hl : (read_double_from_string cursor).2.length = cursor.length ∨
        read_double_erange cursor = true
    · left; intro e
      unfold read_coefficient
      rw [if_pos hd]; dsimp only
      rw [if_pos hl]
    · have hle := read_double_from_string_length cursor
      have hl2 : (read_double_from_string cursor).2.length ≠ cursor.length :=
        fun h => hl (Or.inl h)
      have heq : ∀ e, read_coefficient string sign cursor e =
          read_variable string sign (read_double_from_string cursor).1 true
            (read_double_from_string cursor).2 e := by
        intro e
        unfold read_coefficient
        rw [if_pos hd]; dsimp only
        rw [if_neg hl]
      rcases read_variable_cases string sign (read_double_from_string cursor).1 true
        (read_double_from_string cursor).2 with h | ⟨c, d, cur, h1, _, h3⟩
      · exact Or.inl (fun e => (heq e).trans (h e))
      · exact Or.inr ⟨c, d, cur, by omega, fun e => (heq e).trans (h3 e)⟩
  · have heq : ∀ e, read_coefficient string sign cursor e =
        read_variable string sign 0 false cursor e := by
      intro e
      unfold read_coefficient
      rw [if_neg hd]
    rcases read_variable_cases string sign 0 false cursor with h | ⟨c, d, cur, _, h2, h3⟩
    · exact Or.inl (fun e => (heq e).trans (h e))
    · exact Or.inr ⟨c, d, cur, h2 rfl, fun e => (heq e).trans (h3 e)⟩

theorem monomial_create_from_string_cases (string : List Char) :
    (∀ e, monomial_create_from_string string e = input_error string) ∨
      ∃ sign c d cur, cur.length < string.length ∧
        ∀ e, monomial_create_from_string string e = term_read sign c d cur e := by
  have h1 := skip_spaces_length string
  have h2 := skip_spaces_length
    (if peek (skip_spaces string) = '+' ∨ peek (skip_spaces string) = '-'
      then (skip_spaces string).tail else skip_spaces string)
  have h3 : (if peek (skip_spaces string) = '+' ∨ peek (skip_spaces string) = '-'
      then (skip_spaces string).tail else skip_spaces string).length ≤
      (skip_spaces string).length := by
    split
    · exact tail_length_le _
    · exact le_refl _
  rcases read_coefficient_cases string
    (if peek (skip_spaces string) = '+' ∨ peek (skip_spaces string) = '-'
      then peek (skip_spaces string) else '+')
    (skip_spaces (if peek (skip_spaces string) = '+' ∨ peek (skip_spaces string) = '-'
      then (skip_spaces string).tail else skip_spaces string)) with h | ⟨c, d, cur, hl, h⟩
  · exact Or.inl h
  · exact Or.inr ⟨_, c, d, cur, by omega, h⟩

theorem monomial_create_from_string_after_sign (s : List Char) (e : MONOMIALS_ERRNO) :
    monomial_create_from_string s e =
      read_coefficient s
        (if peek (skip_spaces s) = '+' ∨ peek (skip_spaces s) = '-' then peek (skip_spaces s)
          else '+')
        (after_sign s) e := rfl

theorem read_variable_caret (string : List Char) (sign : Char) (coefficient : ℚ)
    (coeff_read : Bool) (rest : List Char) (e : MONOMIALS_ERRNO)
    (h : isdigit (peek rest) = false) :
    read_variable string sign coefficient coeff_read ('x' :: '^' :: rest) e =
      input_error string := by
  have hx : peek ('x' :: '^' :: rest) = 'x' := rfl
  have hc : peek ('^' :: rest) = '^' := rfl
  have hd : (!isdigit (peek rest)) = true := by rw [h]; rfl
  unfold read_variable
  rw [if_pos hx]
  dsimp only
  rw [List.tail_cons, if_pos hc, List.tail_cons, if_pos hd]

theorem read_variable_letter (string : List Char) (sign : Char) (coefficient : ℚ)
    (coeff_read : Bool) (rest : List Char) (e : MONOMIALS_ERRNO)
    (h1 : peek rest ≠ '^') (h2 : peek rest ≠ ' ') (h3 : peek rest ≠ NUL) :
    read_variable string sign coefficient coeff_read ('x' :: rest) e = input_error string := by
  have hx : peek ('x' :: rest) = 'x' := rfl
  have hn : peek rest ≠ ' ' ∧ peek rest ≠ NUL := ⟨h2, h3⟩
  unfold read_variable
  rw [if_pos hx]
  dsimp only
  rw [List.tail_cons, if_neg h1, if_pos hn]

theorem no_term_start (s : List Char) (e : MONOMIALS_ERRNO)
    (hd : isdigit (peek (after_sign s)) = false) (hx : peek (after_sign s) ≠ 'x') :
    monomial_create_from_string s e = input_error s := by
  have hd2 : ¬ (isdigit (peek (after_sign s)) = true) := by rw [hd]; decide
  rw [monomial_create_from_string_after_sign]
  unfold read_coefficient
  rw [if_neg hd2]
  unfold read_variable
  rw [if_neg hx]
  rfl

theorem after_coefficient_read (s : List Char) (e : MONOMIALS_ERRNO) :
    monomial_create_from_string s e = input_error s ∨
      ∃ sign c coeff_read, monomial_create_from_string s e =
        read_variable s sign c coeff_read (after_coefficient s) e := by
  rw [monomial_create_from_string_after_sign]
  by_cases hd : isdigit (peek (after_sign s)) = true
  · have hac : after_coefficient s = (read_double_from_string (after_sign s)).2 := by
      unfold after_coefficient
      rw [if_pos hd]
    by_cases hl : (read_double_from_string (after_sign s)).2.length = (after_sign s).length ∨
        read_double_erange (after_sign s) = true
    · left
      unfold read_coefficient
      rw [if_pos hd]; dsimp only
      rw [if_pos hl]
    · right
      refine ⟨(if peek (skip_spaces s) = '+' ∨ peek (skip_spaces s) = '-'
        then peek (skip_spaces s) else '+'), (read_double_from_string (after_sign s)).1, true, ?_⟩
      unfold read_coefficient
      rw [if_pos hd]; dsimp only
      rw [if_neg hl, hac]
  · have hac : after_coefficient s = after_sign s := by
      unfold after_coefficient
      rw [if_neg hd]
    right
    refine ⟨(if peek (skip_spaces s) = '+' ∨ peek (skip_spaces s) = '-'
      then peek (skip_spaces s) else '+'), 0, false, ?_⟩
    unfold read_coefficient
    rw [if_neg hd, hac]

theorem caret_without_digit (s rest : List Char) (e : MONOMIALS_ERRNO)
    (h : after_coefficient s = 'x' :: '^' :: rest) (hd : isdigit (peek rest) = false) :
    monomial_create_from_string s e = input_error s := by
  rcases after_coefficient_read s e with hf | ⟨sign, c, cr, hr⟩
  · exact hf
  · rw [hr, h, read_variable_caret _ _ _ _ _ _ hd]

theorem marker_before_letter (s rest : List Char) (e : MONOMIALS_ERRNO)
    (h : after_coefficient s = 'x' :: rest)
    (h1 : peek rest ≠ '^') (h2 : peek rest ≠ ' ') (h3 : peek rest ≠ NUL) :
    monomial_create_from_string s e = input_error s := by
  rcases after_coefficient_read s e with hf | ⟨sign, c, cr, hr⟩
  · exact hf
  · rw [hr, h, read_variable_letter _ _ _ _ _ _ h1 h2 h3]

/-- C3: `monomial_create_from_string` either fails, returning no term, writing
`MONOMIAL_INPUT_ERROR` to the error indicator and leaving the end cursor at the
start of the input, or returns a term and leaves the indicator as it was; so it
returns no term exactly when it sets the indicator to `MONOMIAL_INPUT_ERROR`
whatever the indicator held before.  The inputs `2xy`, the empty text, a lone
sign, a letter that is not `x`, and `x^` without a digit after it fail this way;
and so does every input with neither a coefficient nor `x` (after the spaces and
the optional sign there is neither a digit nor `x`), every input whose `x^` is
not followed by a digit, and every input whose `x` is followed by a character
other than `^`, a space or the end. -/
theorem monomial_create_from_string_failure (string : List Char) (e : MONOMIALS_ERRNO) :
    ((monomial_create_from_string string e).monomial = none ∧
        (monomial_create_from_string string e).monomials_errno =
          MONOMIALS_ERRNO.MONOMIAL_INPUT_ERROR ∧
        (monomial_create_from_string string e).end_cursor = string ∨
      (∃ m, (monomial_create_from_string string e).monomial = some m) ∧
        (monomial_create_from_string string e).monomials_errno = e) ∧
    ((monomial_create_from_string string e).monomial = none ↔
      ∀ e0, (monomial_create_from_string string e0).monomials_errno =
        MONOMIALS_ERRNO.MONOMIAL_INPUT_ERROR) ∧
    monomial_create_from_string "2xy".toList MONOMIALS_ERRNO.MONOMIAL_SUCCESS =
      input_error "2xy".toList ∧
    monomial_create_from_string [] MONOMIALS_ERRNO.MONOMIAL_SUCCESS = input_error [] ∧
    monomial_create_from_string " + ".toList MONOMIALS_ERRNO.MONOMIAL_SUCCESS =
      input_error " + ".toList ∧
    monomial_create_from_string "y".toList MONOMIALS_ERRNO.MONOMIAL_SUCCESS =
      input_error "y".toList ∧
    monomial_create_from_string "2x^".toList MONOMIALS_ERRNO.MONOMIAL_SUCCESS =
      input_error "2x^".toList ∧
    monomial_create_from_string "x^ 2".toList MONOMIALS_ERRNO.MONOMIAL_SUCCESS =
      input_error "x^ 2".toList ∧
    monomial_create_from_string "x^-2".toList MONOMIALS_ERRNO.MONOMIAL_SUCCESS =
      input_error "x^-2".toList ∧
    (isdigit (peek (after_sign string)) = false → peek (after_sign string) ≠ 'x' →
      monomial_create_from_string string e = input_error string) ∧
    (∀ rest, after_coefficient string = 'x' :: '^' :: rest → isdigit (peek rest) = false →
      monomial_create_from_string string e = input_error string) ∧
    (∀ rest, after_coefficient string = 'x' :: rest →
      peek rest ≠ '^' → peek rest ≠ ' ' → peek rest ≠ NUL →
      monomial_create_from_string string e = input_error string) ∧
    after_sign " - y".toList = "y".toList ∧
    after_coefficient " - 2.5x^".toList = "x^".toList ∧
    after_coefficient "2xy".toList = "xy".toList ∧
    after_coefficient "-x^y".toList = "x^y".toList := by
  refine ⟨?_, ?_, by decide!, by decide!, by decide!, by decide!, by decide!, by decide!,
    by decide!, no_term_start string e,
    fun rest h1 h2 => caret_without_digit string rest e h1 h2,
    fun rest h1 h2 h3 h4 => marker_before_letter string rest e h1 h2 h3 h4,
    by decide, by decide!, by decide!, by decide⟩
  · rcases monomial_create_from_string_cases string with h | ⟨sign, c, d, cur, _, h⟩
    · left; rw [h e]; exact ⟨rfl, rfl, rfl⟩
    · right; rw [h e]; exact ⟨⟨_, rfl⟩, rfl⟩
  · rcases monomial_create_from_string_cases string with h | ⟨sign, c, d, cur, _, h⟩
    · constructor
      · intro _ e0; rw [h e0]; rfl
      · intro _; rw [h e]; rfl
    · constructor
      · intro hn; rw [h e] at hn; cases hn
      · intro hall
        have := hall MONOMIALS_ERRNO.MONOMIAL_SUCCESS
        rw [h] at this
        cases this

/-! ## The polynomial reader -/

theorem create_from_string_loop_spec (cursor : List Char) (terms : List Monomial)
    (h : ParsesTo cursor terms) :
    ∀ (fuel : Nat) (chain : List Monomial) (max_monomial_degree : Nat),
      cursor.length < fuel →
      create_from_string_loop fuel cursor chain max_monomial_degree =
        .ok (chain ++ terms, max max_monomial_degree (max_degree terms)) := by
  induction h with
  | done cursor hnul =>
    intro fuel chain mx hfuel
    cases fuel with
    | zero => omega
    | succ fuel =>
      rw [create_from_string_loop, if_pos hnul]
      simp [max_degree]
  | term cursor m terms hnul hm hrest ih =>
    intro fuel chain mx hfuel
    cases fuel with
    | zero => omega
    | succ fuel =>
      rw [create_from_string_loop, if_neg hnul]
      dsimp only
      rcases monomial_create_from_string_cases cursor with hfail | ⟨sign, c, d, cur, hlen, hok⟩
      · rw [hfail] at hm; cases hm
      · rw [hok] at hm hrest ih ⊢
        have hne : ¬ ((term_read sign c d cur MONOMIALS_ERRNO.MONOMIAL_SUCCESS).monomials_errno =
            MONOMIALS_ERRNO.MONOMIAL_INPUT_ERROR) := by
          intro hc; cases hc
        rw [if_neg hne, hm]
        dsimp only
        have hskip := skip_spaces_length
          (term_read sign c d cur MONOMIALS_ERRNO.MONOMIAL_SUCCESS).end_cursor
        have hcur : (term_read sign c d cur MONOMIALS_ERRNO.MONOMIAL_SUCCESS).end_cursor = cur :=
          rfl
        rw [hcur] at hskip
        rw [ih fuel (chain ++ [m]) (if mx < m.degree then m.degree else mx)
          (by rw [hcur]; omega)]
        rw [max_degree_cons, List.append_assoc]
        congr 2
        split <;> omega

theorem coeff_sum_nil (d : Nat) : coeff_sum [] d = 0 := rfl

/-- C1: on a line where every term read succeeds, giving the terms `terms`,
`polynomial_create_from_string` returns; with `survivors` the read terms whose
coefficient is not below the tolerance and `s_d` the sum of the coefficients of
the survivors of degree `d`, the returned chain (no term for the `NULL` result)
holds a term `m` exactly when `m = (s_d, d)` with `|s_d| >= 0.0001`, in strictly
ascending degree.  `2x - 6x` gives `{(-4,1)}` and `7x^3 + x^2 -9x + 30` gives
`{(30,0), (-9,1), (1,2), (7,3)}`. -/
theorem polynomial_create_from_string_spec (string : List Char) (terms : List Monomial)
    (h : ParsesTo string terms) :
    (∃ r, polynomial_create_from_string string = .ok r ∧
      (∀ m, m ∈ chain_of r ↔
        m.coefficient =
            coeff_sum (terms.filter (fun t => ¬ |t.coefficient| < 1 / 10000)) m.degree ∧
          1 / 10000 ≤
            |coeff_sum (terms.filter (fun t => ¬ |t.coefficient| < 1 / 10000)) m.degree|) ∧
      (chain_of r).Pairwise (fun a b => a.degree < b.degree)) ∧
    polynomial_create_from_string "2x - 6x".toList =
      .ok (some { first := [⟨-4, 1⟩], degree := 1 }) ∧
    polynomial_create_from_string "7x^3 + x^2 -9x + 30".toList =
      .ok (some { first := [⟨30, 0⟩, ⟨-9, 1⟩, ⟨1, 2⟩, ⟨7, 3⟩], degree := 3 }) := by
  refine ⟨?_, by decide!, by decide!⟩
  have hfilter : terms.filter (fun t => ¬ |t.coefficient| < 1 / 10000) =
      terms.filter (fun m => !is_coefficient_null m.coefficient) := by
    apply List.filter_congr
    intro t _
    have := is_coefficient_null_iff t.coefficient
    cases hn : is_coefficient_null t.coefficient <;> simp_all
  rw [hfilter]
  have hloop := create_from_string_loop_spec string terms h (string.length + 1) [] 0
    (Nat.lt_succ_self _)
  rw [List.nil_append] at hloop
  have hsv : (polynomial_remove_null_monomials
      { first := terms, degree := max 0 (max_degree terms) }).first =
      terms.filter (fun m => !is_coefficient_null m.coefficient) := remove_null_first _
  have hsvd := remove_null_degree { first := terms, degree := max 0 (max_degree terms) }
  unfold polynomial_create_from_string
  rw [hloop]
  dsimp only
  cases hs : (polynomial_remove_null_monomials
      { first := terms, degree := max 0 (max_degree terms) }).first with
  | nil =>
    refine ⟨none, rfl, ?_, List.Pairwise.nil⟩
    intro m
    rw [← hsv, hs, coeff_sum_nil]
    constructor
    · intro hm; cases hm
    · rintro ⟨_, ha⟩; norm_num at ha
  | cons a l =>
    obtain ⟨R, hR, hfirst, _⟩ := polynomial_reduct_eq
      (polynomial_remove_null_monomials { first := terms, degree := max 0 (max_degree terms) })
      (fun m hm => by rw [hsvd]; exact le_max_degree _ m hm)
    rw [hR]
    dsimp only
    have hmem : ∀ m, m ∈ R.first ↔
        m.coefficient =
            coeff_sum (terms.filter (fun m => !is_coefficient_null m.coefficient)) m.degree ∧
          1 / 10000 ≤
            |coeff_sum (terms.filter (fun m => !is_coefficient_null m.coefficient)) m.degree| := by
      intro m
      rw [hfirst, mem_dense_chain, hsv]
      constructor
      · rintro ⟨_, hc, ha⟩; exact ⟨hc, ha⟩
      · rintro ⟨hc, ha⟩
        refine ⟨?_, hc, ha⟩
        by_contra hlt
        rw [coeff_sum_absent _ m.degree (fun t ht hd => hlt (by
          have h1 := le_max_degree _ t (hsv ▸ ht)
          rw [← hsvd] at h1
          omega))] at ha
        norm_num at ha
    have hpw : R.first.Pairwise (fun a b => a.degree < b.degree) := by
      rw [hfirst]; exact pairwise_dense_chain _ _
    cases hRf : R.first with
    | nil =>
      refine ⟨none, rfl, ?_, List.Pairwise.nil⟩
      intro m
      rw [← hmem m, hRf]
      rfl
    | cons b l2 =>
      refine ⟨some R, rfl, ?_, ?_⟩
      · intro m; exact hmem m
      · exact hpw

/-- C1, at the line `2x - 6x`, on which the reader finds `2x` and `-6x`. -/
theorem polynomial_create_from_string_spec_witness :
    ParsesTo "2x - 6x".toList [⟨2, 1⟩, ⟨-6, 1⟩] ∧
    ∃ r, polynomial_create_from_string "2x - 6x".toList = .ok r ∧
      (chain_of r).Pairwise (fun a b => a.degree < b.degree) :=
  have h3 : ParsesTo [] [] := ParsesTo.done [] (by decide)
  have e2 : skip_spaces (monomial_create_from_string "- 6x".toList
      MONOMIALS_ERRNO.MONOMIAL_SUCCESS).end_cursor = [] := by decide!
  have h2 : ParsesTo "- 6x".toList [⟨-6, 1⟩] :=
    ParsesTo.term _ _ _ (by decide) (by decide!) (e2 ▸ h3)
  have e1 : skip_spaces (monomial_create_from_string "2x - 6x".toList
      MONOMIALS_ERRNO.MONOMIAL_SUCCESS).end_cursor = "- 6x".toList := by decide!
  have h1 : ParsesTo "2x - 6x".toList [⟨2, 1⟩, ⟨-6, 1⟩] :=
    ParsesTo.term _ _ _ (by decide) (by decide!) (e1 ▸ h2)
  ⟨h1,
    let ⟨r, hr, _, hp⟩ := (polynomial_create_from_string_spec _ _ h1).1
    ⟨r, hr, hp⟩⟩

/-! ## The term reader on a well-formed term -/

theorem skip_spaces_replicate (n : Nat) (s : List Char) :
    skip_spaces (List.replicate n ' ' ++ s) = skip_spaces s := by
  induction n with
  | zero => rfl
  | succ n ih =>
    rw [List.replicate_succ, List.cons_append, skip_spaces, if_pos rfl, ih]

theorem skip_spaces_id (s : List Char) (h : peek s ≠ ' ') : skip_spaces s = s := by
  cases s with
  | nil => rfl
  | cons c t =>
    have hc : c ≠ ' ' := h
    rw [skip_spaces, if_neg hc]

theorem peek_append (l u : List Char) (h : l ≠ []) : peek (l ++ u) = peek l := by
  cases l with
  | nil => exact absurd rfl h
  | cons c t => rfl

theorem peek_mem (l : List Char) (h : l ≠ []) : peek l ∈ l := by
  cases l with
  | nil => exact absurd rfl h
  | cons c t => exact List.mem_cons_self _ _

theorem takeWhile_run (p : Char → Bool) (ds u : List Char) (hds : ∀ c ∈ ds, p c = true)
    (hu : u = [] ∨ p (peek u) = false) : (ds ++ u).takeWhile p = ds := by
  induction ds with
  | nil =>
    cases u with
    | nil => rfl
    | cons c t =>
      rcases hu with hu | hu
      · cases hu
      · rw [List.nil_append, List.takeWhile_cons]
        have : p c = false := hu
        rw [this]; rfl
  | cons d ds ih =>
    rw [List.cons_append, List.takeWhile_cons, hds d (List.mem_cons_self _ _)]
    simp only [if_true]
    rw [ih (fun c hc => hds c (List.mem_cons_of_mem _ hc))]

theorem dropWhile_run (p : Char → Bool) (ds u : List Char) (hds : ∀ c ∈ ds, p c = true)
    (hu : u = [] ∨ p (peek u) = false) : (ds ++ u).dropWhile p = u := by
  induction ds with
  | nil =>
    cases u with
    | nil => rfl
    | cons c t =>
      rcases hu with hu | hu
      · cases hu
      · rw [List.nil_append, List.dropWhile_cons]
        have : p c = false := hu
        rw [this]; rfl
  | cons d ds ih =>
    rw [List.cons_append, List.dropWhile_cons, hds d (List.mem_cons_self _ _)]
    simp only [if_true]
    rw [ih (fun c hc => hds c (List.mem_cons_of_mem _ hc))]

theorem replace_first_x_run (ds t : List Char) (hds : ∀ c ∈ ds, c ≠ 'x') :
    replace_first_x (ds ++ 'x' :: t) = ds ++ ' ' :: t := by
  induction ds with
  | nil => rw [List.nil_append, replace_first_x, if_pos rfl]; rfl
  | cons d ds ih =>
    rw [List.cons_append, replace_first_x, if_neg (hds d (List.mem_cons_self _ _)),
      ih (fun c hc => hds c (List.mem_cons_of_mem _ hc))]
    rfl

theorem isdigit_ne (c : Char) (h : isdigit c = true) :
    c ≠ 'x' ∧ c ≠ 'X' ∧ c ≠ ' ' ∧ c ≠ '.' ∧ c ≠ '+' ∧ c ≠ '-' ∧ c ≠ 'e' ∧ c ≠ 'E' ∧
      c ≠ NUL := by
  refine ⟨?_, ?_, ?_, ?_, ?_, ?_, ?_, ?_, ?_⟩ <;>
  · rintro rfl
    revert h
    decide

/-- The characters of a decimal coefficient: digits, then optionally a point and
more digits. -/
theorem read_mantissa_decimal (ip fr u : List Char) (hne : ip ≠ [])
    (hip : ∀ c ∈ ip, isdigit c = true) (hfr : ∀ c ∈ fr, isdigit c = true)
    (hu : u = [] ∨ peek u = ' ') :
    read_mantissa 10 isdigit (ip ++ u) = some ((digits_value 10 ip : ℚ), u) ∧
    read_mantissa 10 isdigit (ip ++ ('.' :: (fr ++ u))) =
      some ((digits_value 10 ip : ℚ) +
        (digits_value 10 fr : ℚ) / ((10 ^ fr.length : Nat) : ℚ), u) := by
  have hu1 : u = [] ∨ isdigit (peek u) = false := by
    rcases hu with h | h
    · exact Or.inl h
    · right; rw [h]; decide
  have hu2 : peek u ≠ '.' := by
    rcases hu with h | h
    · rw [h]; decide
    · rw [h]; decide
  have hemp : ip.isEmpty = false := by
    cases ip with
    | nil => exact absurd rfl hne
    | cons c t => rfl
  constructor
  · unfold read_mantissa
    dsimp only
    rw [takeWhile_run isdigit ip u hip hu1, dropWhile_run isdigit ip u hip hu1, if_neg hu2,
      if_neg hu2, hemp]
    simp [digits_value]
  · have hdot : ('.' :: (fr ++ u)) = [] ∨ isdigit (peek ('.' :: (fr ++ u))) = false := by
      right; exact (by decide : isdigit '.' = false)
    have hpk : peek ('.' :: (fr ++ u)) = '.' := rfl
    unfold read_mantissa
    dsimp only
    rw [takeWhile_run isdigit ip _ hip hdot, dropWhile_run isdigit ip _ hip hdot, if_pos hpk,
      if_pos hpk, List.tail_cons, takeWhile_run isdigit fr u hfr hu1,
      dropWhile_run isdigit fr u hfr hu1, hemp]
    simp

theorem read_exponent_none (lower upper : Char) (u : List Char) (hl : lower ≠ ' ')
    (hup : upper ≠ ' ') (hu : u = [] ∨ peek u = ' ') : read_exponent lower upper u = none := by
  cases u with
  | nil => rfl
  | cons c t =>
    rcases hu with h | h
    · cases h
    · have hc : c = ' ' := h
      subst hc
      rw [read_exponent, if_neg (by
        rintro (h1 | h1)
        · exact hl h1.symm
        · exact hup h1.symm)]

theorem strtod_not_hexadecimal (nptr : List Char)
    (h : ∀ c s, nptr = '0' :: c :: s → c ≠ 'x' ∧ c ≠ 'X') :
    strtod nptr = strtod_decimal nptr := by
  unfold strtod
  split
  · rename_i c s
    have hc := h c s rfl
    rw [if_neg (by
      rintro (h1 | h1)
      · exact hc.1 h1
      · exact hc.2 h1)]
  · rfl

theorem head_of_append (l u : List Char) (c : Char) (s : List Char) (h : l ++ u = c :: s) :
    c ∈ l ∨ (l = [] ∧ u = c :: s) := by
  cases l with
  | nil => exact Or.inr ⟨rfl, h⟩
  | cons a l =>
    rw [List.cons_append] at h
    injection h with h1 h2
    subst h1
    exact Or.inl (List.mem_cons_self _ _)

theorem second_char (C u : List Char) (hne : C ≠ [])
    (hC : ∀ c ∈ C, c ≠ 'x' ∧ c ≠ 'X') (hu : u = [] ∨ peek u = ' ') :
    ∀ c s, C ++ u = '0' :: c :: s → c ≠ 'x' ∧ c ≠ 'X' := by
  intro c s h
  cases C with
  | nil => exact absurd rfl hne
  | cons a C =>
    rw [List.cons_append] at h
    injection h with _ h2
    rcases head_of_append C u c s h2 with hc | ⟨_, hc⟩
    · exact hC c (List.mem_cons_of_mem _ hc)
    · rcases hu with hu | hu
      · rw [hu] at hc; cases hc
      · rw [hc] at hu
        have : c = ' ' := hu
        subst this
        decide

theorem strtod_run (ip fr u : List Char) (hne : ip ≠ [])
    (hip : ∀ c ∈ ip, isdigit c = true) (hfr : ∀ c ∈ fr, isdigit c = true)
    (hu : u = [] ∨ peek u = ' ') :
    strtod (ip ++ u) = ((digits_value 10 ip : ℚ), u) ∧
    strtod ((ip ++ '.' :: fr) ++ u) =
      ((digits_value 10 ip : ℚ) +
        (digits_value 10 fr : ℚ) / ((10 ^ fr.length : Nat) : ℚ), u) := by
  obtain ⟨hm1, hm2⟩ := read_mantissa_decimal ip fr u hne hip hfr hu
  have hex := read_exponent_none 'e' 'E' u (by decide) (by decide) hu
  constructor
  · rw [strtod_not_hexadecimal _ (second_char ip u hne
      (fun c hc => ⟨(isdigit_ne c (hip c hc)).1, (isdigit_ne c (hip c hc)).2.1⟩) hu)]
    unfold strtod_decimal
    rw [hm1]
    dsimp only
    rw [hex]
  · have hne2 : ip ++ '.' :: fr ≠ [] := by
      intro h; exact hne (List.append_eq_nil.mp h).1
    rw [strtod_not_hexadecimal _ (second_char (ip ++ '.' :: fr) u hne2 (by
      intro c hc
      rcases List.mem_append.mp hc with h1 | h1
      · exact ⟨(isdigit_ne c (hip c h1)).1, (isdigit_ne c (hip c h1)).2.1⟩
      · rcases List.mem_cons.mp h1 with h2 | h2
        · subst h2; decide
        · exact ⟨(isdigit_ne c (hfr c h2)).1, (isdigit_ne c (hfr c h2)).2.1⟩) hu)]
    unfold strtod_decimal
    rw [List.append_assoc, List.cons_append, hm2]
    dsimp only
    rw [hex]

theorem read_double_run (C : List Char) (v : ℚ) (hne : C ≠ [])
    (hd : isdigit (peek C) = true)
    (hpd : ∀ c ∈ C, (c == '.' || isdigit c) = true)
    (hs : ∀ u, (u = [] ∨ peek u = ' ') → strtod (C ++ u) = (v, u))
    (tail : List Char) (ht : tail = [] ∨ peek tail = ' ' ∨ peek tail = 'x') :
    read_double_from_string (C ++ tail) = (v, tail) := by
  have hpk : peek (C ++ tail) = peek C := peek_append C tail hne
  have hskip : skip_spaces (C ++ tail) = C ++ tail := by
    apply skip_spaces_id
    rw [hpk]
    exact (isdigit_ne _ hd).2.2.1
  have hnd : ¬ ((!isdigit (peek (C ++ tail))) = true) := by
    rw [hpk, hd]; decide
  have htl : tail = [] ∨ (fun c => c == '.' || isdigit c) (peek tail) = false := by
    rcases ht with h | h | h
    · exact Or.inl h
    · right; rw [h]; decide
    · right; rw [h]; decide
  have hdrop := dropWhile_run (fun c => c == '.' || isdigit c) C tail hpd htl
  unfold read_double_from_string
  dsimp only
  rw [hskip, if_neg hnd, hdrop]
  by_cases hx : peek tail = 'x'
  · rw [if_pos hx]
    cases tail with
    | nil => exact absurd hx (by decide)
    | cons c t =>
      have hc : c = 'x' := hx
      subst hc
      have hnx : ∀ c ∈ C, c ≠ 'x' := by
        intro c hc hcx
        subst hcx
        have := hpd _ hc
        revert this
        decide
      rw [replace_first_x_run C t hnx, hs (' ' :: t) (Or.inr rfl)]
      dsimp only
      have hlen : (C ++ ' ' :: t).length - (' ' :: t).length = C.length := by
        simp
      rw [hlen, List.drop_left]
  · rw [if_neg hx]
    have hu : tail = [] ∨ peek tail = ' ' := by
      rcases ht with h | h | h
      · exact Or.inl h
      · exact Or.inr h
      · exact absurd h hx
    rw [hs tail hu]
    dsimp only
    have hlen : ¬ (tail.length = (C ++ tail).length) := by
      have : 0 < C.length := List.length_pos.mpr hne
      simp only [List.length_append]
      omega
    rw [if_neg hlen]

theorem strtol_run (ed rest : List Char) (hed : ∀ c ∈ ed, isdigit c = true)
    (hrest : isdigit (peek rest) = false) (hmax : (digits_value 10 ed : Int) ≤ LONG_MAX) :
    strtol (ed ++ rest) = ((digits_value 10 ed : Int), rest, false) := by
  have hr : rest = [] ∨ isdigit (peek rest) = false := Or.inr hrest
  unfold strtol
  dsimp only
  rw [takeWhile_run isdigit ed rest hed hr, dropWhile_run isdigit ed rest hed hr,
    if_neg (by omega)]

theorem int_to_unsigned_long_to_int (n : Nat) (h : n < 2 ^ 32) :
    int_to_unsigned (long_to_int (n : Int)) = n := by
  unfold int_to_unsigned long_to_int
  omega

theorem read_variable_none (string : List Char) (sign : Char) (coefficient : ℚ)
    (rest : List Char) (e : MONOMIALS_ERRNO) (hrest : rest = [] ∨ peek rest = ' ') :
    read_variable string sign coefficient true rest e = term_read sign coefficient 0 rest e := by
  have hx : ¬ (peek rest = 'x') := by
    rcases hrest with h | h <;> rw [h] <;> decide
  have h1 : peek rest = NUL ∨ peek rest = ' ' := by
    rcases hrest with h | h
    · left; rw [h]; rfl
    · exact Or.inr h
  unfold read_variable
  rw [if_neg hx, if_pos h1]
  rfl

theorem read_variable_x (string : List Char) (sign : Char) (coefficient : ℚ)
    (coeff_read : Bool) (rest : List Char) (e : MONOMIALS_ERRNO)
    (hrest : rest = [] ∨ peek rest = ' ') :
    read_variable string sign coefficient coeff_read ('x' :: rest) e =
      term_read sign (if (!coeff_read) = true then 1 else coefficient) 1 rest e := by
  have hx : peek ('x' :: rest) = 'x' := rfl
  have hc : ¬ (peek rest = '^') := by
    rcases hrest with h | h <;> rw [h] <;> decide
  have h1 : ¬ (peek rest ≠ ' ' ∧ peek rest ≠ NUL) := by
    rintro ⟨h2, h3⟩
    rcases hrest with h | h
    · rw [h] at h3; exact h3 rfl
    · exact h2 h
  unfold read_variable
  rw [if_pos hx]
  dsimp only
  rw [List.tail_cons, if_neg hc, if_neg h1]

theorem read_variable_power (string : List Char) (sign : Char) (coefficient : ℚ)
    (coeff_read : Bool) (ed rest : List Char) (e : MONOMIALS_ERRNO)
    (hne : ed ≠ []) (hed : ∀ c ∈ ed, isdigit c = true)
    (hrest : isdigit (peek rest) = false) (hmax : (digits_value 10 ed : Int) ≤ LONG_MAX) :
    read_variable string sign coefficient coeff_read ('x' :: '^' :: (ed ++ rest)) e =
      term_read sign (if (!coeff_read) = true then 1 else coefficient)
        (long_to_int (digits_value 10 ed : Int)) rest e := by
  have hx : peek ('x' :: '^' :: (ed ++ rest)) = 'x' := rfl
  have hc : peek ('^' :: (ed ++ rest)) = '^' := rfl
  have hd : ¬ ((!isdigit (peek (ed ++ rest))) = true) := by
    rw [peek_append ed rest hne, hed _ (peek_mem ed hne)]; decide
  have hl : ¬ (rest.length = (ed ++ rest).length ∨ false = true) := by
    have : 0 < ed.length := List.length_pos.mpr hne
    simp only [List.length_append]
    rintro (h | h)
    · omega
    · cases h
  have hv : ¬ ((digits_value 10 ed : Int) < 0) := by omega
  unfold read_variable
  rw [if_pos hx]
  dsimp only
  rw [List.tail_cons, if_pos hc, List.tail_cons, if_neg hd,
    strtol_run ed rest hed hrest hmax]
  dsimp only
  rw [if_neg hl, if_neg hv]

theorem monomial_create_from_string_sign (lead gap : Nat) (sign : Option Bool)
    (body : List Char) (e : MONOMIALS_ERRNO)
    (hb : peek body ≠ ' ' ∧ peek body ≠ '+' ∧ peek body ≠ '-') :
    monomial_create_from_string
        (List.replicate lead ' ' ++ (sign_text sign ++ (List.replicate gap ' ' ++ body))) e =
      read_coefficient
        (List.replicate lead ' ' ++ (sign_text sign ++ (List.replicate gap ' ' ++ body)))
        (if sign = some true then '-' else '+') body e := by
  have hbody : skip_spaces body = body := skip_spaces_id body hb.1
  have hgap : skip_spaces (List.replicate gap ' ' ++ body) = body := by
    rw [skip_spaces_replicate, hbody]
  unfold monomial_create_from_string
  dsimp only
  rw [skip_spaces_replicate]
  cases sign with
  | none =>
    have hns : ¬ (peek body = '+' ∨ peek body = '-') := by
      rintro (h | h)
      · exact hb.2.1 h
      · exact hb.2.2 h
    rw [sign_text, List.nil_append, hgap, if_neg hns, if_neg hns, hbody]
    rfl
  | some b =>
    cases b with
    | false =>
      have hs : skip_spaces (['+'] ++ (List.replicate gap ' ' ++ body)) =
          '+' :: (List.replicate gap ' ' ++ body) :=
        skip_spaces_id _ (show '+' ≠ ' ' by decide)
      have hp : peek ('+' :: (List.replicate gap ' ' ++ body)) = '+' ∨
          peek ('+' :: (List.replicate gap ' ' ++ body)) = '-' := Or.inl rfl
      rw [sign_text, hs, if_pos hp, if_pos hp, List.tail_cons, hgap]
      rfl
    | true =>
      have hs : skip_spaces (['-'] ++ (List.replicate gap ' ' ++ body)) =
          '-' :: (List.replicate gap ' ' ++ body) :=
        skip_spaces_id _ (show '-' ≠ ' ' by decide)
      have hp : peek ('-' :: (List.replicate gap ' ' ++ body)) = '+' ∨
          peek ('-' :: (List.replicate gap ' ' ++ body)) = '-' := Or.inr rfl
      rw [sign_text, hs, if_pos hp, if_pos hp, List.tail_cons, hgap]
      rfl

theorem DBL_OVERFLOW_pos : 0 < DBL_OVERFLOW := by
  unfold DBL_OVERFLOW
  exact Nat.cast_pos.mpr (by decide!)

theorem DBL_MIN_pos : 0 < DBL_MIN := by
  unfold DBL_MIN
  exact one_div_pos.mpr (Nat.cast_pos.mpr (by decide!))

theorem DBL_MIN_le_hundredth : DBL_MIN ≤ 1 / 100 := by
  unfold DBL_MIN
  apply one_div_le_one_div_of_le (by norm_num)
  have h : (100 : Nat) ≤ 2 ^ 1022 := by decide!
  exact_mod_cast h

theorem strtod_range_error_eq_false (v : ℚ) (h0 : 0 ≤ v)
    (h : v = 0 ∨ (DBL_MIN ≤ v ∧ v < DBL_OVERFLOW)) : strtod_range_error v = false := by
  unfold strtod_range_error
  rcases h with h | ⟨h1, h2⟩
  · subst h
    simp [not_le.mpr DBL_OVERFLOW_pos]
  · simp [not_le.mpr h2, not_lt.mpr h1]

theorem strtod_range_error_eq_true (v : ℚ) (h : DBL_OVERFLOW ≤ v) :
    strtod_range_error v = true := by
  unfold strtod_range_error
  simp [h]

theorem read_double_erange_run (C : List Char) (v : ℚ) (hne : C ≠ [])
    (hd : isdigit (peek C) = true)
    (hpd : ∀ c ∈ C, (c == '.' || isdigit c) = true)
    (hs : ∀ u, (u = [] ∨ peek u = ' ') → strtod (C ++ u) = (v, u))
    (tail : List Char) (ht : tail = [] ∨ peek tail = ' ' ∨ peek tail = 'x') :
    read_double_erange (C ++ tail) = strtod_range_error v := by
  have hpk : peek (C ++ tail) = peek C := peek_append C tail hne
  have hskip : skip_spaces (C ++ tail) = C ++ tail := by
    apply skip_spaces_id
    rw [hpk]
    exact (isdigit_ne _ hd).2.2.1
  have hnd : ¬ ((!isdigit (peek (C ++ tail))) = true) := by
    rw [hpk, hd]; decide
  have htl : tail = [] ∨ (fun c => c == '.' || isdigit c) (peek tail) = false := by
    rcases ht with h | h | h
    · exact Or.inl h
    · right; rw [h]; decide
    · right; rw [h]; decide
  have hdrop := dropWhile_run (fun c => c == '.' || isdigit c) C tail hpd htl
  unfold read_double_erange
  dsimp only
  rw [hskip, if_neg hnd, hdrop]
  by_cases hx : peek tail = 'x'
  · rw [if_pos hx]
    cases tail with
    | nil => exact absurd hx (by decide)
    | cons c t =>
      have hc : c = 'x' := hx
      subst hc
      have hnx : ∀ c ∈ C, c ≠ 'x' := by
        intro c hc hcx
        subst hcx
        have := hpd _ hc
        revert this
        decide
      rw [replace_first_x_run C t hnx]
      unfold strtod_erange
      rw [hs (' ' :: t) (Or.inr rfl)]
  · rw [if_neg hx]
    have hu : tail = [] ∨ peek tail = ' ' := by
      rcases ht with h | h | h
      · exact Or.inl h
      · exact Or.inr h
      · exact absurd h hx
    unfold strtod_erange
    rw [hs tail hu]

theorem read_coefficient_run (string : List Char) (sign : Char) (C : List Char) (v : ℚ)
    (hne : C ≠ []) (hd : isdigit (peek C) = true)
    (hpd : ∀ c ∈ C, (c == '.' || isdigit c) = true)
    (hs : ∀ u, (u = [] ∨ peek u = ' ') → strtod (C ++ u) = (v, u))
    (hr : strtod_range_error v = false)
    (tail : List Char) (ht : tail = [] ∨ peek tail = ' ' ∨ peek tail = 'x')
    (e : MONOMIALS_ERRNO) :
    read_coefficient string sign (C ++ tail) e = read_variable string sign v true tail e := by
  have hpk : isdigit (peek (C ++ tail)) = true := by rw [peek_append C tail hne]; exact hd
  have hlen : ¬ (tail.length = (C ++ tail).length ∨ strtod_range_error v = true) := by
    have : 0 < C.length := List.length_pos.mpr hne
    rw [hr]
    simp only [List.length_append]
    rintro (h | h)
    · omega
    · cases h
  unfold read_coefficient
  rw [if_pos hpk]
  dsimp only
  rw [read_double_run C v hne hd hpd hs tail ht, read_double_erange_run C v hne hd hpd hs tail ht]
  dsimp only
  rw [if_neg hlen]

theorem read_coefficient_erange (string : List Char) (sign : Char) (C : List Char) (v : ℚ)
    (hne : C ≠ []) (hd : isdigit (peek C) = true)
    (hpd : ∀ c ∈ C, (c == '.' || isdigit c) = true)
    (hs : ∀ u, (u = [] ∨ peek u = ' ') → strtod (C ++ u) = (v, u))
    (hr : strtod_range_error v = true)
    (tail : List Char) (ht : tail = [] ∨ peek tail = ' ' ∨ peek tail = 'x')
    (e : MONOMIALS_ERRNO) :
    read_coefficient string sign (C ++ tail) e = input_error string := by
  have hpk : isdigit (peek (C ++ tail)) = true := by rw [peek_append C tail hne]; exact hd
  unfold read_coefficient
  rw [if_pos hpk]
  dsimp only
  rw [read_double_erange_run C v hne hd hpd hs tail ht, if_pos (Or.inr hr)]

theorem read_coefficient_absent (string : List Char) (sign : Char) (tail : List Char)
    (e : MONOMIALS_ERRNO) :
    read_coefficient string sign ('x' :: tail) e =
      read_variable string sign 0 false ('x' :: tail) e := by
  have hpk : ¬ (isdigit (peek ('x' :: tail)) = true) :=
    show ¬ (isdigit 'x' = true) by decide
  unfold read_coefficient
  rw [if_neg hpk]

theorem int_to_unsigned_small :
    int_to_unsigned 0 = 0 ∧ int_to_unsigned 1 = 1 := by
  constructor <;> decide

theorem read_variable_run (string : List Char) (sign : Char) (coefficient : ℚ)
    (coeff_read : Bool) (marker : Bool) (exponent : Option (List Char)) (rest : List Char)
    (e : MONOMIALS_ERRNO)
    (hcr : coeff_read = true ∨ marker = true)
    (hex : ∀ ed, exponent = some ed →
      marker = true ∧ ed ≠ [] ∧ (∀ c ∈ ed, isdigit c = true) ∧ digits_value 10 ed < 2 ^ 32)
    (hfol : may_follow exponent rest = true) :
    read_variable string sign coefficient coeff_read (variable_text marker exponent ++ rest) e =
      { monomial := some
          ⟨if sign = '-' then -(if coeff_read = true then coefficient else 1)
            else (if coeff_read = true then coefficient else 1),
            if marker = true then variable_degree exponent else 0⟩,
        end_cursor := rest, monomials_errno := e } := by
  cases exponent with
  | some ed =>
    obtain ⟨hm, hne, hed, hlt⟩ := hex ed rfl
    subst hm
    have hrest : isdigit (peek rest) = false := by simpa [may_follow] using hfol
    have hmax : (digits_value 10 ed : Int) ≤ LONG_MAX := by
      unfold LONG_MAX
      have : (digits_value 10 ed : Int) < 2 ^ 32 := by exact_mod_cast hlt
      omega
    rw [variable_text, if_pos rfl, exponent_text, List.cons_append, List.cons_append,
      read_variable_power string sign coefficient coeff_read ed rest e hne hed hrest hmax]
    unfold term_read monomial_create
    rw [int_to_unsigned_long_to_int _ hlt]
    cases coeff_read <;> simp [variable_degree]
  | none =>
    have hrest : rest = [] ∨ peek rest = ' ' := by
      simpa [may_follow] using hfol
    cases marker with
    | true =>
      rw [variable_text, if_pos rfl, exponent_text, List.cons_append, List.nil_append,
        read_variable_x string sign coefficient coeff_read rest e hrest]
      unfold term_read monomial_create
      rw [int_to_unsigned_small.2]
      cases coeff_read <;> simp [variable_degree]
    | false =>
      have hc : coeff_read = true := by
        rcases hcr with h | h
        · exact h
        · cases h
      subst hc
      rw [variable_text, if_neg (by decide), List.nil_append,
        read_variable_none string sign coefficient rest e hrest]
      unfold term_read monomial_create
      rw [int_to_unsigned_small.1]
      simp

theorem sign_char (sign : Option Bool) :
    ((if sign = some true then '-' else '+') = '-') ↔ sign = some true := by
  cases sign with
  | none => decide
  | some b => cases b <;> decide

theorem strtod_coefficient (ip : List Char) (fp : Option (List Char)) (hne : ip ≠ [])
    (hip : ∀ c ∈ ip, isdigit c = true)
    (hfp : ∀ f, fp = some f → ∀ c ∈ f, isdigit c = true) (u : List Char)
    (hu : u = [] ∨ peek u = ' ') :
    strtod ((ip ++ fraction_text fp) ++ u) =
      ((digits_value 10 ip : ℚ) + fraction_value fp, u) := by
  cases fp with
  | none =>
    have := (strtod_run ip [] u hne hip (fun c hc => by cases hc) hu).1
    simp only [fraction_text, fraction_value, List.append_nil, add_zero]
    exact this
  | some f => exact (strtod_run ip f u hne hip (hfp f rfl) hu).2

theorem strtol_run_erange (ed rest : List Char) (hed : ∀ c ∈ ed, isdigit c = true)
    (hrest : isdigit (peek rest) = false) (hbig : LONG_MAX < (digits_value 10 ed : Int)) :
    strtol (ed ++ rest) = (LONG_MAX, rest, true) := by
  have hr : rest = [] ∨ isdigit (peek rest) = false := Or.inr hrest
  unfold strtol
  dsimp only
  rw [takeWhile_run isdigit ed rest hed hr, dropWhile_run isdigit ed rest hed hr,
    if_pos (by omega)]

theorem read_variable_power_erange (string : List Char) (sign : Char) (coefficient : ℚ)
    (coeff_read : Bool) (ed rest : List Char) (e : MONOMIALS_ERRNO)
    (hne : ed ≠ []) (hed : ∀ c ∈ ed, isdigit c = true)
    (hrest : isdigit (peek rest) = false) (hbig : LONG_MAX < (digits_value 10 ed : Int)) :
    read_variable string sign coefficient coeff_read ('x' :: '^' :: (ed ++ rest)) e =
      input_error string := by
  have hx : peek ('x' :: '^' :: (ed ++ rest)) = 'x' := rfl
  have hc : peek ('^' :: (ed ++ rest)) = '^' := rfl
  have hd : ¬ ((!isdigit (peek (ed ++ rest))) = true) := by
    rw [peek_append ed rest hne, hed _ (peek_mem ed hne)]; decide
  unfold read_variable
  rw [if_pos hx]
  dsimp only
  rw [List.tail_cons, if_pos hc, List.tail_cons, if_neg hd,
    strtol_run_erange ed rest hed hrest hbig]
  dsimp only
  rw [if_pos (Or.inr rfl)]

theorem in_double_range_neg (v : ℚ) : in_double_range (-v) ↔ in_double_range v := by
  unfold in_double_range
  rw [neg_eq_zero, abs_neg]

theorem strtod_range_error_of_in_range (v : ℚ) (h0 : 0 ≤ v) (h : in_double_range v) :
    strtod_range_error v = false := by
  apply strtod_range_error_eq_false v h0
  unfold in_double_range at h
  rwa [abs_of_nonneg h0] at h

theorem fraction_value_nonneg (fp : Option (List Char)) : 0 ≤ fraction_value fp := by
  cases fp with
  | none => exact le_refl _
  | some f =>
    unfold fraction_value
    positivity

theorem term_text_shape (lead : Nat) (sign : Option Bool) (gap : Nat) (ip : List Char)
    (fp : Option (List Char)) (marker : Bool) (ex : Option (List Char)) (rest : List Char) :
    (TermText.text ⟨lead, sign, gap, ip, fp, marker, ex⟩) ++ rest =
      List.replicate lead ' ' ++ (sign_text sign ++ (List.replicate gap ' ' ++
        ((ip ++ fraction_text fp) ++ (variable_text marker ex ++ rest)))) := by
  simp only [TermText.text, List.append_assoc]

theorem term_text_coefficient_read (t : TermText) (rest : List Char) (e : MONOMIALS_ERRNO)
    (hwf : t.well_formed = true) (hfol : t.followed_by rest = true)
    (hip : t.integer_part ≠ []) :
    monomial_create_from_string (t.text ++ rest) e =
      if strtod_range_error
          ((digits_value 10 t.integer_part : ℚ) + fraction_value t.fraction_part) = true then
        input_error (t.text ++ rest)
      else
        read_variable (t.text ++ rest) (if t.sign = some true then '-' else '+')
          ((digits_value 10 t.integer_part : ℚ) + fraction_value t.fraction_part) true
          (variable_text t.marker t.exponent ++ rest) e := by
  obtain ⟨lead, sign, gap, ip, fp, marker, ex⟩ := t
  simp only [TermText.well_formed, Bool.and_eq_true, List.all_eq_true] at hwf
  obtain ⟨⟨⟨hipd, hfp⟩, _⟩, hex⟩ := hwf
  simp only [TermText.followed_by] at hfol
  have hemp : ip ≠ [] := hip
  have hfp2 : ∀ f, fp = some f → ∀ c ∈ f, isdigit c = true := by
    intro f hf
    subst hf
    simp only [Bool.and_eq_true, List.all_eq_true, Bool.not_eq_true', List.isEmpty_eq_false]
      at hfp
    exact hfp.2
  have hexm : ∀ ed, ex = some ed → marker = true := by
    intro ed hed
    subst hed
    simp only [Bool.and_eq_true, List.all_eq_true, Bool.not_eq_true', List.isEmpty_eq_false]
      at hex
    exact hex.1.1
  rw [term_text_shape]
  have hpkip : isdigit (peek ip) = true := hipd _ (peek_mem ip hemp)
  have hCne : ip ++ fraction_text fp ≠ [] := by
    intro h; exact hemp (List.append_eq_nil.mp h).1
  have hpkC : peek (ip ++ fraction_text fp) = peek ip := peek_append _ _ hemp
  have hb : peek ((ip ++ fraction_text fp) ++ (variable_text marker ex ++ rest)) =
      peek ip := by
    rw [peek_append _ _ hCne, hpkC]
  have hdn := isdigit_ne _ hpkip
  rw [monomial_create_from_string_sign lead gap sign _ e
    (by rw [hb]; exact ⟨hdn.2.2.1, hdn.2.2.2.2.1, hdn.2.2.2.2.2.1⟩)]
  have htail : (variable_text marker ex ++ rest) = [] ∨
      peek (variable_text marker ex ++ rest) = ' ' ∨
      peek (variable_text marker ex ++ rest) = 'x' := by
    cases marker with
    | true => right; right; rfl
    | false =>
      have hexn : ex = none := by
        cases ex with
        | none => rfl
        | some ed => exact absurd (hexm ed rfl) (by decide)
      subst hexn
      have hr : rest = [] ∨ peek rest = ' ' := by simpa [may_follow] using hfol
      rcases hr with h | h
      · left; rw [h]; rfl
      · right; left; exact h
  have hpd : ∀ c ∈ ip ++ fraction_text fp, (c == '.' || isdigit c) = true := by
    intro c hc
    rcases List.mem_append.mp hc with h | h
    · rw [hipd c h]; simp
    · cases fp with
      | none => cases h
      | some f =>
        rcases List.mem_cons.mp h with h2 | h2
        · subst h2; rfl
        · rw [hfp2 f rfl c h2]; simp
  have hs := strtod_coefficient ip fp hemp hipd hfp2
  by_cases hr : strtod_range_error ((digits_value 10 ip : ℚ) + fraction_value fp) = true
  · rw [if_pos hr]
    exact read_coefficient_erange _ _ _ _ hCne (hpkC ▸ hpkip) hpd hs hr _ htail e
  · rw [if_neg hr]
    exact read_coefficient_run _ _ _ _ hCne (hpkC ▸ hpkip) hpd hs
      (Bool.eq_false_iff.mpr hr) _ htail e

theorem term_text_overflow (t : TermText) (rest : List Char) (e : MONOMIALS_ERRNO)
    (hwf : t.well_formed = true) (hfol : t.followed_by rest = true)
    (hov : DBL_OVERFLOW ≤ |t.coefficient|) :
    monomial_create_from_string (t.text ++ rest) e = input_error (t.text ++ rest) := by
  have hone : (1 : ℚ) < DBL_OVERFLOW := by
    unfold DBL_OVERFLOW
    have h : (1 : Nat) < 2 ^ 1024 - 2 ^ 970 := by decide!
    exact_mod_cast h
  have hip : t.integer_part ≠ [] := by
    intro h
    have hc : |t.coefficient| = 1 := by
      unfold TermText.coefficient
      rw [h]
      by_cases hs : t.sign = some true <;> simp [hs]
    rw [hc] at hov
    exact absurd hov (not_le.mpr hone)
  have hie : t.integer_part.isEmpty = false := by
    cases hl : t.integer_part with
    | nil => exact absurd hl hip
    | cons c l => rfl
  have hv0 : (0 : ℚ) ≤ (digits_value 10 t.integer_part : ℚ) + fraction_value t.fraction_part :=
    add_nonneg (Nat.cast_nonneg _) (fraction_value_nonneg _)
  have habs : |t.coefficient| =
      (digits_value 10 t.integer_part : ℚ) + fraction_value t.fraction_part := by
    unfold TermText.coefficient
    rw [hie]
    by_cases hs : t.sign = some true
    · simp only [hs, if_true, Bool.false_eq_true, if_false, abs_neg]
      exact abs_of_nonneg hv0
    · simp only [hs, if_false, Bool.false_eq_true]
      exact abs_of_nonneg hv0
  rw [term_text_coefficient_read t rest e hwf hfol hip,
    if_pos (strtod_range_error_eq_true _ (habs ▸ hov))]

theorem term_text_long_exponent (t : TermText) (rest : List Char) (e : MONOMIALS_ERRNO)
    (hwf : t.well_formed = true) (hfol : t.followed_by rest = true) (ed : List Char)
    (hex : t.exponent = some ed) (hbig : LONG_MAX < (digits_value 10 ed : Int)) :
    monomial_create_from_string (t.text ++ rest) e = input_error (t.text ++ rest) := by
  have hwf2 := hwf
  simp only [TermText.well_formed, Bool.and_eq_true, List.all_eq_true] at hwf2
  obtain ⟨⟨⟨_, _⟩, hcm⟩, hexw⟩ := hwf2
  rw [hex] at hexw
  simp only [Bool.and_eq_true, List.all_eq_true, Bool.not_eq_true', List.isEmpty_eq_false]
    at hexw
  obtain ⟨⟨hm, hne⟩, hed⟩ := hexw
  have hrest : isdigit (peek rest) = false := by
    have := hfol
    simp only [TermText.followed_by, hex, may_follow] at this
    simpa using this
  have hvt : variable_text t.marker t.exponent ++ rest = 'x' :: '^' :: (ed ++ rest) := by
    rw [hm, hex]; rfl
  by_cases hip : t.integer_part = []
  · obtain ⟨lead, sign, gap, ip, fp, marker, ex⟩ := t
    simp only at hip hm hex hvt
    subst hip
    have hfn : fp = none := by
      cases fp with
      | none => rfl
      | some f =>
        simp only [TermText.well_formed, Bool.and_eq_true, List.all_eq_true] at hwf
        have := hwf.1.1.2
        simp at this
    subst hfn
    rw [term_text_shape]
    have hbody : ([] ++ fraction_text none) ++ (variable_text marker ex ++ rest) =
        'x' :: '^' :: (ed ++ rest) := hvt
    have hbx : peek ('x' :: '^' :: (ed ++ rest)) ≠ ' ' ∧
        peek ('x' :: '^' :: (ed ++ rest)) ≠ '+' ∧
        peek ('x' :: '^' :: (ed ++ rest)) ≠ '-' :=
      ⟨show 'x' ≠ ' ' by decide, show 'x' ≠ '+' by decide, show 'x' ≠ '-' by decide⟩
    rw [hbody, monomial_create_from_string_sign lead gap sign _ e hbx,
      read_coefficient_absent,
      read_variable_power_erange _ _ _ _ ed rest e hne hed hrest hbig]
  · rw [term_text_coefficient_read t rest e hwf hfol hip]
    split
    · rfl
    · rw [hvt, read_variable_power_erange _ _ _ _ ed rest e hne hed hrest hbig]

/-- C2, amended: for a well-formed term text (leading spaces, an optional sign,
spaces, an optional decimal coefficient starting with a digit, optionally `x`,
optionally `^` and a decimal exponent) whose exponent is below `2^32` and whose
coefficient is in the range of a `double` (zero, or a magnitude from `DBL_MIN` up
to the overflow threshold), followed by a space or the end (after an exponent: by
anything but a digit), `monomial_create_from_string` returns the term with the
signed coefficient (1 when the coefficient is absent) and the degree 0, 1 or `e`,
sets the end cursor just after the term and leaves the error indicator as it was.
A well-formed term text whose coefficient overflows the range of a `double`, or
whose exponent is beyond `LONG_MAX`, is rejected with `MONOMIAL_INPUT_ERROR`.  On
`+2x^3 - 5` the reader returns `2x^3` with the cursor on the space after `3`, and
the 25 strings of the test are read as expected. -/
theorem monomial_create_from_string_spec (t : TermText) (rest : List Char)
    (e : MONOMIALS_ERRNO) (hwf : t.well_formed = true) (hfol : t.followed_by rest = true)
    (hexp : t.degree < 2 ^ 32) (hcoef : in_double_range t.coefficient) :
    monomial_create_from_string (t.text ++ rest) e =
        { monomial := some ⟨t.coefficient, t.degree⟩, end_cursor := rest,
          monomials_errno := e } ∧
      (∀ (t2 : TermText) (rest2 : List Char) (e2 : MONOMIALS_ERRNO),
        t2.well_formed = true → t2.followed_by rest2 = true →
        DBL_OVERFLOW ≤ |t2.coefficient| →
        monomial_create_from_string (t2.text ++ rest2) e2 = input_error (t2.text ++ rest2)) ∧
      (∀ (t2 : TermText) (rest2 : List Char) (e2 : MONOMIALS_ERRNO) (ed : List Char),
        t2.well_formed = true → t2.followed_by rest2 = true →
        t2.exponent = some ed → LONG_MAX < (digits_value 10 ed : Int) →
        monomial_create_from_string (t2.text ++ rest2) e2 = input_error (t2.text ++ rest2)) ∧
      monomial_create_from_string "+2x^3 - 5".toList MONOMIALS_ERRNO.MONOMIAL_SUCCESS =
        { monomial := some ⟨2, 3⟩, end_cursor := " - 5".toList,
          monomials_errno := MONOMIALS_ERRNO.MONOMIAL_SUCCESS } ∧
      monomial_test_strings.map (fun s =>
          (monomial_create_from_string s.toList MONOMIALS_ERRNO.MONOMIAL_SUCCESS).monomial) =
        [some ⟨2, 0⟩, some ⟨-2, 0⟩, some ⟨-2, 0⟩, some ⟨2, 0⟩, some ⟨2, 0⟩,
         some ⟨2, 1⟩, some ⟨-2, 1⟩, some ⟨-2, 1⟩, some ⟨2, 1⟩, some ⟨2, 1⟩,
         some ⟨2, 2⟩, some ⟨-2, 2⟩, some ⟨-2, 2⟩, some ⟨2, 2⟩, some ⟨2, 2⟩,
         some ⟨1, 2⟩, some ⟨-1, 2⟩, some ⟨-1, 2⟩, some ⟨1, 2⟩, some ⟨1, 2⟩,
         some ⟨1, 1⟩, some ⟨-1, 1⟩, some ⟨-1, 1⟩, some ⟨1, 1⟩, some ⟨1, 1⟩] := by
  refine ⟨?_, fun t2 rest2 e2 h1 h2 h3 => term_text_overflow t2 rest2 e2 h1 h2 h3,
    fun t2 rest2 e2 ed h1 h2 h3 h4 => term_text_long_exponent t2 rest2 e2 h1 h2 ed h3 h4,
    by decide!, by decide!⟩
  obtain ⟨lead, sign, gap, ip, fp, marker, ex⟩ := t
  simp only [TermText.well_formed, Bool.and_eq_true, List.all_eq_true] at hwf
  obtain ⟨⟨⟨hip, hfp⟩, hcm⟩, hex⟩ := hwf
  simp only [TermText.followed_by] at hfol
  simp only [TermText.degree] at hexp
  simp only [TermText.coefficient] at hcoef
  have hex2 : ∀ ed, ex = some ed →
      marker = true ∧ ed ≠ [] ∧ (∀ c ∈ ed, isdigit c = true) ∧ digits_value 10 ed < 2 ^ 32 := by
    intro ed hed
    subst hed
    simp only [Bool.and_eq_true, List.all_eq_true, Bool.not_eq_true', List.isEmpty_eq_false]
      at hex
    obtain ⟨⟨hm, hne⟩, hd⟩ := hex
    subst hm
    exact ⟨rfl, hne, hd, by simpa [variable_degree] using hexp⟩
  have hfp2 : ∀ f, fp = some f → ip ≠ [] ∧ ∀ c ∈ f, isdigit c = true := by
    intro f hf
    subst hf
    simp only [Bool.and_eq_true, List.all_eq_true, Bool.not_eq_true', List.isEmpty_eq_false]
      at hfp
    exact hfp
  have htext : (TermText.text ⟨lead, sign, gap, ip, fp, marker, ex⟩) ++ rest =
      List.replicate lead ' ' ++ (sign_text sign ++ (List.replicate gap ' ' ++
        ((ip ++ fraction_text fp) ++ (variable_text marker ex ++ rest)))) := by
    simp only [TermText.text, List.append_assoc]
  rw [htext]
  simp only [TermText.coefficient, TermText.degree]
  by_cases hemp : ip = []
  · subst hemp
    have hfn : fp = none := by
      cases fp with
      | none => rfl
      | some f => exact absurd rfl (hfp2 f rfl).1
    subst hfn
    have hm : marker = true := by simpa using hcm
    subst hm
    have hbody : ([] ++ fraction_text none) ++ (variable_text true ex ++ rest) =
        'x' :: (exponent_text ex ++ rest) := rfl
    have hbx : peek ('x' :: (exponent_text ex ++ rest)) ≠ ' ' ∧
        peek ('x' :: (exponent_text ex ++ rest)) ≠ '+' ∧
        peek ('x' :: (exponent_text ex ++ rest)) ≠ '-' :=
      ⟨show 'x' ≠ ' ' by decide, show 'x' ≠ '+' by decide, show 'x' ≠ '-' by decide⟩
    rw [hbody, monomial_create_from_string_sign lead gap sign _ e hbx,
      read_coefficient_absent]
    have hrv := read_variable_run
      (List.replicate lead ' ' ++ (sign_text sign ++ (List.replicate gap ' ' ++
        ('x' :: (exponent_text ex ++ rest)))))
      (if sign = some true then '-' else '+') 0 false true ex rest e (Or.inr rfl) hex2 hfol
    have hvt : variable_text true ex ++ rest = 'x' :: (exponent_text ex ++ rest) := rfl
    rw [hvt] at hrv
    rw [hrv]
    by_cases hs : sign = some true
    · simp [hs]
    · have hs2 : ¬ ((if sign = some true then '-' else '+') = '-') :=
        fun h => hs ((sign_char sign).mp h)
      simp [hs, hs2]
  · have hpkip : isdigit (peek ip) = true := hip _ (peek_mem ip hemp)
    have hCne : ip ++ fraction_text fp ≠ [] := by
      intro h; exact hemp (List.append_eq_nil.mp h).1
    have hpkC : peek (ip ++ fraction_text fp) = peek ip := peek_append _ _ hemp
    have hb : peek ((ip ++ fraction_text fp) ++ (variable_text marker ex ++ rest)) =
        peek ip := by
      rw [peek_append _ _ hCne, hpkC]
    have hdn := isdigit_ne _ hpkip
    rw [monomial_create_from_string_sign lead gap sign _ e
      (by rw [hb]; exact ⟨hdn.2.2.1, hdn.2.2.2.2.1, hdn.2.2.2.2.2.1⟩)]
    have htail : (variable_text marker ex ++ rest) = [] ∨
        peek (variable_text marker ex ++ rest) = ' ' ∨
        peek (variable_text marker ex ++ rest) = 'x' := by
      cases marker with
      | true => right; right; rfl
      | false =>
        have hexn : ex = none := by
          cases ex with
          | none => rfl
          | some ed => exact absurd (hex2 ed rfl).1 (by decide)
        subst hexn
        have hr : rest = [] ∨ peek rest = ' ' := by simpa [may_follow] using hfol
        rcases hr with h | h
        · left; rw [h]; rfl
        · right; left; exact h
    have hpd : ∀ c ∈ ip ++ fraction_text fp, (c == '.' || isdigit c) = true := by
      intro c hc
      rcases List.mem_append.mp hc with h | h
      · rw [hip c h]; simp
      · cases fp with
        | none => cases h
        | some f =>
          rcases List.mem_cons.mp h with h2 | h2
          · subst h2; rfl
          · rw [(hfp2 f rfl).2 c h2]; simp
    have hs := strtod_coefficient ip fp hemp hip (fun f hf => (hfp2 f hf).2)
    have hie : ip.isEmpty = false := by
      cases ip with
      | nil => exact absurd rfl hemp
      | cons c l => rfl
    have hv0 : (0 : ℚ) ≤ (digits_value 10 ip : ℚ) + fraction_value fp :=
      add_nonneg (Nat.cast_nonneg _) (fraction_value_nonneg _)
    have hr : strtod_range_error ((digits_value 10 ip : ℚ) + fraction_value fp) = false := by
      apply strtod_range_error_of_in_range _ hv0
      rw [hie] at hcoef
      by_cases hsg : sign = some true
      · simp only [hsg, if_true, Bool.false_eq_true, if_false] at hcoef
        exact (in_double_range_neg _).mp hcoef
      · simpa only [hsg, if_false, Bool.false_eq_true] using hcoef
    rw [read_coefficient_run _ _ _ _ hCne (hpkC ▸ hpkip) hpd hs hr _ htail e]
    rw [read_variable_run _ _ _ true marker ex rest e (Or.inl rfl) hex2 hfol]
    by_cases hsg : sign = some true
    · simp [hsg, hie]
    · have hs2 : ¬ ((if sign = some true then '-' else '+') = '-') :=
        fun h => hsg ((sign_char sign).mp h)
      simp [hsg, hs2, hie]

/-- C2, at `+2x^3` followed by ` - 5`. -/
theorem monomial_create_from_string_spec_witness :
    plus_two_x_cubed.well_formed = true ∧
    plus_two_x_cubed.followed_by " - 5".toList = true ∧
    plus_two_x_cubed.degree < 2 ^ 32 ∧
    in_double_range plus_two_x_cubed.coefficient ∧
    monomial_create_from_string (plus_two_x_cubed.text ++ " - 5".toList)
        MONOMIALS_ERRNO.MONOMIAL_SUCCESS =
      { monomial := some ⟨plus_two_x_cubed.coefficient, plus_two_x_cubed.degree⟩,
        end_cursor := " - 5".toList, monomials_errno := MONOMIALS_ERRNO.MONOMIAL_SUCCESS } :=
  ⟨by decide, by decide, by decide, by decide!,
    (monomial_create_from_string_spec plus_two_x_cubed " - 5".toList
      MONOMIALS_ERRNO.MONOMIAL_SUCCESS (by decide) (by decide) (by decide) (by decide!)).1⟩

/-- C2 as stated fails on well-formed term texts with a large exponent or a large
coefficient: `x^9223372036854775808` is rejected with `MONOMIAL_INPUT_ERROR` (the
exponent is out of the range of `strtol`, which the reader tests), `x^4294967296`
is read as a term of degree 0 (the exponent does not fit the `int` that holds the
degree), and the digit `1` followed by 309 zeros is rejected with
`MONOMIAL_INPUT_ERROR` (the coefficient is out of the range of `strtod`, which
the reader tests as well). -/
theorem monomial_create_from_string_wide_exponent :
    long_exponent_term.well_formed = true ∧
    long_exponent_term.followed_by [] = true ∧
    long_exponent_term.text = "x^9223372036854775808".toList ∧
    monomial_create_from_string (long_exponent_term.text ++ [])
        MONOMIALS_ERRNO.MONOMIAL_SUCCESS =
      { monomial := none, end_cursor := "x^9223372036854775808".toList,
        monomials_errno := MONOMIALS_ERRNO.MONOMIAL_INPUT_ERROR } ∧
    wide_exponent_term.well_formed = true ∧
    wide_exponent_term.followed_by [] = true ∧
    wide_exponent_term.text = "x^4294967296".toList ∧
    wide_exponent_term.degree = 4294967296 ∧
    monomial_create_from_string (wide_exponent_term.text ++ [])
        MONOMIALS_ERRNO.MONOMIAL_SUCCESS =
      { monomial := some ⟨1, 0⟩, end_cursor := [],
        monomials_errno := MONOMIALS_ERRNO.MONOMIAL_SUCCESS } ∧
    monomial_create_from_string (wide_exponent_term.text ++ [])
        MONOMIALS_ERRNO.MONOMIAL_SUCCESS ≠
      { monomial := some ⟨wide_exponent_term.coefficient, wide_exponent_term.degree⟩,
        end_cursor := [], monomials_errno := MONOMIALS_ERRNO.MONOMIAL_SUCCESS } ∧
    huge_coefficient_term.well_formed = true ∧
    huge_coefficient_term.followed_by [] = true ∧
    huge_coefficient_term.text = '1' :: List.replicate 309 '0' ∧
    huge_coefficient_term.coefficient = 10 ^ 309 ∧
    DBL_OVERFLOW ≤ |huge_coefficient_term.coefficient| ∧
    monomial_create_from_string (huge_coefficient_term.text ++ [])
        MONOMIALS_ERRNO.MONOMIAL_SUCCESS =
      { monomial := none, end_cursor := '1' :: List.replicate 309 '0',
        monomials_errno := MONOMIALS_ERRNO.MONOMIAL_INPUT_ERROR } := by
  refine ⟨by decide, by decide, by decide, by decide!, by decide, by decide, by decide,
    by decide, by decide!, by decide!, by decide!, by decide!, by decide!, by decide!,
    by decide!, by decide!⟩

/-! ## The polynomial reader: the null result and the fatal error -/

theorem dense_chain_eq_nil (g : Nat → ℚ) (n : Nat) :
    dense_chain g n = [] ↔ ∀ d, d < n → |g d| < 1 / 10000 := by
  rw [List.eq_nil_iff_forall_not_mem]
  constructor
  · intro h d hd
    by_contra hc
    exact h ⟨g d, d⟩ ((mem_dense_chain g n ⟨g d, d⟩).mpr ⟨hd, rfl, not_lt.mp hc⟩)
  · intro h m hm
    obtain ⟨hd, _, ha⟩ := (mem_dense_chain g n m).mp hm
    exact absurd (h m.degree hd) (not_lt.mpr ha)

theorem strip_filter_eq (terms : List Monomial) :
    terms.filter (fun t => ¬ |t.coefficient| < 1 / 10000) =
      terms.filter (fun m => !is_coefficient_null m.coefficient) := by
  apply List.filter_congr
  intro t _
  have := is_coefficient_null_iff t.coefficient
  cases hn : is_coefficient_null t.coefficient <;> simp_all

theorem polynomial_create_from_string_eq (string : List Char) (terms : List Monomial)
    (h : ParsesTo string terms) :
    ∃ r, polynomial_create_from_string string = .ok r ∧
      chain_of r =
        dense_chain
          (coeff_sum (terms.filter (fun m => !is_coefficient_null m.coefficient)))
          (max_degree (terms.filter (fun m => !is_coefficient_null m.coefficient)) + 1) ∧
      (r = none ↔ chain_of r = []) ∧
      (∀ P, r = some P → P.degree = max_degree P.first) := by
  have hloop := create_from_string_loop_spec string terms h (string.length + 1) [] 0
    (Nat.lt_succ_self _)
  rw [List.nil_append] at hloop
  have hsv : (polynomial_remove_null_monomials
      { first := terms, degree := max 0 (max_degree terms) }).first =
      terms.filter (fun m => !is_coefficient_null m.coefficient) := remove_null_first _
  have hsvd := remove_null_degree { first := terms, degree := max 0 (max_degree terms) }
  unfold polynomial_create_from_string
  rw [hloop]
  dsimp only
  cases hs : (polynomial_remove_null_monomials
      { first := terms, degree := max 0 (max_degree terms) }).first with
  | nil =>
    refine ⟨none, rfl, ?_, ⟨fun _ => rfl, fun _ => rfl⟩, fun P hP => (by cases hP)⟩
    rw [← hsv, hs]
    symm
    show dense_chain _ _ = []
    rw [dense_chain_eq_nil]
    intro d _
    rw [coeff_sum_nil]
    norm_num
  | cons a l =>
    obtain ⟨R, hR, hfirst, hdeg⟩ := polynomial_reduct_eq
      (polynomial_remove_null_monomials { first := terms, degree := max 0 (max_degree terms) })
      (fun m hm => by rw [hsvd]; exact le_max_degree _ m hm)
    rw [hR]
    dsimp only
    rw [hsvd, hsv] at hfirst
    cases hRf : R.first with
    | nil =>
      refine ⟨none, rfl, ?_, ⟨fun _ => rfl, fun _ => rfl⟩, fun P hP => (by cases hP)⟩
      rw [← hfirst, hRf]
      rfl
    | cons b l2 =>
      refine ⟨some R, rfl, hfirst, ⟨fun hc => (by cases hc), fun hc => ?_⟩, ?_⟩
      · have : R.first = [] := hc
        rw [hRf] at this
        cases this
      · intro P hP
        cases hP
        exact hdeg

/-- C11: on a line where every term read succeeds, giving the terms `terms`,
`polynomial_create_from_string` returns the null value exactly when no term
remains after the strip and the reduction, that is when no accumulated
coefficient `s_d` of the surviving terms reaches the tolerance; otherwise it
returns a non-empty chain.  `0x^12` and `2x - 2x` give the null value. -/
theorem polynomial_create_from_string_none (string : List Char) (terms : List Monomial)
    (h : ParsesTo string terms) :
    (∃ r, polynomial_create_from_string string = .ok r ∧
      (r = none ↔
        ∀ d, |coeff_sum (terms.filter (fun t => ¬ |t.coefficient| < 1 / 10000)) d| <
          1 / 10000) ∧
      (∀ P, r = some P → P.first ≠ [])) ∧
    polynomial_create_from_string "0x^12".toList = .ok none ∧
    polynomial_create_from_string "2x - 2x".toList = .ok none := by
  refine ⟨?_, by decide!, by decide!⟩
  rw [strip_filter_eq]
  obtain ⟨r, hr, hchain, hnone, _⟩ := polynomial_create_from_string_eq string terms h
  refine ⟨r, hr, ?_, ?_⟩
  · rw [hnone, hchain, dense_chain_eq_nil]
    constructor
    · intro hall d
      by_cases hd : d < max_degree
          (terms.filter (fun m => !is_coefficient_null m.coefficient)) + 1
      · exact hall d hd
      · rw [coeff_sum_absent _ d (fun t ht htd => hd (by
          have := le_max_degree _ t ht
          omega))]
        norm_num
    · intro hall d _
      exact hall d
  · intro P hP hempty
    have h1 : r = none := hnone.mpr (by rw [hP]; exact hempty)
    rw [hP] at h1
    cases h1

/-- C11, at the line `2x - 2x`, on which the reader finds `2x` and `-2x`. -/
theorem polynomial_create_from_string_none_witness :
    ParsesTo "2x - 2x".toList [⟨2, 1⟩, ⟨-2, 1⟩] ∧
    ∃ r, polynomial_create_from_string "2x - 2x".toList = .ok r ∧
      (∀ P, r = some P → P.first ≠ []) :=
  have h3 : ParsesTo [] [] := ParsesTo.done [] (by decide)
  have e2 : skip_spaces (monomial_create_from_string "- 2x".toList
      MONOMIALS_ERRNO.MONOMIAL_SUCCESS).end_cursor = [] := by decide!
  have h2 : ParsesTo "- 2x".toList [⟨-2, 1⟩] :=
    ParsesTo.term _ _ _ (by decide) (by decide!) (e2 ▸ h3)
  have e1 : skip_spaces (monomial_create_from_string "2x - 2x".toList
      MONOMIALS_ERRNO.MONOMIAL_SUCCESS).end_cursor = "- 2x".toList := by decide!
  have h1 : ParsesTo "2x - 2x".toList [⟨2, 1⟩, ⟨-2, 1⟩] :=
    ParsesTo.term _ _ _ (by decide) (by decide!) (e1 ▸ h2)
  ⟨h1,
    let ⟨r, hr, _, hp⟩ := (polynomial_create_from_string_none _ _ h1).1
    ⟨r, hr, hp⟩⟩

theorem create_from_string_loop_fails (cursor : List Char) (h : ParseFails cursor) :
    ∀ (fuel : Nat) (chain : List Monomial) (max_monomial_degree : Nat),
      cursor.length < fuel →
      create_from_string_loop fuel cursor chain max_monomial_degree = .error .fatalExit := by
  induction h with
  | here cursor hnul hfail =>
    intro fuel chain mx hfuel
    cases fuel with
    | zero => omega
    | succ fuel =>
      rw [create_from_string_loop, if_neg hnul]
      dsimp only
      rw [if_pos hfail]
  | later cursor m hnul hm hrest ih =>
    intro fuel chain mx hfuel
    cases fuel with
    | zero => omega
    | succ fuel =>
      rw [create_from_string_loop, if_neg hnul]
      dsimp only
      rcases monomial_create_from_string_cases cursor with hfail | ⟨sign, c, d, cur, hlen, hok⟩
      · rw [hfail] at hm; cases hm
      · rw [hok] at hm hrest ih ⊢
        have hne : ¬ ((term_read sign c d cur MONOMIALS_ERRNO.MONOMIAL_SUCCESS).monomials_errno =
            MONOMIALS_ERRNO.MONOMIAL_INPUT_ERROR) := by
          intro hc; cases hc
        rw [if_neg hne, hm]
        dsimp only
        have hskip := skip_spaces_length
          (term_read sign c d cur MONOMIALS_ERRNO.MONOMIAL_SUCCESS).end_cursor
        have hcur : (term_read sign c d cur MONOMIALS_ERRNO.MONOMIAL_SUCCESS).end_cursor = cur :=
          rfl
        rw [hcur] at hskip
        exact ih fuel _ _ (by rw [hcur]; omega)

theorem parses_or_fails (n : Nat) :
    ∀ cursor : List Char, cursor.length ≤ n →
      (∃ terms, ParsesTo cursor terms) ∨ ParseFails cursor := by
  induction n with
  | zero =>
    intro cursor hlen
    have : cursor = [] := List.length_eq_zero.mp (by omega)
    subst this
    exact Or.inl ⟨[], ParsesTo.done [] rfl⟩
  | succ n ih =>
    intro cursor hlen
    by_cases hnul : peek cursor = NUL
    · exact Or.inl ⟨[], ParsesTo.done cursor hnul⟩
    · rcases monomial_create_from_string_cases cursor with hfail | ⟨sign, c, d, cur, hl, hok⟩
      · right
        exact ParseFails.here cursor hnul (by rw [hfail]; rfl)
      · have hcur : (monomial_create_from_string cursor
            MONOMIALS_ERRNO.MONOMIAL_SUCCESS).end_cursor = cur := by rw [hok]; rfl
        have hm : (monomial_create_from_string cursor
            MONOMIALS_ERRNO.MONOMIAL_SUCCESS).monomial =
            some (monomial_create (if sign = '-' then -c else c) (int_to_unsigned d)) := by
          rw [hok]; rfl
        have hskip := skip_spaces_length cur
        rcases ih (skip_spaces cur) (by omega) with ⟨terms, ht⟩ | hf
        · left
          exact ⟨_ :: terms, ParsesTo.term cursor _ terms hnul hm (by rw [hcur]; exact ht)⟩
        · right
          exact ParseFails.later cursor _ hnul hm (by rw [hcur]; exact hf)

/-- C12: `polynomial_create_from_string` ends in the fatal exit exactly when some
term read started during its scan of the line fails with the input error; it has
no other way of not returning, and it returns (a chain or the null value) exactly
when every term read succeeds.  The line `2x + 3xy` is fatal although `2x` is
read first. -/
theorem polynomial_create_from_string_fatal (string : List Char) :
    (polynomial_create_from_string string = .error .fatalExit ↔ ParseFails string) ∧
    (∀ e, polynomial_create_from_string string = .error e → e = .fatalExit) ∧
    ((∃ r, polynomial_create_from_string string = .ok r) ↔ ∃ terms, ParsesTo string terms) ∧
    ParseFails "2x + 3xy".toList ∧
    (monomial_create_from_string "2x + 3xy".toList MONOMIALS_ERRNO.MONOMIAL_SUCCESS).monomial =
      some ⟨2, 1⟩ ∧
    polynomial_create_from_string "2x + 3xy".toList = .error .fatalExit := by
  have hfatal : ParseFails string → polynomial_create_from_string string = .error .fatalExit := by
    intro hf
    unfold polynomial_create_from_string
    rw [create_from_string_loop_fails string hf (string.length + 1) [] 0 (Nat.lt_succ_self _)]
  have hok : (∃ terms, ParsesTo string terms) →
      ∃ r, polynomial_create_from_string string = .ok r := by
    rintro ⟨terms, ht⟩
    obtain ⟨r, hr, _⟩ := polynomial_create_from_string_eq string terms ht
    exact ⟨r, hr⟩
  have e1 : skip_spaces (monomial_create_from_string "2x + 3xy".toList
      MONOMIALS_ERRNO.MONOMIAL_SUCCESS).end_cursor = "+ 3xy".toList := by decide!
  have hex : ParseFails "2x + 3xy".toList :=
    ParseFails.later _ ⟨2, 1⟩ (by decide) (by decide!)
      (e1 ▸ ParseFails.here "+ 3xy".toList (by decide) (by decide!))
  refine ⟨⟨?_, hfatal⟩, ?_, ⟨?_, hok⟩, hex, by decide!, by decide!⟩
  · intro herr
    rcases parses_or_fails string.length string (le_refl _) with hp | hf
    · obtain ⟨r, hr⟩ := hok hp
      rw [hr] at herr
      cases herr
    · exact hf
  · intro e herr
    rcases parses_or_fails string.length string (le_refl _) with hp | hf
    · obtain ⟨r, hr⟩ := hok hp
      rw [hr] at herr
      cases herr
    · rw [hfatal hf] at herr
      cases herr
      rfl
  · rintro ⟨r, hr⟩
    rcases parses_or_fails string.length string (le_refl _) with hp | hf
    · exact hp
    · rw [hfatal hf] at hr
      cases hr

/-! ## Idempotence of the reduction -/

theorem coeff_sum_of_mem (l : List Monomial) (hnd : (l.map (fun m => m.degree)).Nodup)
    (m : Monomial) (hm : m ∈ l) : coeff_sum l m.degree = m.coefficient := by
  induction l with
  | nil => cases hm
  | cons a l ih =>
    rw [List.map_cons, List.nodup_cons] at hnd
    rw [coeff_sum_cons]
    rcases List.mem_cons.mp hm with h | h
    · subst h
      rw [if_pos rfl, coeff_sum_absent l m.degree
        (fun b hb hd => hnd.1 (List.mem_map.mpr ⟨b, hb, hd⟩))]
      ring
    · have hne : ¬ (a.degree = m.degree) := fun hd =>
        hnd.1 (List.mem_map.mpr ⟨m, h, hd.symm⟩)
      rw [if_neg hne, ih hnd.2 h]
      ring

theorem coeff_sum_present (l : List Monomial) (d : Nat) (h : coeff_sum l d ≠ 0) :
    ∃ m ∈ l, m.degree = d := by
  by_contra hc
  exact h (coeff_sum_absent l d (fun m hm hd => hc ⟨m, hm, hd⟩))

theorem nodup_degrees_of_pairwise (l : List Monomial)
    (h : l.Pairwise (fun a b => a.degree < b.degree)) :
    (l.map (fun m => m.degree)).Nodup := by
  rw [List.Nodup, List.pairwise_map]
  exact h.imp (fun hab => Nat.ne_of_lt hab)

theorem eq_of_pairwise_of_mem_iff (l1 l2 : List Monomial)
    (h1 : l1.Pairwise (fun a b => a.degree < b.degree))
    (h2 : l2.Pairwise (fun a b => a.degree < b.degree))
    (hmem : ∀ m, m ∈ l1 ↔ m ∈ l2) : l1 = l2 := by
  have n1 : l1.Nodup := h1.imp (fun hab heq => by subst heq; omega)
  have n2 : l2.Nodup := h2.imp (fun hab heq => by subst heq; omega)
  have hperm : l1.Perm l2 := (List.perm_ext_iff_of_nodup n1 n2).mpr hmem
  haveI : IsAntisymm Monomial (fun a b => a.degree < b.degree) :=
    ⟨fun a b hab hba => absurd hab (by omega)⟩
  exact List.eq_of_perm_of_sorted hperm h1 h2

theorem polynomial_reduct_fixed (R : Polynomial)
    (hpw : R.first.Pairwise (fun a b => a.degree < b.degree))
    (hnn : ∀ m ∈ R.first, 1 / 10000 ≤ |m.coefficient|)
    (hdeg : R.degree = max_degree R.first) : polynomial_reduct R = .ok R := by
  have hnd := nodup_degrees_of_pairwise R.first hpw
  obtain ⟨R2, hR2, hfirst, hdeg2⟩ := polynomial_reduct_eq R
    (fun m hm => by rw [hdeg]; exact le_max_degree _ m hm)
  have hlist : R2.first = R.first := by
    apply eq_of_pairwise_of_mem_iff
    · rw [hfirst]; exact pairwise_dense_chain _ _
    · exact hpw
    · intro m
      rw [hfirst, mem_dense_chain]
      constructor
      · rintro ⟨_, hc, ha⟩
        have hne : coeff_sum R.first m.degree ≠ 0 := by
          intro h0; rw [h0] at ha; norm_num at ha
        obtain ⟨m2, hm2, hd2⟩ := coeff_sum_present R.first m.degree hne
        have hc2 := coeff_sum_of_mem R.first hnd m2 hm2
        rw [hd2] at hc2
        have : m = m2 := by
          cases m; cases m2
          simp only at hc hd2 hc2
          rw [hc, hc2, hd2]
        rw [this]; exact hm2
      · intro hm
        have hc := coeff_sum_of_mem R.first hnd m hm
        have := le_max_degree _ m hm
        exact ⟨by omega, hc.symm, by rw [hc]; exact hnn m hm⟩
  rw [hR2]
  congr 1
  cases R; cases R2
  simp only at hlist hdeg hdeg2
  subst hlist
  rw [hdeg, hdeg2]

/-- C13: the reduction is idempotent: for a chain whose cached degree bounds
every term degree, `polynomial_reduct` returns a chain on which
`polynomial_reduct` returns the same chain again (same terms in the same order,
same cached degree), also when that chain is empty, as for `2x - 2x`. -/
theorem polynomial_reduct_idempotent (A : Polynomial)
    (hA : ∀ m ∈ A.first, m.degree ≤ A.degree) :
    (∃ R, polynomial_reduct A = .ok R ∧ polynomial_reduct R = .ok R) ∧
    polynomial_reduct { first := [⟨2, 1⟩, ⟨-2, 1⟩], degree := 1 } =
      .ok { first := [], degree := 0 } ∧
    polynomial_reduct { first := [], degree := 0 } = .ok { first := [], degree := 0 } := by
  refine ⟨?_, by decide!, by decide!⟩
  obtain ⟨R, hR, hfirst, hdeg⟩ := polynomial_reduct_eq A hA
  refine ⟨R, hR, polynomial_reduct_fixed R ?_ ?_ hdeg⟩
  · rw [hfirst]; exact pairwise_dense_chain _ _
  · intro m hm
    rw [hfirst] at hm
    obtain ⟨_, hc, ha⟩ := (mem_dense_chain _ _ m).mp hm
    rw [hc]; exact ha

/-- C13, at the chain `2x + 4x + 3`, reduced to `3 + 6x`. -/
theorem polynomial_reduct_idempotent_witness :
    (∀ m ∈ ({ first := [⟨2, 1⟩, ⟨4, 1⟩, ⟨3, 0⟩], degree := 1 } : Polynomial).first,
      m.degree ≤ 1) ∧
    polynomial_reduct { first := [⟨2, 1⟩, ⟨4, 1⟩, ⟨3, 0⟩], degree := 1 } =
      .ok { first := [⟨3, 0⟩, ⟨6, 1⟩], degree := 1 } ∧
    ∃ R, polynomial_reduct { first := [⟨2, 1⟩, ⟨4, 1⟩, ⟨3, 0⟩], degree := 1 } = .ok R ∧
      polynomial_reduct R = .ok R :=
  ⟨by decide, by decide!,
    (polynomial_reduct_idempotent { first := [⟨2, 1⟩, ⟨4, 1⟩, ⟨3, 0⟩], degree := 1 }
      (by decide)).1⟩

/-! ## Degree laws -/

theorem coefficient_at_of_mem (l : List Monomial) (hnd : (l.map (fun m => m.degree)).Nodup)
    (m : Monomial) (hm : m ∈ l) : coefficient_at l m.degree = m.coefficient := by
  induction l with
  | nil => cases hm
  | cons a l ih =>
    rw [List.map_cons, List.nodup_cons] at hnd
    rw [coefficient_at_cons]
    rcases List.mem_cons.mp hm with h | h
    · subst h
      rw [if_pos rfl]
    · have hne : ¬ (a.degree = m.degree) := fun hd =>
        hnd.1 (List.mem_map.mpr ⟨m, h, hd.symm⟩)
      rw [if_neg hne, ih hnd.2 h]

theorem coeff_sum_eq_coefficient_at (l : List Monomial)
    (hnd : (l.map (fun m => m.degree)).Nodup) (d : Nat) :
    coeff_sum l d = coefficient_at l d := by
  by_cases h : ∃ m ∈ l, m.degree = d
  · obtain ⟨m, hm, hd⟩ := h
    rw [← hd, coeff_sum_of_mem l hnd m hm, coefficient_at_of_mem l hnd m hm]
  · rw [coeff_sum_absent l d (fun m hm hd => h ⟨m, hm, hd⟩),
      coefficient_at_absent l d (fun m hm hd => h ⟨m, hm, hd⟩)]

theorem leading_coefficient (A : Polynomial) (hne : A.first ≠ []) (hA : normalized A) :
    1 / 10000 ≤ |coefficient_at A.first A.degree| := by
  obtain ⟨hnd, hnn, hdeg⟩ := hA
  obtain ⟨m, hm, hmd⟩ := max_degree_attained A.first hne
  rw [hdeg, ← hmd, coefficient_at_of_mem A.first hnd m hm]
  exact not_lt.mp (hnn m hm)

theorem dense_chain_degree (g : Nat → ℚ) (n : Nat) :
    (∀ d, d < n → 1 / 10000 ≤ |g d| → d ≤ max_degree (dense_chain g n)) ∧
    ((∃ d, d < n ∧ 1 / 10000 ≤ |g d|) →
      max_degree (dense_chain g n) < n ∧
        1 / 10000 ≤ |g (max_degree (dense_chain g n))|) ∧
    ((∀ d, d < n → |g d| < 1 / 10000) → max_degree (dense_chain g n) = 0) := by
  refine ⟨?_, ?_, ?_⟩
  · intro d hd ha
    exact le_max_degree _ ⟨g d, d⟩ ((mem_dense_chain g n ⟨g d, d⟩).mpr ⟨hd, rfl, ha⟩)
  · rintro ⟨d, hd, ha⟩
    have hne : dense_chain g n ≠ [] := by
      intro h
      have := (mem_dense_chain g n ⟨g d, d⟩).mpr ⟨hd, rfl, ha⟩
      rw [h] at this
      cases this
    obtain ⟨m, hm, hmd⟩ := max_degree_attained _ hne
    obtain ⟨h1, _, h3⟩ := (mem_dense_chain g n m).mp hm
    rw [← hmd]
    exact ⟨h1, h3⟩
  · intro h
    rw [(dense_chain_eq_nil g n).mpr h]
    rfl

/-- C16: for non-empty normalized chains, the cached degree of `polynomial_sum`
is the largest degree `d <= max(deg A, deg B)` with `|a_d + b_d| >= 0.0001`, and 0
when there is none; it is `max(deg A, deg B)` when the sum of the two
coefficients of that degree is not near zero, and always when `deg A` differs
from `deg B`. -/
theorem polynomial_sum_degree (A B : Polynomial) (hneA : A.first ≠ []) (hneB : B.first ≠ [])
    (hA : normalized A) (hB : normalized B) :
    ∃ R, polynomial_sum A B = .ok R ∧
      (∀ d, d ≤ max A.degree B.degree →
        1 / 10000 ≤ |coefficient_at A.first d + coefficient_at B.first d| → d ≤ R.degree) ∧
      ((∃ d, d ≤ max A.degree B.degree ∧
          1 / 10000 ≤ |coefficient_at A.first d + coefficient_at B.first d|) →
        R.degree ≤ max A.degree B.degree ∧
          1 / 10000 ≤
            |coefficient_at A.first R.degree + coefficient_at B.first R.degree|) ∧
      ((∀ d, d ≤ max A.degree B.degree →
          |coefficient_at A.first d + coefficient_at B.first d| < 1 / 10000) →
        R.degree = 0) ∧
      (1 / 10000 ≤ |coefficient_at A.first (max A.degree B.degree) +
          coefficient_at B.first (max A.degree B.degree)| →
        R.degree = max A.degree B.degree) ∧
      (A.degree ≠ B.degree → R.degree = max A.degree B.degree) := by
  have hbA : ∀ m ∈ A.first, m.degree ≤ A.degree := fun m hm =>
    hA.2.2 ▸ le_max_degree _ m hm
  have hbB : ∀ m ∈ B.first, m.degree ≤ B.degree := fun m hm =>
    hB.2.2 ▸ le_max_degree _ m hm
  obtain ⟨R, hR, hfirst, hdeg⟩ := polynomial_sum_eq A B hneA hneB hA.1 hB.1 hbA hbB
  obtain ⟨h1, h2, h3⟩ := dense_chain_degree
    (fun d => coefficient_at A.first d + coefficient_at B.first d) (max A.degree B.degree + 1)
  rw [← hfirst, ← hdeg] at h1 h2 h3
  have htop : 1 / 10000 ≤ |coefficient_at A.first (max A.degree B.degree) +
      coefficient_at B.first (max A.degree B.degree)| →
      R.degree = max A.degree B.degree := by
    intro ha
    have hle := h1 _ (Nat.lt_succ_self _) ha
    have hge := (h2 ⟨_, Nat.lt_succ_self _, ha⟩).1
    omega
  refine ⟨R, hR, ?_, ?_, ?_, htop, ?_⟩
  · intro d hd ha
    exact h1 d (by omega) ha
  · rintro ⟨d, hd, ha⟩
    obtain ⟨h4, h5⟩ := h2 ⟨d, by omega, ha⟩
    exact ⟨by omega, h5⟩
  · intro hall
    exact h3 (fun d hd => hall d (by omega))
  · intro hne
    apply htop
    rcases Nat.lt_or_gt_of_ne hne with hlt | hgt
    · have hmax : max A.degree B.degree = B.degree := by omega
      rw [hmax, coefficient_at_absent A.first B.degree
        (fun m hm hd => by have := hbA m hm; omega), zero_add]
      exact leading_coefficient B hneB hB
    · have hmax : max A.degree B.degree = A.degree := by omega
      rw [hmax, coefficient_at_absent B.first A.degree
        (fun m hm hd => by have := hbB m hm; omega), add_zero]
      exact leading_coefficient A hneA hA

/-- C16, at `2 + 5x - 7x^2` and `1 + 7x^2`, whose top coefficients cancel: the sum
is `3 + 5x`, of cached degree 1. -/
theorem polynomial_sum_degree_witness :
    normalized { first := [⟨2, 0⟩, ⟨5, 1⟩, ⟨-7, 2⟩], degree := 2 } ∧
    normalized { first := [⟨1, 0⟩, ⟨7, 2⟩], degree := 2 } ∧
    polynomial_sum { first := [⟨2, 0⟩, ⟨5, 1⟩, ⟨-7, 2⟩], degree := 2 }
        { first := [⟨1, 0⟩, ⟨7, 2⟩], degree := 2 } =
      .ok { first := [⟨3, 0⟩, ⟨5, 1⟩], degree := 1 } ∧
    ∃ R, polynomial_sum { first := [⟨2, 0⟩, ⟨5, 1⟩, ⟨-7, 2⟩], degree := 2 }
        { first := [⟨1, 0⟩, ⟨7, 2⟩], degree := 2 } = .ok R ∧
      ((2 : Nat) ≠ 2 → R.degree = max 2 2) :=
  ⟨by decide!, by decide!, by decide!,
    let ⟨R, hR, _, _, _, _, h5⟩ :=
      polynomial_sum_degree { first := [⟨2, 0⟩, ⟨5, 1⟩, ⟨-7, 2⟩], degree := 2 }
        { first := [⟨1, 0⟩, ⟨7, 2⟩], degree := 2 } (by decide) (by decide)
        (by decide!) (by decide!)
    ⟨R, hR, h5⟩⟩

theorem product_sum_top (A B : List Monomial) (dA dB : Nat)
    (hA : ∀ a ∈ A, a.degree ≤ dA) (hB : ∀ b ∈ B, b.degree ≤ dB) :
    product_sum A B (dA + dB) = coeff_sum A dA * coeff_sum B dB := by
  induction A with
  | nil => rw [product_sum_nil, coeff_sum_nil, zero_mul]
  | cons a A ih =>
    rw [product_sum_cons, ih (fun x hx => hA x (List.mem_cons_of_mem _ hx)), coeff_sum_cons]
    have ha := hA a (List.mem_cons_self _ _)
    by_cases hd : a.degree = dA
    · have hfilter : B.filter (fun b => a.degree + b.degree = dA + dB) =
          B.filter (fun b => b.degree = dB) := by
        apply List.filter_congr
        intro b _
        rw [hd]
        simp
      rw [hfilter, if_pos hd, List.sum_map_mul_left]
      unfold coeff_sum
      ring
    · have hnil : B.filter (fun b => a.degree + b.degree = dA + dB) = [] := by
        rw [List.filter_eq_nil_iff]
        intro b hb
        have := hB b hb
        simp only [decide_eq_true_eq]
        omega
      rw [hnil, if_neg hd]
      simp

/-- C17: for non-empty normalized chains, the coefficient of degree
`deg A + deg B` of the product is the product of the two leading coefficients
(the coefficients of degree `deg A` and `deg B`, neither of them near zero), and
the cached degree of `polynomial_product` is `deg A + deg B` unless that product
is stripped as near zero (absolute value below 0.0001), in which case every term
left has a smaller degree. -/
theorem polynomial_product_degree (A B : Polynomial) (hneA : A.first ≠ [])
    (hneB : B.first ≠ []) (hA : normalized A) (hB : normalized B) :
    ∃ R, polynomial_product A B = .ok R ∧
      product_sum A.first B.first (A.degree + B.degree) =
        coefficient_at A.first A.degree * coefficient_at B.first B.degree ∧
      (1 / 10000 ≤ |coefficient_at A.first A.degree * coefficient_at B.first B.degree| →
        R.degree = A.degree + B.degree) ∧
      (|coefficient_at A.first A.degree * coefficient_at B.first B.degree| < 1 / 10000 →
        ∀ m ∈ R.first, m.degree < A.degree + B.degree) ∧
      (1 / 10000 ≤ |coefficient_at A.first A.degree| ∧
        1 / 10000 ≤ |coefficient_at B.first B.degree|) ∧
      R.degree ≤ A.degree + B.degree := by
  have hbA : ∀ m ∈ A.first, m.degree ≤ A.degree := fun m hm =>
    hA.2.2 ▸ le_max_degree _ m hm
  have hbB : ∀ m ∈ B.first, m.degree ≤ B.degree := fun m hm =>
    hB.2.2 ▸ le_max_degree _ m hm
  obtain ⟨R, hR, hfirst, hdeg⟩ := polynomial_product_eq A B hbA hbB
  have htop : product_sum A.first B.first (A.degree + B.degree) =
      coefficient_at A.first A.degree * coefficient_at B.first B.degree := by
    rw [product_sum_top A.first B.first A.degree B.degree hbA hbB,
      coeff_sum_eq_coefficient_at _ hA.1, coeff_sum_eq_coefficient_at _ hB.1]
  have hle : R.degree ≤ A.degree + B.degree := by
    rw [hdeg]
    apply max_degree_le
    intro m hm
    rw [hfirst] at hm
    have := ((mem_dense_chain _ _ m).mp hm).1
    omega
  refine ⟨R, hR, htop, ?_, ?_,
    ⟨leading_coefficient A hneA hA, leading_coefficient B hneB hB⟩, hle⟩
  · intro ha
    rw [← htop] at ha
    have hmem : (⟨product_sum A.first B.first (A.degree + B.degree),
        A.degree + B.degree⟩ : Monomial) ∈ R.first := by
      rw [hfirst]
      exact (mem_dense_chain _ _ _).mpr ⟨Nat.lt_succ_self _, rfl, ha⟩
    have := le_max_degree _ _ hmem
    rw [← hdeg] at this
    have h2 : A.degree + B.degree ≤ R.degree := this
    omega
  · intro hlt m hm
    rw [hfirst] at hm
    obtain ⟨h1, _, h3⟩ := (mem_dense_chain _ _ m).mp hm
    by_contra hc
    have hmd : m.degree = A.degree + B.degree := by omega
    rw [hmd, htop] at h3
    exact absurd hlt (not_lt.mpr h3)

/-- C17, at `2 + 5x - 7x^2` and `2x - 11`, whose product has degree 3. -/
theorem polynomial_product_degree_witness :
    normalized { first := [⟨2, 0⟩, ⟨5, 1⟩, ⟨-7, 2⟩], degree := 2 } ∧
    normalized { first := [⟨-11, 0⟩, ⟨2, 1⟩], degree := 1 } ∧
    polynomial_product { first := [⟨2, 0⟩, ⟨5, 1⟩, ⟨-7, 2⟩], degree := 2 }
        { first := [⟨-11, 0⟩, ⟨2, 1⟩], degree := 1 } =
      .ok { first := [⟨-22, 0⟩, ⟨-51, 1⟩, ⟨87, 2⟩, ⟨-14, 3⟩], degree := 3 } ∧
    ∃ R, polynomial_product { first := [⟨2, 0⟩, ⟨5, 1⟩, ⟨-7, 2⟩], degree := 2 }
        { first := [⟨-11, 0⟩, ⟨2, 1⟩], degree := 1 } = .ok R ∧ R.degree ≤ 2 + 1 :=
  ⟨by decide!, by decide!, by decide!,
    let ⟨R, hR, _, _, _, _, h5⟩ :=
      polynomial_product_degree { first := [⟨2, 0⟩, ⟨5, 1⟩, ⟨-7, 2⟩], degree := 2 }
        { first := [⟨-11, 0⟩, ⟨2, 1⟩], degree := 1 } (by decide) (by decide)
        (by decide!) (by decide!)
    ⟨R, hR, h5⟩⟩

/-! ## The cached degree of every returned chain -/

theorem max_degree_append (l1 l2 : List Monomial) :
    max_degree (l1 ++ l2) = max (max_degree l1) (max_degree l2) := by
  induction l1 with
  | nil => simp [max_degree]
  | cons a l ih =>
    rw [List.cons_append, max_degree_cons, max_degree_cons, ih]
    omega

theorem max_degree_range (f : Nat → ℚ) (n : Nat) :
    max_degree ((List.range (n + 1)).map (fun index => monomial_create (f index) index)) = n := by
  induction n with
  | zero => rfl
  | succ n ih =>
    rw [List.range_succ, List.map_append, max_degree_append, ih]
    simp [max_degree, monomial_create]

theorem convert_to_array_loop_ok (l : List Monomial) (array : List ℚ)
    (h : ∀ m ∈ l, m.degree < array.length) :
    ∃ result, convert_to_array_loop l array = .ok result ∧ result.length = array.length := by
  induction l generalizing array with
  | nil => exact ⟨array, rfl, rfl⟩
  | cons m l ih =>
    have hm := h m (List.mem_cons_self _ _)
    obtain ⟨result, hr, hlen⟩ := ih (array.set m.degree m.coefficient)
      (fun a ha => by simpa using h a (List.mem_cons_of_mem _ ha))
    refine ⟨result, ?_, by simpa using hlen⟩
    rw [convert_to_array_loop, if_pos hm]; exact hr

theorem polynomial_convert_to_array_ok (A : Polynomial) (n : Nat) (hne : A.first ≠ [])
    (h : ∀ m ∈ A.first, m.degree < n) :
    ∃ result, polynomial_convert_to_array A (List.replicate n 0) = .ok result := by
  obtain ⟨result, hr, _⟩ := convert_to_array_loop_ok A.first (List.replicate n 0)
    (by simpa using h)
  refine ⟨result, ?_⟩
  unfold polynomial_convert_to_array
  cases hA : A.first with
  | nil => exact absurd hA hne
  | cons a l => rw [hA] at hr; exact hr

theorem polynomial_sum_returns (A B : Polynomial) (hneA : A.first ≠ []) (hneB : B.first ≠ [])
    (hA : cached_degree_exact A) (hB : cached_degree_exact B) :
    ∃ R, polynomial_sum A B = .ok R ∧ cached_degree_exact R := by
  have hmax : (if A.degree > B.degree then A.degree else B.degree) = max A.degree B.degree := by
    split <;> omega
  obtain ⟨r0, hr0⟩ := polynomial_convert_to_array_ok A (max A.degree B.degree + 1) hneA
    (fun m hm => by have := le_max_degree _ m hm; rw [← hA] at this; omega)
  obtain ⟨r1, hr1⟩ := polynomial_convert_to_array_ok B (max A.degree B.degree + 1) hneB
    (fun m hm => by have := le_max_degree _ m hm; rw [← hB] at this; omega)
  refine ⟨polynomial_remove_null_monomials
    { first := (List.range (max A.degree B.degree + 1)).map
        (fun index_coeff => monomial_create (r0.getD index_coeff 0 + r1.getD index_coeff 0)
          index_coeff),
      degree := max A.degree B.degree }, ?_, remove_null_degree _⟩
  simp only [polynomial_sum, hmax, hr0, hr1]

theorem polynomial_product_returns (A B : Polynomial)
    (hA : cached_degree_exact A) (hB : cached_degree_exact B) :
    ∃ R, polynomial_product A B = .ok R ∧ cached_degree_exact R := by
  obtain ⟨R, hR, _, hdeg⟩ := polynomial_product_eq A B
    (fun m hm => hA ▸ le_max_degree _ m hm) (fun m hm => hB ▸ le_max_degree _ m hm)
  exact ⟨R, hR, hdeg⟩

theorem power_loop_returns (A : Polynomial) (hA : cached_degree_exact A) (n : Nat) :
    ∀ result, cached_degree_exact result →
      ∃ R, power_loop A n result = .ok R ∧ cached_degree_exact R := by
  induction n with
  | zero => intro result hr; exact ⟨result, rfl, hr⟩
  | succ n ih =>
    intro result hr
    rw [power_loop]
    by_cases hgt : n + 1 > 1
    · rw [if_pos hgt]
      obtain ⟨P, hP, hPd⟩ := polynomial_product_returns result A hr hA
      rw [hP]
      exact ih P hPd
    · rw [if_neg hgt]
      exact ⟨result, rfl, hr⟩

theorem polynomial_derivative_returns (A : Polynomial) (hne : A.first ≠ []) :
    ∃ R, polynomial_derivative A = .ok R ∧ cached_degree_exact R := by
  unfold polynomial_derivative
  cases hf : A.first with
  | nil => exact absurd hf hne
  | cons a l =>
    dsimp only
    by_cases hlt : (A.degree : Int) - 1 < 0
    · rw [if_pos hlt]
      exact ⟨_, rfl, rfl⟩
    · rw [if_neg hlt]
      exact ⟨_, rfl, remove_null_degree _⟩

theorem parses_of_returns (string : List Char) (r : Option Polynomial)
    (h : polynomial_create_from_string string = .ok r) : ∃ terms, ParsesTo string terms := by
  rcases parses_or_fails string.length string (le_refl _) with hp | hf
  · exact hp
  · unfold polynomial_create_from_string at h
    rw [create_from_string_loop_fails string hf (string.length + 1) [] 0
      (Nat.lt_succ_self _)] at h
    cases h

/-- C18: every chain returned by `polynomial_create`, `polynomial_copy`,
`polynomial_create_from_string` (when not the null value), `polynomial_sum`,
`polynomial_product`, `polynomial_power`, `polynomial_derivative` and
`polynomial_reduct` has a cached degree equal to the largest degree of its terms,
0 when it has no term; and on inputs with that invariant (an array of
`degree + 1` coefficients, non-empty operands where the function asserts it, a
positive power) each of these functions returns such a chain. -/
theorem cached_degree_invariant :
    (∀ coefficients degree, degree < coefficients.length →
      ∃ R, polynomial_create coefficients degree = .ok R ∧ cached_degree_exact R) ∧
    (∀ A, cached_degree_exact (polynomial_copy A)) ∧
    (∀ string P, polynomial_create_from_string string = .ok (some P) →
      cached_degree_exact P) ∧
    (∀ A B, cached_degree_exact A → cached_degree_exact B → A.first ≠ [] → B.first ≠ [] →
      ∃ R, polynomial_sum A B = .ok R ∧ cached_degree_exact R) ∧
    (∀ A B, cached_degree_exact A → cached_degree_exact B →
      ∃ R, polynomial_product A B = .ok R ∧ cached_degree_exact R) ∧
    (∀ A (n : Int), cached_degree_exact A → 1 ≤ n →
      ∃ R, polynomial_power A n = .ok R ∧ cached_degree_exact R) ∧
    (∀ A, A.first ≠ [] →
      ∃ R, polynomial_derivative A = .ok R ∧ cached_degree_exact R) ∧
    (∀ A, cached_degree_exact A →
      ∃ R, polynomial_reduct A = .ok R ∧ cached_degree_exact R) := by
  refine ⟨?_, ?_, ?_, ?_, ?_, ?_, ?_, ?_⟩
  · intro coefficients degree hlt
    refine ⟨_, polynomial_create_ok coefficients degree hlt, ?_⟩
    exact (max_degree_range (fun index => coefficients.getD index 0) degree).symm
  · intro A
    unfold cached_degree_exact
    rw [polynomial_copy_degree, polynomial_copy_first]
  · intro string P hP
    obtain ⟨terms, ht⟩ := parses_of_returns string _ hP
    obtain ⟨r, hr, _, _, hdeg⟩ := polynomial_create_from_string_eq string terms ht
    rw [hP] at hr
    cases hr
    exact hdeg P rfl
  · intro A B hA hB hneA hneB
    exact polynomial_sum_returns A B hneA hneB hA hB
  · intro A B hA hB
    exact polynomial_product_returns A B hA hB
  · intro A n hA hn
    have hpos : n > 0 := by omega
    unfold polynomial_power
    rw [if_pos hpos]
    apply power_loop_returns A hA
    unfold cached_degree_exact
    rw [polynomial_copy_degree, polynomial_copy_first]
  · intro A hne
    exact polynomial_derivative_returns A hne
  · intro A hA
    obtain ⟨R, hR, _, hdeg⟩ := polynomial_reduct_eq A
      (fun m hm => hA ▸ le_max_degree _ m hm)
    exact ⟨R, hR, hdeg⟩

/-! ## The derivative and the normalization invariant -/

theorem derivative_degrees_nodup (l : List Monomial)
    (hnd : (l.map (fun m => m.degree)).Nodup) :
    (((l.filter (fun m => 1 ≤ m.degree)).map
      (fun m => (⟨m.coefficient * (m.degree : ℚ), m.degree - 1⟩ : Monomial))).map
        (fun m => m.degree)).Nodup := by
  induction l with
  | nil => exact List.nodup_nil
  | cons a l ih =>
    rw [List.map_cons, List.nodup_cons] at hnd
    by_cases hd : 1 ≤ a.degree
    · rw [List.filter_cons, if_pos (by simpa using hd), List.map_cons, List.map_cons,
        List.nodup_cons]
      refine ⟨?_, ih hnd.2⟩
      intro hmem
      simp only [List.mem_map, List.mem_filter, decide_eq_true_eq] at hmem
      obtain ⟨m2, ⟨m, ⟨hm, hmd⟩, rfl⟩, heq⟩ := hmem
      simp only at heq
      apply hnd.1
      exact List.mem_map.mpr ⟨m, hm, by omega⟩
    · rw [List.filter_cons, if_neg (by simpa using hd)]
      exact ih hnd.2

theorem polynomial_derivative_eq (A : Polynomial) (hA : normalized A) (hdeg : 1 ≤ A.degree) :
    ∃ R, polynomial_derivative A = .ok R ∧
      R.first = (A.first.filter (fun m => 1 ≤ m.degree)).map
        (fun m => ⟨m.coefficient * (m.degree : ℚ), m.degree - 1⟩) ∧
      R.degree = max_degree R.first := by
  obtain ⟨_, hnn, hmd⟩ := hA
  have hlt : ¬ ((A.degree : Int) - 1 < 0) := by omega
  cases hf : A.first with
  | nil => rw [hmd, hf] at hdeg; simp [max_degree] at hdeg
  | cons a l =>
    refine ⟨polynomial_remove_null_monomials
      { first := (a :: l).map monomial_derivative, degree := A.degree - 1 }, ?_, ?_,
      remove_null_degree _⟩
    · simp only [polynomial_derivative, hf, if_neg hlt]
    · rw [remove_null_first]
      exact derivative_strip (a :: l) (hf ▸ hnn)

/-- C19, amended: for every normalized chain of cached degree at least 1,
`polynomial_derivative` returns a chain that satisfies the normalization
invariant (at most one term per degree, no term with a coefficient below the
tolerance, cached degree equal to the largest degree present); for a non-empty
chain of cached degree 0 it returns the chain `{(0,0)}`, whose only coefficient
is zero. -/
theorem polynomial_derivative_normalized (A : Polynomial) (hA : normalized A)
    (hdeg : 1 ≤ A.degree) :
    (∃ R, polynomial_derivative A = .ok R ∧ normalized R) ∧
    (∀ B : Polynomial, B.first ≠ [] → B.degree = 0 →
      polynomial_derivative B = .ok { first := [⟨0, 0⟩], degree := 0 }) := by
  constructor
  · obtain ⟨R, hR, hfirst, hmax⟩ := polynomial_derivative_eq A hA hdeg
    refine ⟨R, hR, ?_, ?_, hmax⟩
    · rw [hfirst]
      exact derivative_degrees_nodup A.first hA.1
    · intro m hm
      rw [hfirst] at hm
      simp only [List.mem_map, List.mem_filter, decide_eq_true_eq] at hm
      obtain ⟨m0, ⟨hm0, hd0⟩, rfl⟩ := hm
      simp only
      rw [not_lt, abs_mul]
      have h1 : (1 : ℚ) ≤ |(m0.degree : ℚ)| := by
        rw [abs_of_nonneg (by positivity)]; exact_mod_cast hd0
      have h2 : 1 / 10000 ≤ |m0.coefficient| := not_lt.mp (hA.2.1 m0 hm0)
      nlinarith [abs_nonneg m0.coefficient]
  · intro B hne hB
    cases hf : B.first with
    | nil => exact absurd hf hne
    | cons a l => simp [polynomial_derivative, hf, hB, monomial_create]

/-- C19, at `2 + 5x - 7x^2`, whose derivative `5 - 14x` is normalized. -/
theorem polynomial_derivative_normalized_witness :
    normalized { first := [⟨2, 0⟩, ⟨5, 1⟩, ⟨-7, 2⟩], degree := 2 } ∧
    normalized { first := [⟨5, 0⟩, ⟨-14, 1⟩], degree := 1 } ∧
    ∃ R, polynomial_derivative { first := [⟨2, 0⟩, ⟨5, 1⟩, ⟨-7, 2⟩], degree := 2 } = .ok R ∧
      normalized R :=
  ⟨by decide!, by decide!,
    (polynomial_derivative_normalized { first := [⟨2, 0⟩, ⟨5, 1⟩, ⟨-7, 2⟩], degree := 2 }
      (by decide!) (by decide)).1⟩

/-- C19 as stated fails on the non-empty normalized chain `{(5,0)}`: its
derivative is the chain `{(0,0)}`, which holds a zero coefficient and so is not
normalized. -/
theorem polynomial_derivative_constant_not_normalized :
    ({ first := [⟨5, 0⟩], degree := 0 } : Polynomial).first ≠ [] ∧
    normalized { first := [⟨5, 0⟩], degree := 0 } ∧
    polynomial_derivative { first := [⟨5, 0⟩], degree := 0 } =
      .ok { first := [⟨0, 0⟩], degree := 0 } ∧
    ¬ normalized { first := [⟨0, 0⟩], degree := 0 } := by
  refine ⟨by decide, by decide!, by decide!, by decide!⟩

/-- C20, amended: `polynomial_derivative` applied to an empty chain does not
return a chain: it fails its assertion that the chain is non-empty, whatever the
cached degree; the zero polynomial `{(0,0)}` is what it returns for a non-empty
chain of cached degree 0. -/
theorem polynomial_derivative_empty (degree : Nat) :
    polynomial_derivative { first := [], degree := degree } = .error .assertion ∧
    (∀ A : Polynomial, A.first = [] → polynomial_derivative A = .error .assertion) ∧
    (∀ A : Polynomial, A.first ≠ [] → A.degree = 0 →
      polynomial_derivative A = .ok { first := [⟨0, 0⟩], degree := 0 }) := by
  refine ⟨rfl, ?_, ?_⟩
  · intro A hA
    unfold polynomial_derivative
    rw [hA]
  · intro A hne hA
    cases hf : A.first with
    | nil => exact absurd hf hne
    | cons a l => simp [polynomial_derivative, hf, hA, monomial_create]

/-- C20 as stated fails on the empty chain: `polynomial_derivative` ends in the
failed assertion and returns no chain. -/
theorem polynomial_derivative_empty_asserts :
    polynomial_derivative { first := [], degree := 0 } = .error .assertion ∧
    polynomial_derivative { first := [], degree := 0 } ≠
      .ok { first := [⟨0, 0⟩], degree := 0 } := by
  refine ⟨rfl, ?_⟩
  intro h
  cases h

/-! ## Evaluation of a product -/

theorem polynomial_compute_eq (A : Polynomial) (x : Int) (hne : A.first ≠ [])
    (hnd : (A.first.map (fun m => m.degree)).Nodup) (hdeg : A.degree = max_degree A.first) :
    polynomial_compute A x =
      .ok ((A.first.map (fun m => m.coefficient * (x : ℚ) ^ m.degree)).sum) := by
  have hb : ∀ m ∈ A.first, m.degree < A.degree + 1 := fun m hm => by
    have := le_max_degree _ m hm; omega
  obtain ⟨arr, harr, _, hget⟩ :=
    polynomial_convert_to_array_zero A (A.degree + 1) hne hnd hb
  unfold polynomial_compute polynomial_compute_method_horner
  cases hA : A.first with
  | nil => exact absurd hA hne
  | cons a l =>
    simp only [harr, horner_loop_eq]
    congr 1
    have hs := sum_coefficient_at A.first (A.degree + 1) (fun i => (x : ℚ) ^ i) hnd hb
    rw [Finset.sum_range_succ] at hs
    simp only [hget]
    rw [← hA, ← hs]; ring

theorem dense_chain_succ (g : Nat → ℚ) (n : Nat) :
    dense_chain g (n + 1) =
      dense_chain g n ++ (if 1 / 10000 ≤ |g n| then [⟨g n, n⟩] else []) := by
  unfold dense_chain
  rw [List.range_succ, List.map_append, List.filter_append]
  congr 1
  simp only [List.map_cons, List.map_nil, List.filter_cons, List.filter_nil]
  by_cases h : 1 / 10000 ≤ |g n|
  · rw [if_pos h, if_pos (by simpa [monomial_create] using (not_null_iff (g n)).mpr h)]
    rfl
  · rw [if_neg h, if_neg (by
      intro hc
      exact h ((not_null_iff (g n)).mp (by simpa [monomial_create] using hc)))]

theorem sum_dense_chain (g : Nat → ℚ) (n : Nat) (f : Nat → ℚ) :
    ((dense_chain g n).map (fun m => m.coefficient * f m.degree)).sum =
      ∑ i ∈ Finset.range n, (if 1 / 10000 ≤ |g i| then g i * f i else 0) := by
  induction n with
  | zero => rfl
  | succ n ih =>
    rw [dense_chain_succ, List.map_append, List.sum_append, ih, Finset.sum_range_succ]
    congr 1
    split <;> simp

theorem sum_inner_product (a : Monomial) (B : List Monomial) (n : Nat) (f : Nat → ℚ)
    (h : ∀ b ∈ B, a.degree + b.degree < n) :
    ∑ d ∈ Finset.range n,
        ((B.filter (fun b => a.degree + b.degree = d)).map
          (fun b => a.coefficient * b.coefficient)).sum * f d =
      (B.map (fun b => a.coefficient * b.coefficient * f (a.degree + b.degree))).sum := by
  induction B with
  | nil => simp
  | cons b B ih =>
    have hb := h b (List.mem_cons_self _ _)
    have hsplit : ∀ d, ((List.filter (fun b => a.degree + b.degree = d) (b :: B)).map
          (fun b => a.coefficient * b.coefficient)).sum * f d =
        (if a.degree + b.degree = d then a.coefficient * b.coefficient * f d else 0) +
          ((B.filter (fun b => a.degree + b.degree = d)).map
            (fun b => a.coefficient * b.coefficient)).sum * f d := by
      intro d
      by_cases hd : a.degree + b.degree = d
      · simp [List.filter_cons, hd]; ring
      · simp [List.filter_cons, hd]
    simp only [hsplit, Finset.sum_add_distrib, Finset.sum_ite_eq, Finset.mem_range, hb,
      if_true, List.map_cons, List.sum_cons]
    rw [ih (fun x hx => h x (List.mem_cons_of_mem _ hx))]

theorem sum_product_sum (A B : List Monomial) (n : Nat) (f : Nat → ℚ)
    (h : ∀ a ∈ A, ∀ b ∈ B, a.degree + b.degree < n) :
    ∑ d ∈ Finset.range n, product_sum A B d * f d =
      (A.map (fun a =>
        (B.map (fun b => a.coefficient * b.coefficient * f (a.degree + b.degree))).sum)).sum := by
  induction A with
  | nil => simp [product_sum_nil]
  | cons a A ih =>
    simp only [product_sum_cons, add_mul, Finset.sum_add_distrib, List.map_cons, List.sum_cons]
    rw [sum_inner_product a B n f (h a (List.mem_cons_self _ _)),
      ih (fun x hx => h x (List.mem_cons_of_mem _ hx))]

theorem sum_pairs_factor (A B : List Monomial) (x : ℚ) :
    (A.map (fun a =>
        (B.map (fun b => a.coefficient * b.coefficient * x ^ (a.degree + b.degree))).sum)).sum =
      (A.map (fun m => m.coefficient * x ^ m.degree)).sum *
        (B.map (fun m => m.coefficient * x ^ m.degree)).sum := by
  induction A with
  | nil => simp
  | cons a A ih =>
    simp only [List.map_cons, List.sum_cons, add_mul]
    rw [ih]
    congr 1
    rw [← List.sum_map_mul_left]
    congr 1
    apply List.map_congr_left
    intro b _
    rw [pow_add]; ring

/-- C15: for non-empty normalized chains and every integer `x`, when every
non-zero coefficient of the exact product has absolute value at least 0.0001 (so
that no non-zero term is stripped), the three evaluations return and
`polynomial_compute(polynomial_product(A, B), x)` is
`polynomial_compute(A, x) * polynomial_compute(B, x)`. -/
theorem polynomial_compute_product (A B : Polynomial) (x : Int) (hneA : A.first ≠ [])
    (hneB : B.first ≠ []) (hA : normalized A) (hB : normalized B)
    (hkeep : ∀ d, product_sum A.first B.first d ≠ 0 →
      1 / 10000 ≤ |product_sum A.first B.first d|) :
    ∃ P va vb, polynomial_product A B = .ok P ∧
      polynomial_compute A x = .ok va ∧ polynomial_compute B x = .ok vb ∧
      polynomial_compute P x = .ok (va * vb) := by
  have hbA : ∀ m ∈ A.first, m.degree ≤ A.degree := fun m hm =>
    hA.2.2 ▸ le_max_degree _ m hm
  have hbB : ∀ m ∈ B.first, m.degree ≤ B.degree := fun m hm =>
    hB.2.2 ▸ le_max_degree _ m hm
  obtain ⟨P, hP, hfirst, hdeg⟩ := polynomial_product_eq A B hbA hbB
  have htop : product_sum A.first B.first (A.degree + B.degree) =
      coefficient_at A.first A.degree * coefficient_at B.first B.degree := by
    rw [product_sum_top A.first B.first A.degree B.degree hbA hbB,
      coeff_sum_eq_coefficient_at _ hA.1, coeff_sum_eq_coefficient_at _ hB.1]
  have hlA := leading_coefficient A hneA hA
  have hlB := leading_coefficient B hneB hB
  have hnz : product_sum A.first B.first (A.degree + B.degree) ≠ 0 := by
    rw [htop]
    apply mul_ne_zero
    · intro h0; rw [h0] at hlA; norm_num at hlA
    · intro h0; rw [h0] at hlB; norm_num at hlB
  have hneP : P.first ≠ [] := by
    intro hnil
    have hmem : (⟨product_sum A.first B.first (A.degree + B.degree),
        A.degree + B.degree⟩ : Monomial) ∈ P.first := by
      rw [hfirst]
      exact (mem_dense_chain _ _ _).mpr ⟨Nat.lt_succ_self _, rfl, hkeep _ hnz⟩
    rw [hnil] at hmem
    cases hmem
  have hndP : (P.first.map (fun m => m.degree)).Nodup := by
    apply nodup_degrees_of_pairwise
    rw [hfirst]; exact pairwise_dense_chain _ _
  refine ⟨P, _, _, hP, polynomial_compute_eq A x hneA hA.1 hA.2.2,
    polynomial_compute_eq B x hneB hB.1 hB.2.2, ?_⟩
  rw [polynomial_compute_eq P x hneP hndP hdeg, hfirst, sum_dense_chain]
  congr 1
  have hsame : ∀ i ∈ Finset.range (A.degree + B.degree + 1),
      (if 1 / 10000 ≤ |product_sum A.first B.first i| then
          product_sum A.first B.first i * (x : ℚ) ^ i else 0) =
        product_sum A.first B.first i * (x : ℚ) ^ i := by
    intro i _
    by_cases hk : 1 / 10000 ≤ |product_sum A.first B.first i|
    · rw [if_pos hk]
    · rw [if_neg hk]
      have h0 : product_sum A.first B.first i = 0 := by
        by_contra hne
        exact hk (hkeep i hne)
      rw [h0, zero_mul]
  rw [Finset.sum_congr rfl hsame,
    sum_product_sum A.first B.first (A.degree + B.degree + 1) (fun i => (x : ℚ) ^ i)
      (fun a ha b hb => by have := hbA a ha; have := hbB b hb; omega)]
  exact sum_pairs_factor A.first B.first (x : ℚ)

/-- C15, at `2 + 5x - 7x^2`, `2x - 11` and `x = 3`: the values are `-46`, `-5` and
`230`. -/
theorem polynomial_compute_product_witness :
    normalized { first := [⟨2, 0⟩, ⟨5, 1⟩, ⟨-7, 2⟩], degree := 2 } ∧
    normalized { first := [⟨-11, 0⟩, ⟨2, 1⟩], degree := 1 } ∧
    polynomial_compute { first := [⟨2, 0⟩, ⟨5, 1⟩, ⟨-7, 2⟩], degree := 2 } 3 = .ok (-46) ∧
    polynomial_compute { first := [⟨-11, 0⟩, ⟨2, 1⟩], degree := 1 } 3 = .ok (-5) ∧
    polynomial_compute
      { first := [⟨-22, 0⟩, ⟨-51, 1⟩, ⟨87, 2⟩, ⟨-14, 3⟩], degree := 3 } 3 = .ok 230 ∧
    ∃ P va vb, polynomial_product { first := [⟨2, 0⟩, ⟨5, 1⟩, ⟨-7, 2⟩], degree := 2 }
        { first := [⟨-11, 0⟩, ⟨2, 1⟩], degree := 1 } = .ok P ∧
      polynomial_compute { first := [⟨2, 0⟩, ⟨5, 1⟩, ⟨-7, 2⟩], degree := 2 } 3 = .ok va ∧
      polynomial_compute { first := [⟨-11, 0⟩, ⟨2, 1⟩], degree := 1 } 3 = .ok vb ∧
      polynomial_compute P 3 = .ok (va * vb) :=
  ⟨by decide!, by decide!, by decide!, by decide!, by decide!,
    polynomial_compute_product { first := [⟨2, 0⟩, ⟨5, 1⟩, ⟨-7, 2⟩], degree := 2 }
      { first := [⟨-11, 0⟩, ⟨2, 1⟩], degree := 1 } 3 (by decide) (by decide)
      (by decide!) (by decide!) (by
        intro d hd
        have hzero : ∀ i, 4 ≤ i →
            product_sum [⟨2, 0⟩, ⟨5, 1⟩, ⟨-7, 2⟩] [⟨-11, 0⟩, ⟨2, 1⟩] i = 0 := by
          intro i hi
          apply product_sum_absent
          intro a ha b hb
          simp only [List.mem_cons, List.mem_singleton, List.not_mem_nil, or_false] at ha hb
          rcases ha with rfl | rfl | rfl <;> rcases hb with rfl | rfl <;> simp <;> omega
        by_cases h4 : 4 ≤ d
        · exact absurd (hzero d h4) hd
        · have hd4 : d < 4 := by omega
          clear hd hzero h4
          interval_cases d <;> decide!)⟩

/-! ## Formatted output read back -/

theorem digit_char_spec (d : Nat) (h : d < 10) :
    isdigit (digit_char d) = true ∧ xdigit_value (digit_char d) = d := by
  interval_cases d <;> exact ⟨by decide, by decide⟩

theorem digits_value_snoc (l : List Char) (c : Char) :
    digits_value 10 (l ++ [c]) = 10 * digits_value 10 l + xdigit_value c := by
  unfold digits_value
  rw [List.foldl_append]
  rfl

theorem decimal_digits_acc (fuel n : Nat) (acc : List Char) :
    decimal_digits fuel n acc = decimal_digits fuel n [] ++ acc := by
  induction fuel generalizing n acc with
  | zero => rfl
  | succ fuel ih =>
    rw [decimal_digits, decimal_digits]
    by_cases h : n / 10 = 0
    · rw [if_pos h, if_pos h]; rfl
    · rw [if_neg h, if_neg h, ih (n / 10) (digit_char (n % 10) :: acc),
        ih (n / 10) [digit_char (n % 10)], List.append_assoc]
      rfl

theorem decimal_digits_spec (fuel : Nat) :
    ∀ n, n < fuel →
      digits_value 10 (decimal_digits fuel n []) = n ∧
        (∀ c ∈ decimal_digits fuel n [], isdigit c = true) ∧
        decimal_digits fuel n [] ≠ [] := by
  induction fuel with
  | zero => intro n h; omega
  | succ fuel ih =>
    intro n hn
    have hd := digit_char_spec (n % 10) (Nat.mod_lt _ (by decide))
    rw [decimal_digits]
    by_cases h : n / 10 = 0
    · rw [if_pos h]
      refine ⟨?_, ?_, by simp⟩
      · have : digits_value 10 [digit_char (n % 10)] =
            10 * 0 + xdigit_value (digit_char (n % 10)) := rfl
        rw [this, hd.2]
        omega
      · intro c hc
        rw [List.mem_singleton.mp hc]
        exact hd.1
    · rw [if_neg h, decimal_digits_acc]
      obtain ⟨h1, h2, _⟩ := ih (n / 10) (by omega)
      refine ⟨?_, ?_, by simp⟩
      · rw [digits_value_snoc, h1, hd.2]
        omega
      · intro c hc
        rcases List.mem_append.mp hc with hc | hc
        · exact h2 c hc
        · rw [List.mem_singleton.mp hc]
          exact hd.1

theorem format_ld_spec (n : Nat) :
    digits_value 10 (format_ld n) = n ∧ (∀ c ∈ format_ld n, isdigit c = true) ∧
      format_ld n ≠ [] :=
  decimal_digits_spec (n + 1) n (Nat.lt_succ_self n)

theorem round_half_even_natCast (h : Nat) : round_half_even (h : ℚ) = h := by
  have hfloor : Rat.floor (h : ℚ) = (h : Int) := Int.floor_natCast (α := ℚ) h
  unfold round_half_even
  dsimp only
  rw [hfloor]
  have hr : ((h : ℚ) - (((h : Int) : ℚ))) < 1 / 2 := by
    push_cast
    norm_num
  rw [if_pos hr]
  simp

theorem format_2lf_hundredths (k : Int) :
    format_2lf ((k : ℚ) / 100) =
      (if k < 0 then ['-'] else []) ++
        (format_ld (k.natAbs / 100) ++
          ['.', digit_char (k.natAbs / 10 % 10), digit_char (k.natAbs % 10)]) := by
  have habs : |(k : ℚ) / 100| * 100 = ((k.natAbs : Nat) : ℚ) := by
    rw [abs_div, abs_of_pos (by norm_num : (0 : ℚ) < 100)]
    rw [div_mul_cancel₀ _ (by norm_num : (100 : ℚ) ≠ 0)]
    rw [Nat.cast_natAbs]
    push_cast
    rfl
  have hneg : ((k : ℚ) / 100 < 0) ↔ k < 0 := by
    rw [div_neg_iff]
    constructor
    · rintro (⟨_, h2⟩ | ⟨h1, _⟩)
      · norm_num at h2
      · exact_mod_cast h1
    · intro h
      right
      exact ⟨by exact_mod_cast h, by norm_num⟩
  unfold format_2lf
  dsimp only
  rw [habs, round_half_even_natCast]
  by_cases hk : k < 0
  · rw [if_pos hk, if_pos (hneg.mpr hk)]
  · rw [if_neg hk, if_neg (fun hc => hk (hneg.mp hc))]

theorem hundredths_value (h : Nat) :
    (digits_value 10 (format_ld (h / 100)) : ℚ) +
        fraction_value (some [digit_char (h / 10 % 10), digit_char (h % 10)]) =
      (h : ℚ) / 100 := by
  have h1 := (format_ld_spec (h / 100)).1
  have ha := (digit_char_spec (h / 10 % 10) (Nat.mod_lt _ (by decide))).2
  have hb := (digit_char_spec (h % 10) (Nat.mod_lt _ (by decide))).2
  have hfr : digits_value 10 [digit_char (h / 10 % 10), digit_char (h % 10)] =
      10 * (h / 10 % 10) + h % 10 := by
    have : digits_value 10 [digit_char (h / 10 % 10), digit_char (h % 10)] =
        10 * (10 * 0 + xdigit_value (digit_char (h / 10 % 10))) +
          xdigit_value (digit_char (h % 10)) := rfl
    rw [this, ha, hb]
    omega
  have hsplit : h = 100 * (h / 100) + (10 * (h / 10 % 10) + h % 10) := by omega
  have hfv : fraction_value (some [digit_char (h / 10 % 10), digit_char (h % 10)]) =
      (digits_value 10 [digit_char (h / 10 % 10), digit_char (h % 10)] : ℚ) /
        ((10 ^ [digit_char (h / 10 % 10), digit_char (h % 10)].length : Nat) : ℚ) := rfl
  rw [hfv, h1, hfr]
  have hq : ((h : Nat) : ℚ) =
      100 * ((h / 100 : Nat) : ℚ) + ((10 * (h / 10 % 10) + h % 10 : Nat) : ℚ) := by
    exact_mod_cast hsplit
  rw [hq]
  simp only [List.length_cons, List.length_nil]
  norm_num
  ring

theorem read_full_term (sign : Option Bool) (gap : Nat) (ip fp ed rest : List Char)
    (e : MONOMIALS_ERRNO) (hip : ip ≠ []) (hipd : ∀ c ∈ ip, isdigit c = true)
    (hfpd : ∀ c ∈ fp, isdigit c = true) (hed : ed ≠ []) (hedd : ∀ c ∈ ed, isdigit c = true)
    (hlt : digits_value 10 ed < 2 ^ 32) (hrest : isdigit (peek rest) = false)
    (hr : strtod_range_error ((digits_value 10 ip : ℚ) + fraction_value (some fp)) = false) :
    monomial_create_from_string
        (sign_text sign ++ (List.replicate gap ' ' ++
          ((ip ++ fraction_text (some fp)) ++ ('x' :: '^' :: (ed ++ rest))))) e =
      { monomial := some
          ⟨if sign = some true then
              -((digits_value 10 ip : ℚ) + fraction_value (some fp))
            else (digits_value 10 ip : ℚ) + fraction_value (some fp),
            digits_value 10 ed⟩,
        end_cursor := rest, monomials_errno := e } := by
  have hpkip : isdigit (peek ip) = true := hipd _ (peek_mem ip hip)
  have hCne : ip ++ fraction_text (some fp) ≠ [] := by
    intro h; exact hip (List.append_eq_nil.mp h).1
  have hpkC : peek (ip ++ fraction_text (some fp)) = peek ip := peek_append _ _ hip
  have hb : peek ((ip ++ fraction_text (some fp)) ++ ('x' :: '^' :: (ed ++ rest))) =
      peek ip := by
    rw [peek_append _ _ hCne, hpkC]
  have hdn := isdigit_ne _ hpkip
  have hsign := monomial_create_from_string_sign 0 gap sign
    ((ip ++ fraction_text (some fp)) ++ ('x' :: '^' :: (ed ++ rest))) e
    (by rw [hb]; exact ⟨hdn.2.2.1, hdn.2.2.2.2.1, hdn.2.2.2.2.2.1⟩)
  have hzero : ∀ s : List Char, List.replicate 0 ' ' ++ s = s := fun s => rfl
  rw [hzero] at hsign
  rw [hsign]
  have hvt : variable_text true (some ed) ++ rest = 'x' :: '^' :: (ed ++ rest) := rfl
  have htail : ('x' :: '^' :: (ed ++ rest)) = [] ∨
      peek ('x' :: '^' :: (ed ++ rest)) = ' ' ∨ peek ('x' :: '^' :: (ed ++ rest)) = 'x' :=
    Or.inr (Or.inr rfl)
  have hpd : ∀ c ∈ ip ++ fraction_text (some fp), (c == '.' || isdigit c) = true := by
    intro c hc
    rcases List.mem_append.mp hc with h | h
    · rw [hipd c h]; simp
    · rcases List.mem_cons.mp h with h2 | h2
      · subst h2; rfl
      · rw [hfpd c h2]; simp
  have hs := strtod_coefficient ip (some fp) hip hipd
    (fun f hf => by cases hf; exact hfpd)
  rw [read_coefficient_run _ _ _ _ hCne (hpkC ▸ hpkip) hpd hs hr _ htail e, ← hvt,
    read_variable_run _ _ _ true true (some ed) rest e (Or.inl rfl)
      (fun ed2 h2 => by cases h2; exact ⟨rfl, hed, hedd, hlt⟩)
      (by simpa [may_follow] using hrest)]
  by_cases hsg : sign = some true
  · simp [hsg, variable_degree]
  · have hs2 : ¬ ((if sign = some true then '-' else '+') = '-') :=
      fun h => hsg ((sign_char sign).mp h)
    simp [hsg, hs2, variable_degree]

theorem write_to_file_loop_cons (is_first : Bool) (m : Monomial) (next : List Monomial) :
    write_to_file_loop is_first (m :: next) =
      (if is_first = false ∧ m.coefficient ≥ 0 then ['+', ' '] else []) ++
        (format_2lf m.coefficient ++
          ('x' :: '^' :: (format_ld m.degree ++ (' ' :: write_to_file_loop false next)))) := by
  cases is_first <;> rfl

theorem written_term_read (is_first : Bool) (m : Monomial) (next : List Monomial) (k : Int)
    (hk : m.coefficient = (k : ℚ) / 100) (hd : m.degree < 2 ^ 32)
    (hdouble : |m.coefficient| < DBL_OVERFLOW) :
    monomial_create_from_string (write_to_file_loop is_first (m :: next))
        MONOMIALS_ERRNO.MONOMIAL_SUCCESS =
      { monomial := some m, end_cursor := ' ' :: write_to_file_loop false next,
        monomials_errno := MONOMIALS_ERRNO.MONOMIAL_SUCCESS } := by
  obtain ⟨hv1, hv2, hv3⟩ := format_ld_spec (k.natAbs / 100)
  obtain ⟨he1, he2, he3⟩ := format_ld_spec m.degree
  have hda := (digit_char_spec (k.natAbs / 10 % 10) (Nat.mod_lt _ (by decide))).1
  have hdb := (digit_char_spec (k.natAbs % 10) (Nat.mod_lt _ (by decide))).1
  have hfpd : ∀ c ∈ [digit_char (k.natAbs / 10 % 10), digit_char (k.natAbs % 10)],
      isdigit c = true := by
    intro c hc
    simp only [List.mem_cons, List.mem_singleton, List.not_mem_nil, or_false] at hc
    rcases hc with rfl | rfl
    · exact hda
    · exact hdb
  have hrest : isdigit (peek (' ' :: write_to_file_loop false next)) = false :=
    show isdigit ' ' = false by decide
  have hval := hundredths_value k.natAbs
  have hnat : ((k.natAbs : Nat) : ℚ) / 100 = |m.coefficient| := by
    rw [hk, abs_div, Nat.cast_natAbs]
    push_cast
    norm_num
  have hpos : (0 : ℚ) ≤ (k.natAbs : ℚ) / 100 :=
    div_nonneg (Nat.cast_nonneg _) (by norm_num)
  have hr : strtod_range_error ((k.natAbs : ℚ) / 100) = false := by
    refine strtod_range_error_eq_false _ hpos ?_
    by_cases hk0 : k = 0
    · left; rw [hk0]; simp
    · right
      refine ⟨?_, by rw [hnat]; exact hdouble⟩
      have h1 : (1 : ℚ) ≤ (k.natAbs : ℚ) := by
        have : 1 ≤ k.natAbs := Nat.one_le_iff_ne_zero.mpr (Int.natAbs_ne_zero.mpr hk0)
        exact_mod_cast this
      calc DBL_MIN ≤ 1 / 100 := DBL_MIN_le_hundredth
        _ ≤ (k.natAbs : ℚ) / 100 := by
          apply div_le_div_of_nonneg_right h1 (by norm_num)
  have hread := fun (sign : Option Bool) (gap : Nat) =>
    read_full_term sign gap (format_ld (k.natAbs / 100))
      [digit_char (k.natAbs / 10 % 10), digit_char (k.natAbs % 10)] (format_ld m.degree)
      (' ' :: write_to_file_loop false next) MONOMIALS_ERRNO.MONOMIAL_SUCCESS
      hv3 hv2 hfpd he3 he2 (by rw [he1]; exact hd) hrest (by rw [hval]; exact hr)
  have hnonneg : (m.coefficient ≥ 0) ↔ ¬ (k < 0) := by
    rw [hk, ge_iff_le, div_nonneg_iff]
    constructor
    · rintro (⟨h1, _⟩ | ⟨_, h2⟩)
      · have : (0 : Int) ≤ k := by exact_mod_cast h1
        omega
      · norm_num at h2
    · intro h
      left
      exact ⟨by exact_mod_cast (not_lt.mp h), by norm_num⟩
  have hm : ∀ c : ℚ, c = (k : ℚ) / 100 → (⟨c, m.degree⟩ : Monomial) = m := by
    intro c hc
    cases m
    simp only at hk
    rw [hc, hk]
  have habs : ((k.natAbs : Nat) : ℚ) = |(k : ℚ)| := by
    rw [Nat.cast_natAbs]; push_cast; rfl
  rw [write_to_file_loop_cons, hk, format_2lf_hundredths]
  by_cases hneg : k < 0
  · have hpre : ¬ (is_first = false ∧ (k : ℚ) / 100 ≥ 0) := by
      rw [← hk]
      exact fun h => (hnonneg.mp h.2) hneg
    rw [if_neg hpre, if_pos hneg]
    have h := hread (some true) 0
    have hshape : sign_text (some true) ++ (List.replicate 0 ' ' ++
        ((format_ld (k.natAbs / 100) ++
            fraction_text (some [digit_char (k.natAbs / 10 % 10), digit_char (k.natAbs % 10)])) ++
          ('x' :: '^' :: (format_ld m.degree ++ (' ' :: write_to_file_loop false next))))) =
        [] ++ (['-'] ++ (format_ld (k.natAbs / 100) ++
            ['.', digit_char (k.natAbs / 10 % 10), digit_char (k.natAbs % 10)]) ++
          ('x' :: '^' :: (format_ld m.degree ++ (' ' :: write_to_file_loop false next)))) := by
      simp [sign_text, fraction_text, List.append_assoc]
    rw [hshape, hval, he1, if_pos rfl] at h
    rw [h]
    congr 2
    apply hm
    rw [habs, abs_of_neg (by exact_mod_cast hneg)]
    ring
  · have hkq : (0 : ℚ) ≤ (k : ℚ) := by exact_mod_cast (not_lt.mp hneg)
    rw [if_neg hneg]
    cases is_first with
    | true =>
      have hpre : ¬ (true = false ∧ (k : ℚ) / 100 ≥ 0) := fun h => by cases h.1
      rw [if_neg hpre]
      have h := hread none 0
      have hshape : sign_text none ++ (List.replicate 0 ' ' ++
          ((format_ld (k.natAbs / 100) ++
              fraction_text
                (some [digit_char (k.natAbs / 10 % 10), digit_char (k.natAbs % 10)])) ++
            ('x' :: '^' :: (format_ld m.degree ++ (' ' :: write_to_file_loop false next))))) =
          [] ++ ([] ++ (format_ld (k.natAbs / 100) ++
              ['.', digit_char (k.natAbs / 10 % 10), digit_char (k.natAbs % 10)]) ++
            ('x' :: '^' :: (format_ld m.degree ++ (' ' :: write_to_file_loop false next)))) := by
        simp [sign_text, fraction_text, List.append_assoc]
      rw [hshape, hval, he1, if_neg (by decide)] at h
      rw [h]
      congr 2
      apply hm
      rw [habs, abs_of_nonneg hkq]
    | false =>
      have hpre : false = false ∧ (k : ℚ) / 100 ≥ 0 := by
        rw [← hk]
        exact ⟨rfl, hnonneg.mpr hneg⟩
      rw [if_pos hpre]
      have h := hread (some false) 1
      have hshape : sign_text (some false) ++ (List.replicate 1 ' ' ++
          ((format_ld (k.natAbs / 100) ++
              fraction_text
                (some [digit_char (k.natAbs / 10 % 10), digit_char (k.natAbs % 10)])) ++
            ('x' :: '^' :: (format_ld m.degree ++ (' ' :: write_to_file_loop false next))))) =
          ['+', ' '] ++ ([] ++ (format_ld (k.natAbs / 100) ++
              ['.', digit_char (k.natAbs / 10 % 10), digit_char (k.natAbs % 10)]) ++
            ('x' :: '^' :: (format_ld m.degree ++ (' ' :: write_to_file_loop false next)))) := by
        simp [sign_text, fraction_text, List.append_assoc]
      rw [hshape, hval, he1, if_neg (by decide)] at h
      rw [h]
      congr 2
      apply hm
      rw [habs, abs_of_nonneg hkq]

theorem peek_format_2lf (c : ℚ) (rest : List Char) :
    peek (format_2lf c ++ rest) = '-' ∨ isdigit (peek (format_2lf c ++ rest)) = true := by
  unfold format_2lf
  dsimp only
  by_cases hc : c < 0
  · left
    rw [if_pos hc]
    rfl
  · right
    rw [if_neg hc, List.nil_append, List.append_assoc]
    obtain ⟨_, h2, h3⟩ := format_ld_spec (round_half_even (|c| * 100) / 100)
    rw [peek_append _ _ h3]
    exact h2 _ (peek_mem _ h3)

theorem peek_write_to_file_loop (is_first : Bool) (l : List Monomial) :
    peek (write_to_file_loop is_first l) ≠ ' ' ∧
      (l ≠ [] → peek (write_to_file_loop is_first l) ≠ NUL) := by
  cases l with
  | nil =>
    refine ⟨?_, fun h => absurd rfl h⟩
    cases is_first <;> exact (by decide : NUL ≠ ' ')
  | cons m next =>
    rw [write_to_file_loop_cons]
    by_cases hp : is_first = false ∧ m.coefficient ≥ 0
    · rw [if_pos hp]
      exact ⟨show '+' ≠ ' ' by decide, fun _ => show '+' ≠ NUL by decide⟩
    · rw [if_neg hp, List.nil_append]
      rcases peek_format_2lf m.coefficient
        ('x' :: '^' :: (format_ld m.degree ++ (' ' :: write_to_file_loop false next)))
        with h | h
      · rw [h]
        exact ⟨by decide, fun _ => by decide⟩
      · have := isdigit_ne _ h
        exact ⟨this.2.2.1, fun _ => this.2.2.2.2.2.2.2.2⟩

theorem parses_written_line (l : List Monomial)
    (hk : ∀ m ∈ l, ∃ k : Int, m.coefficient = (k : ℚ) / 100)
    (hd : ∀ m ∈ l, m.degree < 2 ^ 32)
    (hdouble : ∀ m ∈ l, |m.coefficient| < DBL_OVERFLOW) :
    ∀ is_first, ParsesTo (write_to_file_loop is_first l) l := by
  induction l with
  | nil =>
    intro is_first
    cases is_first <;> exact ParsesTo.done [] rfl
  | cons m next ih =>
    intro is_first
    obtain ⟨k, hkm⟩ := hk m (List.mem_cons_self _ _)
    have hread := written_term_read is_first m next k hkm (hd m (List.mem_cons_self _ _))
      (hdouble m (List.mem_cons_self _ _))
    have hskip : skip_spaces (' ' :: write_to_file_loop false next) =
        write_to_file_loop false next := by
      rw [skip_spaces, if_pos rfl]
      exact skip_spaces_id _ (peek_write_to_file_loop false next).1
    refine ParsesTo.term _ m next
      ((peek_write_to_file_loop is_first (m :: next)).2 (by simp)) ?_ ?_
    · rw [hread]
    · rw [hread]
      show ParsesTo (skip_spaces (' ' :: write_to_file_loop false next)) next
      rw [hskip]
      exact ih (fun a ha => hk a (List.mem_cons_of_mem _ ha))
        (fun a ha => hd a (List.mem_cons_of_mem _ ha))
        (fun a ha => hdouble a (List.mem_cons_of_mem _ ha)) false

theorem mem_reduced_iff (l : List Monomial) (hnd : (l.map (fun m => m.degree)).Nodup)
    (hnn : ∀ m ∈ l, 1 / 10000 ≤ |m.coefficient|) (m : Monomial) :
    m ∈ dense_chain (coeff_sum l) (max_degree l + 1) ↔ m ∈ l := by
  rw [mem_dense_chain]
  constructor
  · rintro ⟨_, hc, ha⟩
    have hne : coeff_sum l m.degree ≠ 0 := by
      intro h0; rw [h0] at ha; norm_num at ha
    obtain ⟨m2, hm2, hd2⟩ := coeff_sum_present l m.degree hne
    have hc2 := coeff_sum_of_mem l hnd m2 hm2
    rw [hd2] at hc2
    have : m = m2 := by
      cases m; cases m2
      simp only at hc hd2 hc2
      rw [hc, hc2, hd2]
    rw [this]; exact hm2
  · intro hm
    have hc := coeff_sum_of_mem l hnd m hm
    have := le_max_degree _ m hm
    exact ⟨by omega, hc.symm, by rw [hc]; exact hnn m hm⟩

theorem max_degree_congr (l1 l2 : List Monomial) (h : ∀ m, m ∈ l1 ↔ m ∈ l2) :
    max_degree l1 = max_degree l2 := by
  apply le_antisymm
  · exact max_degree_le l1 _ (fun m hm => le_max_degree l2 m ((h m).mp hm))
  · exact max_degree_le l2 _ (fun m hm => le_max_degree l1 m ((h m).mpr hm))

theorem coefficient_at_congr (l1 l2 : List Monomial)
    (h1 : (l1.map (fun m => m.degree)).Nodup) (h2 : (l2.map (fun m => m.degree)).Nodup)
    (h : ∀ m, m ∈ l1 ↔ m ∈ l2) (d : Nat) : coefficient_at l1 d = coefficient_at l2 d := by
  by_cases hex : ∃ m ∈ l1, m.degree = d
  · obtain ⟨m, hm, hmd⟩ := hex
    rw [← hmd, coefficient_at_of_mem l1 h1 m hm, coefficient_at_of_mem l2 h2 m ((h m).mp hm)]
  · rw [coefficient_at_absent l1 d (fun m hm hd => hex ⟨m, hm, hd⟩),
      coefficient_at_absent l2 d (fun m hm hd => hex ⟨m, (h m).mpr hm, hd⟩)]

/-- C14: round trip.  For every non-empty normalized chain whose coefficients are
multiples of 0.01 (and whose degrees are in the range of the `unsigned int`
through which `monomial_create` takes every degree, and whose coefficients are
in the range of the `double` through which it takes every coefficient: below the
overflow threshold in magnitude), `polynomial_write_to_file` writes one line, each term as the coefficient with two decimals, `x^`, the degree
and a space, with `+ ` before a term that is neither the first nor negative; and
`polynomial_create_from_string` on that line returns a chain with the same
coefficient for every degree: the same terms, in ascending degree, with the same
cached degree. -/
theorem write_read_round_trip (A : Polynomial) (hne : A.first ≠ []) (hA : normalized A)
    (hcents : ∀ m ∈ A.first, ∃ k : Int, m.coefficient = (k : ℚ) / 100)
    (hrange : ∀ m ∈ A.first, m.degree < 2 ^ 32)
    (hdouble : ∀ m ∈ A.first, |m.coefficient| < DBL_OVERFLOW) :
    polynomial_write_to_file [some A] = write_to_file_line A ++ [NEWLINE] ∧
    (∃ R, polynomial_create_from_string (write_to_file_line A) = .ok (some R) ∧
      (∀ d, coefficient_at R.first d = coefficient_at A.first d) ∧
      (∀ m, m ∈ R.first ↔ m ∈ A.first) ∧
      R.first.Pairwise (fun a b => a.degree < b.degree) ∧
      R.degree = A.degree) ∧
    write_to_file_line { first := [⟨2, 0⟩, ⟨5, 1⟩, ⟨-7, 2⟩], degree := 2 } =
      "2.00x^0 + 5.00x^1 -7.00x^2 ".toList := by
  refine ⟨rfl, ?_, by decide!⟩
  obtain ⟨hnd, hnn, hdeg⟩ := hA
  have hparse : ParsesTo (write_to_file_line A) A.first :=
    parses_written_line A.first hcents hrange hdouble true
  obtain ⟨r, hr, hchain, hnone, hdegP⟩ :=
    polynomial_create_from_string_eq (write_to_file_line A) A.first hparse
  have hsv : A.first.filter (fun m => !is_coefficient_null m.coefficient) = A.first := by
    rw [List.filter_eq_self]
    intro m hm
    exact (not_null_iff m.coefficient).mpr (not_lt.mp (hnn m hm))
  rw [hsv] at hchain
  have hmem : ∀ m, m ∈ chain_of r ↔ m ∈ A.first := by
    intro m
    rw [hchain]
    exact mem_reduced_iff A.first hnd (fun a ha => not_lt.mp (hnn a ha)) m
  have hpw : (chain_of r).Pairwise (fun a b => a.degree < b.degree) := by
    rw [hchain]; exact pairwise_dense_chain _ _
  cases r with
  | none =>
    exfalso
    obtain ⟨m0, hm0, _⟩ := max_degree_attained A.first hne
    have := (hmem m0).mpr hm0
    cases this
  | some R =>
    have hR : chain_of (some R) = R.first := rfl
    rw [hR] at hmem hpw
    refine ⟨R, hr, ?_, hmem, hpw, ?_⟩
    · exact coefficient_at_congr R.first A.first
        (nodup_degrees_of_pairwise R.first hpw) hnd hmem
    · rw [hdegP R rfl, hdeg]
      exact max_degree_congr R.first A.first hmem

/-- C14, at the chain `-7x^2 + 2 + 5x`, written as `-7.00x^2 + 2.00x^0 + 5.00x^1 `
and read back as `2 + 5x - 7x^2`. -/
theorem write_read_round_trip_witness :
    normalized { first := [⟨-7, 2⟩, ⟨2, 0⟩, ⟨5, 1⟩], degree := 2 } ∧
    write_to_file_line { first := [⟨-7, 2⟩, ⟨2, 0⟩, ⟨5, 1⟩], degree := 2 } =
      "-7.00x^2 + 2.00x^0 + 5.00x^1 ".toList ∧
    polynomial_create_from_string "-7.00x^2 + 2.00x^0 + 5.00x^1 ".toList =
      .ok (some { first := [⟨2, 0⟩, ⟨5, 1⟩, ⟨-7, 2⟩], degree := 2 }) ∧
    ∃ R, polynomial_create_from_string
        (write_to_file_line { first := [⟨-7, 2⟩, ⟨2, 0⟩, ⟨5, 1⟩], degree := 2 }) =
          .ok (some R) ∧
      R.degree = 2 :=
  ⟨by decide!, by decide!, by decide!,
    let ⟨R, hR, _, _, _, hd⟩ :=
      (write_read_round_trip { first := [⟨-7, 2⟩, ⟨2, 0⟩, ⟨5, 1⟩], degree := 2 }
        (by decide) (by decide!)
        (by
          intro m hm
          simp only [List.mem_cons, List.mem_singleton, List.not_mem_nil, or_false] at hm
          rcases hm with rfl | rfl | rfl
          · exact ⟨-700, by norm_num⟩
          · exact ⟨200, by norm_num⟩
          · exact ⟨500, by norm_num⟩)
        (by decide) (by decide!)).2.1
    ⟨R, hR, hd⟩⟩


/-! ## The sum of two terms -/

/-- C23: for terms `a` and `b` (the degree of `a` in the range of the `unsigned int`
parameter of `monomial_create`, through which every term is built),
`monomial_sum a b` returns the term `(a.coefficient + b.coefficient, a.degree)`;
it sets the error indicator to `MONOMIAL_ILLEGAL_OPERATION` when the degrees
differ and leaves it as it was when they are equal, so an indicator that did not
hold `MONOMIAL_ILLEGAL_OPERATION` before the call holds it afterwards exactly when
the degrees differ. -/
theorem monomial_sum_spec (a b : Monomial) (e : MONOMIALS_ERRNO) (ha : a.degree < 2 ^ 32) :
    (monomial_sum a b e).1 = ⟨a.coefficient + b.coefficient, a.degree⟩ ∧
    (a.degree ≠ b.degree →
      (monomial_sum a b e).2 = MONOMIALS_ERRNO.MONOMIAL_ILLEGAL_OPERATION) ∧
    (a.degree = b.degree → (monomial_sum a b e).2 = e) ∧
    (e ≠ MONOMIALS_ERRNO.MONOMIAL_ILLEGAL_OPERATION →
      ((monomial_sum a b e).2 = MONOMIALS_ERRNO.MONOMIAL_ILLEGAL_OPERATION ↔
        a.degree ≠ b.degree)) := by
  have h1 : (monomial_sum a b e).1 = ⟨a.coefficient + b.coefficient, a.degree⟩ := by
    unfold monomial_sum monomial_create
    dsimp only
    rw [int_to_unsigned_long_to_int _ ha]
  have h2 : (monomial_sum a b e).2 =
      if a.degree ≠ b.degree then MONOMIALS_ERRNO.MONOMIAL_ILLEGAL_OPERATION else e := by
    unfold monomial_sum
    dsimp only
    rw [if_neg (by decide)]
  refine ⟨h1, ?_, ?_, ?_⟩
  · intro hd; rw [h2, if_pos hd]
  · intro hd; rw [h2, if_neg (not_not.mpr hd)]
  · intro he
    rw [h2]
    constructor
    · intro h
      intro hd
      rw [if_neg (not_not.mpr hd)] at h
      exact he h
    · intro hd; rw [if_pos hd]

/-- C23, at `2x^2 + 3x^4`, the illegal sum of the header's example. -/
theorem monomial_sum_spec_witness :
    (2 : Nat) < 2 ^ 32 ∧
    monomial_sum ⟨2, 2⟩ ⟨3, 4⟩ MONOMIALS_ERRNO.MONOMIAL_SUCCESS =
      (⟨5, 2⟩, MONOMIALS_ERRNO.MONOMIAL_ILLEGAL_OPERATION) :=
  have h := monomial_sum_spec ⟨2, 2⟩ ⟨3, 4⟩ MONOMIALS_ERRNO.MONOMIAL_SUCCESS (by decide)
  ⟨by decide, Prod.ext (h.1.trans (by norm_num)) (h.2.1 (by decide))⟩

/-! ## A chain from a coefficient array -/

/-- C24: for an array of `n + 1` coefficients, `polynomial_create coefficients n`
returns the chain `(coefficients[0], 0), ..., (coefficients[n], n)` in that
order, one term for each index whatever its coefficient, with the cached degree
`n`.  The array `{2, -4, 0, 3}` with `n = 3` gives `2 - 4x + 0x^2 + 3x^3`. -/
theorem polynomial_create_spec (coefficients : List ℚ) (n : Nat)
    (hlen : coefficients.length = n + 1) :
    (∃ P, polynomial_create coefficients n = .ok P ∧
      P.first = (List.range (n + 1)).map
        (fun index => (⟨coefficients.getD index 0, index⟩ : Monomial)) ∧
      P.first.map (fun m => m.coefficient) = coefficients ∧
      P.first.map (fun m => m.degree) = List.range (n + 1) ∧
      P.degree = n) ∧
    polynomial_create [2, -4, 0, 3] 3 =
      .ok { first := [⟨2, 0⟩, ⟨-4, 1⟩, ⟨0, 2⟩, ⟨3, 3⟩], degree := 3 } := by
  refine ⟨?_, by decide!⟩
  refine ⟨_, polynomial_create_ok coefficients n (by omega), rfl, ?_, ?_, rfl⟩
  · apply List.ext_getElem
    · simp [hlen]
    · intro i h1 h2
      simp [monomial_create, List.getElem?_eq_getElem h2]
  · simp [monomial_create, Function.comp_def]

/-- C24, at the array `{2, -4, 0, 3}` of the comment in `polynomial_create`. -/
theorem polynomial_create_spec_witness :
    ([2, -4, 0, 3] : List ℚ).length = 3 + 1 ∧
    ∃ P, polynomial_create [2, -4, 0, 3] 3 = .ok P ∧
      P.first.map (fun m => m.coefficient) = [2, -4, 0, 3] ∧ P.degree = 3 :=
  ⟨rfl,
    let ⟨P, hP, _, hc, _, hd⟩ := (polynomial_create_spec [2, -4, 0, 3] 3 rfl).1
    ⟨P, hP, hc, hd⟩⟩

/-! ## Stripping the terms that are near zero -/

/-- C25: `polynomial_remove_null_monomials` leaves exactly the terms with
`|coefficient| >= 0.0001`, in their original order, and sets the cached degree to
the largest degree that remains, 0 when no term remains.  A coefficient of
exactly `0.0001` or `-0.0001` is kept, and any coefficient strictly between them
is removed. -/
theorem polynomial_remove_null_monomials_spec (A : Polynomial) :
    (polynomial_remove_null_monomials A).first =
        A.first.filter (fun m => decide (1 / 10000 ≤ |m.coefficient|)) ∧
      (polynomial_remove_null_monomials A).first.Sublist A.first ∧
      (polynomial_remove_null_monomials A).degree =
        max_degree (polynomial_remove_null_monomials A).first ∧
      ((polynomial_remove_null_monomials A).first = [] →
        (polynomial_remove_null_monomials A).degree = 0) ∧
      is_coefficient_null (1 / 10000) = false ∧
      is_coefficient_null (-(1 / 10000)) = false ∧
      (∀ c : ℚ, -(1 / 10000) < c → c < 1 / 10000 → is_coefficient_null c = true) ∧
      polynomial_remove_null_monomials
          { first := [⟨1 / 10000, 3⟩, ⟨1 / 20000, 7⟩, ⟨-(1 / 10000), 1⟩, ⟨0, 9⟩],
            degree := 9 } =
        { first := [⟨1 / 10000, 3⟩, ⟨-(1 / 10000), 1⟩], degree := 3 } := by
  have hf : (polynomial_remove_null_monomials A).first =
      A.first.filter (fun m => decide (1 / 10000 ≤ |m.coefficient|)) := by
    rw [remove_null_first]
    apply List.filter_congr
    intro m _
    have := not_null_iff m.coefficient
    cases hn : (!is_coefficient_null m.coefficient) <;> simp_all
  refine ⟨hf, ?_, remove_null_degree A, ?_, by decide!, by decide!, ?_, by decide!⟩
  · rw [hf]; exact List.filter_sublist _
  · intro hnil
    rw [remove_null_degree, hnil]
    rfl
  · intro c h1 h2
    rw [is_coefficient_null_iff, abs_lt]
    exact ⟨h1, h2⟩


/-! ## The sum of a chain and its negation -/

theorem coefficient_at_negation (l : List Monomial) (d : Nat) :
    coefficient_at (l.map (fun m => ({ coefficient := -m.coefficient, degree := m.degree } :
      Monomial))) d = -coefficient_at l d := by
  induction l with
  | nil => simp [coefficient_at]
  | cons m l ih =>
    rw [List.map_cons, coefficient_at_cons, coefficient_at_cons, ih]
    split <;> rfl

/-- C28: for a non-empty normalized chain `A` and its negation, `polynomial_sum`
returns a chain with no term and the cached degree 0, where the reader returns
the null value for a line that sums to zero; and with that empty chain as an
operand `polynomial_sum`, `polynomial_compute` and `polynomial_derivative` fail
their assertion that the chain is not empty. -/
theorem polynomial_sum_negation (A : Polynomial) (hne : A.first ≠ []) (hA : normalized A) :
    polynomial_sum A (negation A) = .ok { first := [], degree := 0 } ∧
    (∀ B, polynomial_sum { first := [], degree := 0 } B = .error .assertion) ∧
    (∀ B, B.first ≠ [] → (∀ m ∈ B.first, m.degree ≤ B.degree) →
      polynomial_sum B { first := [], degree := 0 } = .error .assertion) ∧
    (∀ x, polynomial_compute { first := [], degree := 0 } x = .error .assertion) ∧
    polynomial_derivative { first := [], degree := 0 } = .error .assertion ∧
    polynomial_create_from_string "2x - 2x".toList = .ok none := by
  refine ⟨?_, fun B => rfl, ?_, fun x => rfl, rfl, by decide!⟩
  · obtain ⟨hnd, _, hdeg⟩ := hA
    have hneN : (negation A).first ≠ [] := by
      intro h
      exact hne (List.map_eq_nil_iff.mp h)
    have hdegs : (negation A).first.map (fun m => m.degree) =
        A.first.map (fun m => m.degree) := by
      simp [negation, Function.comp_def]
    have hle : ∀ m ∈ A.first, m.degree ≤ A.degree := fun m hm => by
      rw [hdeg]; exact le_max_degree _ m hm
    obtain ⟨R, hR, hfirst, hRd⟩ := polynomial_sum_eq A (negation A) hne hneN hnd
      (by rw [hdegs]; exact hnd) hle
      (fun m hm => by
        obtain ⟨a, ha, rfl⟩ := List.mem_map.mp hm
        exact hle a ha)
    have hnil : R.first = [] := by
      rw [hfirst, dense_chain_eq_nil]
      intro d _
      show |coefficient_at A.first d + coefficient_at (A.first.map _) d| < 1 / 10000
      rw [coefficient_at_negation]
      norm_num
    rw [hR]
    congr 1
    cases R with
    | mk first degree =>
      simp only at hnil hRd
      subst hnil
      rw [hRd]
      rfl
  · intro B hneB hle
    have hmax : (if B.degree > 0 then B.degree else 0) = B.degree := by
      split <;> omega
    obtain ⟨r0, hr0⟩ := polynomial_convert_to_array_ok B (B.degree + 1) hneB
      (fun m hm => by have := hle m hm; omega)
    simp only [polynomial_sum, hmax, hr0]
    rfl

/-- C28, at the chain `2x`, whose sum with `-2x` has no term. -/
theorem polynomial_sum_negation_witness :
    ({ first := [⟨2, 1⟩], degree := 1 } : Polynomial).first ≠ [] ∧
    normalized { first := [⟨2, 1⟩], degree := 1 } ∧
    polynomial_sum { first := [⟨2, 1⟩], degree := 1 } { first := [⟨-2, 1⟩], degree := 1 } =
      .ok { first := [], degree := 0 } :=
  ⟨by decide, by decide!,
    (polynomial_sum_negation { first := [⟨2, 1⟩], degree := 1 } (by decide) (by decide!)).1⟩


/-! ## The term reader: where spaces are allowed, and what may follow a coefficient -/

theorem read_variable_origin (s1 s2 : List Char) (sign : Char) (coefficient : ℚ)
    (coeff_read : Bool) (cursor : List Char) :
    (∀ e, read_variable s1 sign coefficient coeff_read cursor e = input_error s1 ∧
        read_variable s2 sign coefficient coeff_read cursor e = input_error s2) ∨
      ∃ m cur, ∀ e,
        read_variable s1 sign coefficient coeff_read cursor e =
            { monomial := some m, end_cursor := cur, monomials_errno := e } ∧
          read_variable s2 sign coefficient coeff_read cursor e =
            { monomial := some m, end_cursor := cur, monomials_errno := e } := by
  unfold read_variable term_read
  dsimp only
  split_ifs <;>
    first
    | exact Or.inl (fun e => ⟨rfl, rfl⟩)
    | exact Or.inr ⟨_, _, fun e => ⟨rfl, rfl⟩⟩

theorem read_coefficient_origin (s1 s2 : List Char) (sign : Char) (cursor : List Char) :
    (∀ e, read_coefficient s1 sign cursor e = input_error s1 ∧
        read_coefficient s2 sign cursor e = input_error s2) ∨
      ∃ m cur, ∀ e,
        read_coefficient s1 sign cursor e =
            { monomial := some m, end_cursor := cur, monomials_errno := e } ∧
          read_coefficient s2 sign cursor e =
            { monomial := some m, end_cursor := cur, monomials_errno := e } := by
  unfold read_coefficient
  dsimp only
  split_ifs
  · exact Or.inl (fun e => ⟨rfl, rfl⟩)
  · exact read_variable_origin s1 s2 sign _ true _
  · exact read_variable_origin s1 s2 sign _ false _

theorem term_body_peek (ip : List Char) (fp : Option (List Char)) (marker : Bool)
    (ex : Option (List Char)) (rest : List Char)
    (hip : ∀ c ∈ ip, isdigit c = true) (hcm : ip ≠ [] ∨ marker = true) :
    peek ((ip ++ fraction_text fp) ++ (variable_text marker ex ++ rest)) ≠ ' ' ∧
      peek ((ip ++ fraction_text fp) ++ (variable_text marker ex ++ rest)) ≠ '+' ∧
      peek ((ip ++ fraction_text fp) ++ (variable_text marker ex ++ rest)) ≠ '-' := by
  by_cases hemp : ip = []
  · subst hemp
    have hm : marker = true := by
      rcases hcm with h | h
      · exact absurd rfl h
      · exact h
    subst hm
    cases fp with
    | none =>
      exact ⟨show 'x' ≠ ' ' by decide, show 'x' ≠ '+' by decide, show 'x' ≠ '-' by decide⟩
    | some f =>
      exact ⟨show '.' ≠ ' ' by decide, show '.' ≠ '+' by decide, show '.' ≠ '-' by decide⟩
  · have hne : ip ++ fraction_text fp ≠ [] := by
      intro h; exact hemp (List.append_eq_nil.mp h).1
    rw [peek_append _ _ hne, peek_append _ _ hemp]
    have hdn := isdigit_ne _ (hip _ (peek_mem ip hemp))
    exact ⟨hdn.2.2.1, hdn.2.2.2.2.1, hdn.2.2.2.2.2.1⟩

/-- C21, amended: spaces are skipped before the sign and between the sign and the
coefficient (or the variable marker when there is no coefficient), and nowhere
else: for a well-formed term text followed by any text, changing the number of
spaces at these two places changes neither the term that
`monomial_create_from_string` returns, nor the error indicator, nor, when a term
is returned, the end cursor.  So `- 2x` is read like `-2x`. -/
theorem monomial_create_from_string_spaces (t : TermText) (lead gap : Nat) (rest : List Char)
    (e : MONOMIALS_ERRNO) (hwf : t.well_formed = true) :
    ((monomial_create_from_string
          (({ t with lead := lead, gap := gap } : TermText).text ++ rest) e).monomial =
        (monomial_create_from_string (t.text ++ rest) e).monomial ∧
      (monomial_create_from_string
          (({ t with lead := lead, gap := gap } : TermText).text ++ rest) e).monomials_errno =
        (monomial_create_from_string (t.text ++ rest) e).monomials_errno ∧
      ((monomial_create_from_string (t.text ++ rest) e).monomial ≠ none →
        (monomial_create_from_string
            (({ t with lead := lead, gap := gap } : TermText).text ++ rest) e).end_cursor =
          (monomial_create_from_string (t.text ++ rest) e).end_cursor)) ∧
    monomial_create_from_string "-2x".toList MONOMIALS_ERRNO.MONOMIAL_SUCCESS =
      { monomial := some ⟨-2, 1⟩, end_cursor := [],
        monomials_errno := MONOMIALS_ERRNO.MONOMIAL_SUCCESS } ∧
    monomial_create_from_string "- 2x".toList MONOMIALS_ERRNO.MONOMIAL_SUCCESS =
      { monomial := some ⟨-2, 1⟩, end_cursor := [],
        monomials_errno := MONOMIALS_ERRNO.MONOMIAL_SUCCESS } ∧
    monomial_create_from_string "  -   2x".toList MONOMIALS_ERRNO.MONOMIAL_SUCCESS =
      { monomial := some ⟨-2, 1⟩, end_cursor := [],
        monomials_errno := MONOMIALS_ERRNO.MONOMIAL_SUCCESS } := by
  refine ⟨?_, by decide!, by decide!, by decide!⟩
  obtain ⟨lead0, sign, gap0, ip, fp, marker, ex⟩ := t
  simp only [TermText.well_formed, Bool.and_eq_true, List.all_eq_true] at hwf
  obtain ⟨⟨⟨hip, _⟩, hcm⟩, _⟩ := hwf
  have hcm2 : ip ≠ [] ∨ marker = true := by
    cases ip with
    | nil => right; simpa using hcm
    | cons c l => left; exact List.cons_ne_nil _ _
  have hb := term_body_peek ip fp marker ex rest hip hcm2
  have htext : ∀ l g, (TermText.text ⟨l, sign, g, ip, fp, marker, ex⟩) ++ rest =
      List.replicate l ' ' ++ (sign_text sign ++ (List.replicate g ' ' ++
        ((ip ++ fraction_text fp) ++ (variable_text marker ex ++ rest)))) := by
    intro l g
    simp only [TermText.text, List.append_assoc]
  show (monomial_create_from_string
          ((TermText.text ⟨lead, sign, gap, ip, fp, marker, ex⟩) ++ rest) e).monomial =
        (monomial_create_from_string
          ((TermText.text ⟨lead0, sign, gap0, ip, fp, marker, ex⟩) ++ rest) e).monomial ∧
      (monomial_create_from_string
          ((TermText.text ⟨lead, sign, gap, ip, fp, marker, ex⟩) ++ rest) e).monomials_errno =
        (monomial_create_from_string
          ((TermText.text ⟨lead0, sign, gap0, ip, fp, marker, ex⟩) ++ rest) e).monomials_errno ∧
      ((monomial_create_from_string
          ((TermText.text ⟨lead0, sign, gap0, ip, fp, marker, ex⟩) ++ rest) e).monomial ≠ none →
        (monomial_create_from_string
            ((TermText.text ⟨lead, sign, gap, ip, fp, marker, ex⟩) ++ rest) e).end_cursor =
          (monomial_create_from_string
            ((TermText.text ⟨lead0, sign, gap0, ip, fp, marker, ex⟩) ++ rest) e).end_cursor)
  rw [htext lead gap, htext lead0 gap0,
    monomial_create_from_string_sign lead gap sign _ e hb,
    monomial_create_from_string_sign lead0 gap0 sign _ e hb]
  rcases read_coefficient_origin
    (List.replicate lead ' ' ++ (sign_text sign ++ (List.replicate gap ' ' ++
      ((ip ++ fraction_text fp) ++ (variable_text marker ex ++ rest)))))
    (List.replicate lead0 ' ' ++ (sign_text sign ++ (List.replicate gap0 ' ' ++
      ((ip ++ fraction_text fp) ++ (variable_text marker ex ++ rest)))))
    (if sign = some true then '-' else '+')
    ((ip ++ fraction_text fp) ++ (variable_text marker ex ++ rest)) with h | ⟨m, cur, h⟩
  · rw [(h e).1, (h e).2]
    exact ⟨rfl, rfl, fun hc => absurd rfl hc⟩
  · rw [(h e).1, (h e).2]
    exact ⟨rfl, rfl, fun _ => rfl⟩

/-- C21, at `+2x^3` followed by ` - 5`, with two spaces before the sign and three
after it. -/
theorem monomial_create_from_string_spaces_witness :
    plus_two_x_cubed.well_formed = true ∧
    (monomial_create_from_string
        (({ plus_two_x_cubed with lead := 2, gap := 3 } : TermText).text ++ " - 5".toList)
        MONOMIALS_ERRNO.MONOMIAL_SUCCESS).monomial =
      (monomial_create_from_string (plus_two_x_cubed.text ++ " - 5".toList)
        MONOMIALS_ERRNO.MONOMIAL_SUCCESS).monomial :=
  ⟨by decide,
    (monomial_create_from_string_spaces plus_two_x_cubed 2 3 " - 5".toList
      MONOMIALS_ERRNO.MONOMIAL_SUCCESS (by decide)).1.1⟩

/-- C21 as stated fails between the coefficient and the variable marker: `2x` is a
well-formed term text read as `(2, 1)`, and with a space after the coefficient,
`2 x`, the reader returns `(2, 0)` with the end cursor on that space.  A space
before `^` changes the term as well (`x ^2` is read as `(1, 1)`, `x^2` as
`(1, 2)`), and a space after `^` is an input error. -/
theorem monomial_create_from_string_inner_space :
    (TermText.well_formed ⟨0, none, 0, ['2'], none, true, none⟩ = true ∧
      TermText.text ⟨0, none, 0, ['2'], none, true, none⟩ = "2x".toList) ∧
    monomial_create_from_string "2x".toList MONOMIALS_ERRNO.MONOMIAL_SUCCESS =
      { monomial := some ⟨2, 1⟩, end_cursor := [],
        monomials_errno := MONOMIALS_ERRNO.MONOMIAL_SUCCESS } ∧
    monomial_create_from_string "2 x".toList MONOMIALS_ERRNO.MONOMIAL_SUCCESS =
      { monomial := some ⟨2, 0⟩, end_cursor := " x".toList,
        monomials_errno := MONOMIALS_ERRNO.MONOMIAL_SUCCESS } ∧
    (monomial_create_from_string "2 x".toList MONOMIALS_ERRNO.MONOMIAL_SUCCESS).monomial ≠
      (monomial_create_from_string "2x".toList MONOMIALS_ERRNO.MONOMIAL_SUCCESS).monomial ∧
    monomial_create_from_string "x^2".toList MONOMIALS_ERRNO.MONOMIAL_SUCCESS =
      { monomial := some ⟨1, 2⟩, end_cursor := [],
        monomials_errno := MONOMIALS_ERRNO.MONOMIAL_SUCCESS } ∧
    monomial_create_from_string "x ^2".toList MONOMIALS_ERRNO.MONOMIAL_SUCCESS =
      { monomial := some ⟨1, 1⟩, end_cursor := " ^2".toList,
        monomials_errno := MONOMIALS_ERRNO.MONOMIAL_SUCCESS } ∧
    monomial_create_from_string "x^ 2".toList MONOMIALS_ERRNO.MONOMIAL_SUCCESS =
      input_error "x^ 2".toList := by
  refine ⟨⟨by decide, by decide⟩, by decide!, by decide!, by decide!, by decide!, by decide!,
    by decide!⟩

theorem peek_append_space (c u : List Char) (ch : Char) (h1 : ch ≠ ' ') (h2 : ch ≠ NUL) :
    (peek (c ++ ' ' :: u) = ch) = (peek c = ch) := by
  cases c with
  | nil =>
    apply propext
    constructor
    · intro h; exact absurd h.symm h1
    · intro h; exact absurd h.symm h2
  | cons a l => rfl

theorem isdigit_peek_append_space (c u : List Char) :
    isdigit (peek (c ++ ' ' :: u)) = isdigit (peek c) := by
  cases c with
  | nil => show isdigit ' ' = isdigit NUL; decide
  | cons a l => rfl

theorem end_peek_append_space (c u : List Char) :
    (peek (c ++ ' ' :: u) = NUL ∨ peek (c ++ ' ' :: u) = ' ') =
      (peek c = NUL ∨ peek c = ' ') := by
  cases c with
  | nil => exact propext ⟨fun _ => Or.inl rfl, fun _ => Or.inr rfl⟩
  | cons a l => rfl

theorem not_end_peek_append_space (c u : List Char) :
    (peek (c ++ ' ' :: u) ≠ ' ' ∧ peek (c ++ ' ' :: u) ≠ NUL) =
      (peek c ≠ ' ' ∧ peek c ≠ NUL) := by
  cases c with
  | nil =>
    exact propext ⟨fun h => absurd rfl h.1, fun h => absurd rfl h.2⟩
  | cons a l => rfl

theorem ne_nil_of_peek (c : List Char) (ch : Char) (h : peek c = ch) (hch : ch ≠ NUL) :
    c ≠ [] := by
  intro hc
  subst hc
  exact hch h.symm

theorem takeWhile_append_space (p : Char → Bool) (hp : p ' ' = false) (c u : List Char) :
    (c ++ ' ' :: u).takeWhile p = c.takeWhile p := by
  induction c with
  | nil => simp [List.takeWhile, hp]
  | cons a l ih =>
    rw [List.cons_append, List.takeWhile_cons, List.takeWhile_cons, ih]

theorem dropWhile_append_space (p : Char → Bool) (hp : p ' ' = false) (c u : List Char) :
    (c ++ ' ' :: u).dropWhile p = c.dropWhile p ++ ' ' :: u := by
  induction c with
  | nil => simp [List.dropWhile, hp]
  | cons a l ih =>
    rw [List.cons_append, List.dropWhile_cons, List.dropWhile_cons, ih]
    split <;> rfl

theorem skip_spaces_append (c t : List Char) (h : skip_spaces c ≠ []) :
    skip_spaces (c ++ t) = skip_spaces c ++ t := by
  induction c with
  | nil => exact absurd rfl h
  | cons a l ih =>
    rw [List.cons_append]
    unfold skip_spaces
    by_cases ha : a = ' '
    · rw [if_pos ha, if_pos ha]
      apply ih
      intro hl
      apply h
      unfold skip_spaces
      rw [if_pos ha]
      exact hl
    · rw [if_neg ha, if_neg ha]
      rfl

theorem skip_spaces_append_nil (c t : List Char) (h : skip_spaces c = []) :
    skip_spaces (c ++ t) = skip_spaces t := by
  induction c with
  | nil => rfl
  | cons a l ih =>
    rw [List.cons_append]
    unfold skip_spaces at h
    by_cases ha : a = ' '
    · rw [if_pos ha] at h
      rw [skip_spaces, if_pos ha]
      exact ih h
    · rw [if_neg ha] at h
      cases h

theorem strtol_append_space (c u : List Char) :
    strtol (c ++ ' ' :: u) = ((strtol c).1, (strtol c).2.1 ++ ' ' :: u, (strtol c).2.2) := by
  unfold strtol
  dsimp only
  rw [takeWhile_append_space isdigit (by decide), dropWhile_append_space isdigit (by decide)]
  split <;> rfl

theorem read_mantissa_append_space (base : Nat) (digit : Char → Bool) (hp : digit ' ' = false)
    (c u : List Char) :
    read_mantissa base digit (c ++ ' ' :: u) =
      (read_mantissa base digit c).map (fun r => (r.1, r.2 ++ ' ' :: u)) := by
  unfold read_mantissa
  dsimp only
  rw [takeWhile_append_space digit hp, dropWhile_append_space digit hp]
  simp only [peek_append_space _ _ '.' (by decide) (by decide)]
  by_cases hdot : peek (c.dropWhile digit) = '.'
  · have hne := ne_nil_of_peek _ _ hdot (by decide)
    simp only [if_pos hdot]
    rw [List.tail_append_of_ne_nil hne, takeWhile_append_space digit hp,
      dropWhile_append_space digit hp]
    split <;> rfl
  · simp only [if_neg hdot]
    split <;> rfl

theorem read_exponent_append_space (lower upper : Char) (hl : lower ≠ ' ') (hu : upper ≠ ' ')
    (c u : List Char) :
    read_exponent lower upper (c ++ ' ' :: u) =
      (read_exponent lower upper c).map (fun r => (r.1, r.2.1, r.2.2 ++ ' ' :: u)) := by
  cases c with
  | nil =>
    have hc : ¬ (' ' = lower ∨ ' ' = upper) := by
      rintro (h1 | h1)
      · exact hl h1.symm
      · exact hu h1.symm
    rw [List.nil_append, read_exponent, read_exponent, if_neg hc]
    rfl
  | cons a rest =>
    rw [List.cons_append]
    unfold read_exponent
    dsimp only
    by_cases ha : a = lower ∨ a = upper
    · simp only [if_pos ha, peek_append_space _ _ '-' (by decide) (by decide),
        peek_append_space _ _ '+' (by decide) (by decide)]
      by_cases hs : peek rest = '+' ∨ peek rest = '-'
      · have hne : rest ≠ [] := by
          rcases hs with h | h
          · exact ne_nil_of_peek _ _ h (by decide)
          · exact ne_nil_of_peek _ _ h (by decide)
        simp only [if_pos hs]
        rw [List.tail_append_of_ne_nil hne, isdigit_peek_append_space,
          takeWhile_append_space isdigit (by decide),
          dropWhile_append_space isdigit (by decide)]
        split <;> rfl
      · simp only [if_neg hs]
        rw [isdigit_peek_append_space, takeWhile_append_space isdigit (by decide),
          dropWhile_append_space isdigit (by decide)]
        split <;> rfl
    · simp only [if_neg ha]
      rfl

theorem strtod_decimal_append_space (c u : List Char) :
    strtod_decimal (c ++ ' ' :: u) = ((strtod_decimal c).1, (strtod_decimal c).2 ++ ' ' :: u) := by
  unfold strtod_decimal
  rw [read_mantissa_append_space 10 isdigit (by decide)]
  cases hm : read_mantissa 10 isdigit c with
  | none => rfl
  | some r =>
    obtain ⟨v, after⟩ := r
    simp only [Option.map_some']
    rw [read_exponent_append_space 'e' 'E' (by decide) (by decide)]
    cases he : read_exponent 'e' 'E' after with
    | none => rfl
    | some q => rfl

theorem strtod_hexadecimal_append_space (c u : List Char) :
    strtod_hexadecimal (c ++ ' ' :: u) =
      (strtod_hexadecimal c).map (fun r => (r.1, r.2 ++ ' ' :: u)) := by
  unfold strtod_hexadecimal
  rw [read_mantissa_append_space 16 isxdigit (by decide)]
  cases hm : read_mantissa 16 isxdigit c with
  | none => rfl
  | some r =>
    obtain ⟨v, after⟩ := r
    simp only [Option.map_some']
    rw [read_exponent_append_space 'p' 'P' (by decide) (by decide)]
    cases he : read_exponent 'p' 'P' after with
    | none => rfl
    | some q => rfl


theorem strtod_zero (b : Char) (s : List Char) :
    strtod ('0' :: b :: s) =
      if b = 'x' ∨ b = 'X' then
        match strtod_hexadecimal s with
        | some converted => converted
        | none => strtod_decimal ('0' :: b :: s)
      else strtod_decimal ('0' :: b :: s) := by
  rfl

theorem strtod_append_space (c u : List Char) :
    strtod (c ++ ' ' :: u) = ((strtod c).1, (strtod c).2 ++ ' ' :: u) := by
  have hdec := strtod_decimal_append_space c u
  by_cases hhex : ∃ b s, c = '0' :: b :: s ∧ (b = 'x' ∨ b = 'X')
  · obtain ⟨b, s, rfl, hb⟩ := hhex
    rw [List.cons_append, List.cons_append, strtod_zero, strtod_zero, if_pos hb, if_pos hb,
      strtod_hexadecimal_append_space]
    cases hh : strtod_hexadecimal s with
    | none => exact hdec
    | some r => rfl
  · rw [strtod_not_hexadecimal (c ++ ' ' :: u), strtod_not_hexadecimal c]
    · exact hdec
    · intro b s h
      constructor
      · intro hb; exact hhex ⟨b, s, h, Or.inl hb⟩
      · intro hb; exact hhex ⟨b, s, h, Or.inr hb⟩
    · intro b s h
      cases c with
      | nil =>
        rw [List.nil_append] at h
        injection h with h1 _
        exact absurd h1 (by decide)
      | cons a l =>
        cases l with
        | nil =>
          rw [List.cons_append, List.nil_append] at h
          injection h with _ h2
          injection h2 with h3 _
          subst h3
          decide
        | cons b2 s2 =>
          rw [List.cons_append, List.cons_append] at h
          injection h with h1 h2
          injection h2 with h3 h4
          subst h1 h3
          constructor
          · intro hb; exact hhex ⟨_, s2, rfl, Or.inl hb⟩
          · intro hb; exact hhex ⟨_, s2, rfl, Or.inr hb⟩

theorem replace_first_x_append (c t : List Char) (h : 'x' ∈ c) :
    replace_first_x (c ++ t) = replace_first_x c ++ t := by
  induction c with
  | nil => cases h
  | cons a l ih =>
    rw [List.cons_append, replace_first_x, replace_first_x]
    by_cases ha : a = 'x'
    · rw [if_pos ha, if_pos ha]; rfl
    · rw [if_neg ha, if_neg ha]
      rcases List.mem_cons.mp h with h1 | h1
      · exact absurd h1.symm ha
      · rw [ih h1]; rfl

theorem replace_first_x_length (c : List Char) : (replace_first_x c).length = c.length := by
  induction c with
  | nil => rfl
  | cons a l ih =>
    rw [replace_first_x]
    split
    · rfl
    · simp [ih]

theorem mem_of_peek (c : List Char) (ch : Char) (h : peek c = ch) (hch : ch ≠ NUL) : ch ∈ c := by
  cases c with
  | nil => exact absurd h.symm hch
  | cons a l =>
    have : a = ch := h
    subst this
    exact List.mem_cons_self _ _

theorem read_double_from_string_append_space (c u : List Char) (hd : isdigit (peek c) = true) :
    read_double_from_string (c ++ ' ' :: u) =
      ((read_double_from_string c).1, (read_double_from_string c).2 ++ ' ' :: u) := by
  have hdn := isdigit_ne _ hd
  have hskip : skip_spaces c = c := skip_spaces_id c hdn.2.2.1
  have hne : c ≠ [] := ne_nil_of_peek c _ rfl hdn.2.2.2.2.2.2.2.2
  have hskip2 : skip_spaces (c ++ ' ' :: u) = c ++ ' ' :: u := by
    rw [skip_spaces_append c _ (by rw [hskip]; exact hne), hskip]
  have hnd : ¬ ((!isdigit (peek c)) = true) := by rw [hd]; decide
  have hnd2 : ¬ ((!isdigit (peek (c ++ ' ' :: u))) = true) := by
    rw [isdigit_peek_append_space, hd]; decide
  have hp : (fun ch : Char => ch == '.' || isdigit ch) ' ' = false := by decide
  unfold read_double_from_string
  dsimp only
  rw [hskip, hskip2, if_neg hnd, if_neg hnd2, dropWhile_append_space _ hp]
  simp only [peek_append_space _ _ 'x' (by decide) (by decide)]
  by_cases hx : peek (c.dropWhile (fun ch => ch == '.' || isdigit ch)) = 'x'
  · have hmem : 'x' ∈ c :=
      (List.dropWhile_sublist _).subset (mem_of_peek _ _ hx (by decide))
    have hlen := strtod_length (replace_first_x c)
    rw [replace_first_x_length] at hlen
    simp only [if_pos hx]
    rw [replace_first_x_append c _ hmem, strtod_append_space]
    dsimp only
    have hn : (replace_first_x c ++ ' ' :: u).length -
        ((strtod (replace_first_x c)).2 ++ ' ' :: u).length =
        (replace_first_x c).length - (strtod (replace_first_x c)).2.length := by
      simp only [List.length_append]
      omega
    rw [hn, List.drop_append_of_le_length (by rw [replace_first_x_length]; omega)]
  · simp only [if_neg hx]
    rw [strtod_append_space]
    dsimp only
    have hl : (((strtod c).2 ++ ' ' :: u).length = (c ++ ' ' :: u).length) =
        ((strtod c).2.length = c.length) := by
      apply propext
      simp only [List.length_append]
      omega
    simp only [hl]
    split <;> rfl


theorem read_variable_append_space (s1 s2 : List Char) (sign : Char) (coefficient : ℚ)
    (coeff_read : Bool) (c u : List Char) :
    (∀ e, read_variable s1 sign coefficient coeff_read c e = input_error s1 ∧
        read_variable s2 sign coefficient coeff_read (c ++ ' ' :: u) e = input_error s2) ∨
      ∃ m cur, ∀ e,
        read_variable s1 sign coefficient coeff_read c e =
            { monomial := some m, end_cursor := cur, monomials_errno := e } ∧
          read_variable s2 sign coefficient coeff_read (c ++ ' ' :: u) e =
            { monomial := some m, end_cursor := cur ++ ' ' :: u, monomials_errno := e } := by
  by_cases hx : peek c = 'x'
  · have hne : c ≠ [] := ne_nil_of_peek c _ hx (by decide)
    have hx2 : peek (c ++ ' ' :: u) = 'x' := by
      rw [peek_append_space _ _ 'x' (by decide) (by decide)]; exact hx
    have htail : (c ++ ' ' :: u).tail = c.tail ++ ' ' :: u := List.tail_append_of_ne_nil hne
    by_cases hc : peek c.tail = '^'
    · have hne2 : c.tail ≠ [] := ne_nil_of_peek _ _ hc (by decide)
      have hc2 : peek (c.tail ++ ' ' :: u) = '^' := by
        rw [peek_append_space _ _ '^' (by decide) (by decide)]; exact hc
      have htail2 : (c.tail ++ ' ' :: u).tail = c.tail.tail ++ ' ' :: u :=
        List.tail_append_of_ne_nil hne2
      by_cases hd : (!isdigit (peek c.tail.tail)) = true
      · left; intro e
        constructor
        · unfold read_variable
          rw [if_pos hx]; dsimp only
          rw [if_pos hc, if_pos hd]
        · unfold read_variable
          rw [if_pos hx2]; dsimp only
          rw [htail, if_pos hc2, htail2, isdigit_peek_append_space, if_pos hd]
      · by_cases h1 : (strtol c.tail.tail).2.1.length = c.tail.tail.length ∨
            (strtol c.tail.tail).2.2 = true
        · have h1b : ((strtol c.tail.tail).2.1 ++ ' ' :: u).length =
              (c.tail.tail ++ ' ' :: u).length ∨ (strtol c.tail.tail).2.2 = true := by
            rcases h1 with h | h
            · left; simp only [List.length_append]; omega
            · right; exact h
          left; intro e
          constructor
          · unfold read_variable
            rw [if_pos hx]; dsimp only
            rw [if_pos hc, if_neg hd, if_pos h1]
          · unfold read_variable
            rw [if_pos hx2]; dsimp only
            rw [htail, if_pos hc2, htail2, isdigit_peek_append_space, if_neg hd,
              strtol_append_space]
            dsimp only
            rw [if_pos h1b]
        · have h1b : ¬ (((strtol c.tail.tail).2.1 ++ ' ' :: u).length =
              (c.tail.tail ++ ' ' :: u).length ∨ (strtol c.tail.tail).2.2 = true) := by
            rintro (h | h)
            · apply h1; left
              simp only [List.length_append] at h
              omega
            · exact h1 (Or.inr h)
          by_cases h2 : (strtol c.tail.tail).1 < 0
          · left; intro e
            constructor
            · unfold read_variable
              rw [if_pos hx]; dsimp only
              rw [if_pos hc, if_neg hd, if_neg h1, if_pos h2]
            · unfold read_variable
              rw [if_pos hx2]; dsimp only
              rw [htail, if_pos hc2, htail2, isdigit_peek_append_space, if_neg hd,
                strtol_append_space]
              dsimp only
              rw [if_neg h1b, if_pos h2]
          · right
            refine ⟨monomial_create
                (if sign = '-' then -(if (!coeff_read) = true then 1 else coefficient)
                  else (if (!coeff_read) = true then 1 else coefficient))
                (int_to_unsigned (long_to_int (strtol c.tail.tail).1)),
              (strtol c.tail.tail).2.1, fun e => ⟨?_, ?_⟩⟩
            · unfold read_variable
              rw [if_pos hx]; dsimp only
              rw [if_pos hc, if_neg hd, if_neg h1, if_neg h2]
              rfl
            · unfold read_variable
              rw [if_pos hx2]; dsimp only
              rw [htail, if_pos hc2, htail2, isdigit_peek_append_space, if_neg hd,
                strtol_append_space]
              dsimp only
              rw [if_neg h1b, if_neg h2]
              rfl
    · have hc2 : ¬ (peek (c.tail ++ ' ' :: u) = '^') := by
        rw [peek_append_space _ _ '^' (by decide) (by decide)]; exact hc
      by_cases h1 : peek c.tail ≠ ' ' ∧ peek c.tail ≠ NUL
      · have h1b : peek (c.tail ++ ' ' :: u) ≠ ' ' ∧ peek (c.tail ++ ' ' :: u) ≠ NUL := by
          rw [not_end_peek_append_space]; exact h1
        left; intro e
        constructor
        · unfold read_variable
          rw [if_pos hx]; dsimp only
          rw [if_neg hc, if_pos h1]
        · unfold read_variable
          rw [if_pos hx2]; dsimp only
          rw [htail, if_neg hc2, if_pos h1b]
      · have h1b : ¬ (peek (c.tail ++ ' ' :: u) ≠ ' ' ∧ peek (c.tail ++ ' ' :: u) ≠ NUL) := by
          rw [not_end_peek_append_space]; exact h1
        right
        refine ⟨monomial_create
            (if sign = '-' then -(if (!coeff_read) = true then 1 else coefficient)
              else (if (!coeff_read) = true then 1 else coefficient))
            (int_to_unsigned 1), c.tail, fun e => ⟨?_, ?_⟩⟩
        · unfold read_variable
          rw [if_pos hx]; dsimp only
          rw [if_neg hc, if_neg h1]
          rfl
        · unfold read_variable
          rw [if_pos hx2]; dsimp only
          rw [htail, if_neg hc2, if_neg h1b]
          rfl
  · have hx2 : ¬ (peek (c ++ ' ' :: u) = 'x') := by
      rw [peek_append_space _ _ 'x' (by decide) (by decide)]; exact hx
    cases coeff_read with
    | false =>
      left; intro e
      constructor
      · unfold read_variable
        rw [if_neg hx]
        rfl
      · unfold read_variable
        rw [if_neg hx2]
        rfl
    | true =>
      by_cases h1 : peek c = NUL ∨ peek c = ' '
      · have h1b : peek (c ++ ' ' :: u) = NUL ∨ peek (c ++ ' ' :: u) = ' ' := by
          rw [end_peek_append_space]; exact h1
        right
        refine ⟨monomial_create (if sign = '-' then -coefficient else coefficient)
          (int_to_unsigned 0), c, fun e => ⟨?_, ?_⟩⟩
        · unfold read_variable
          rw [if_neg hx, if_pos h1]
          rfl
        · unfold read_variable
          rw [if_neg hx2, if_pos h1b]
          rfl
      · have h1b : ¬ (peek (c ++ ' ' :: u) = NUL ∨ peek (c ++ ' ' :: u) = ' ') := by
          rw [end_peek_append_space]; exact h1
        left; intro e
        constructor
        · unfold read_variable
          rw [if_neg hx, if_neg h1]
          rfl
        · unfold read_variable
          rw [if_neg hx2, if_neg h1b]
          rfl

theorem read_double_erange_append_space (c u : List Char) (hd : isdigit (peek c) = true) :
    read_double_erange (c ++ ' ' :: u) = read_double_erange c := by
  have hdn := isdigit_ne _ hd
  have hskip : skip_spaces c = c := skip_spaces_id c hdn.2.2.1
  have hne : c ≠ [] := ne_nil_of_peek c _ rfl hdn.2.2.2.2.2.2.2.2
  have hskip2 : skip_spaces (c ++ ' ' :: u) = c ++ ' ' :: u := by
    rw [skip_spaces_append c _ (by rw [hskip]; exact hne), hskip]
  have hnd : ¬ ((!isdigit (peek c)) = true) := by rw [hd]; decide
  have hnd2 : ¬ ((!isdigit (peek (c ++ ' ' :: u))) = true) := by
    rw [isdigit_peek_append_space, hd]; decide
  have hp : (fun ch : Char => ch == '.' || isdigit ch) ' ' = false := by decide
  unfold read_double_erange
  dsimp only
  rw [hskip, hskip2, if_neg hnd, if_neg hnd2, dropWhile_append_space _ hp]
  simp only [peek_append_space _ _ 'x' (by decide) (by decide)]
  by_cases hx : peek (c.dropWhile (fun ch => ch == '.' || isdigit ch)) = 'x'
  · have hmem : 'x' ∈ c :=
      (List.dropWhile_sublist _).subset (mem_of_peek _ _ hx (by decide))
    simp only [if_pos hx]
    unfold strtod_erange
    rw [replace_first_x_append c _ hmem, strtod_append_space]
  · simp only [if_neg hx]
    unfold strtod_erange
    rw [strtod_append_space]

theorem read_coefficient_append_space (s1 s2 : List Char) (sign : Char) (c u : List Char) :
    (∀ e, read_coefficient s1 sign c e = input_error s1 ∧
        read_coefficient s2 sign (c ++ ' ' :: u) e = input_error s2) ∨
      ∃ m cur, ∀ e,
        read_coefficient s1 sign c e =
            { monomial := some m, end_cursor := cur, monomials_errno := e } ∧
          read_coefficient s2 sign (c ++ ' ' :: u) e =
            { monomial := some m, end_cursor := cur ++ ' ' :: u, monomials_errno := e } := by
  by_cases hd : isdigit (peek c) = true
  · have hd2 : isdigit (peek (c ++ ' ' :: u)) = true := by
      rw [isdigit_peek_append_space]; exact hd
    have hrd := read_double_from_string_append_space c u hd
    have hre := read_double_erange_append_space c u hd
    by_cases hl : (read_double_from_string c).2.length = c.length ∨
        read_double_erange c = true
    · have hl2 : ((read_double_from_string c).2 ++ ' ' :: u).length =
          (c ++ ' ' :: u).length ∨ read_double_erange c = true := by
        rcases hl with h | h
        · left; simp only [List.length_append]; omega
        · exact Or.inr h
      left; intro e
      constructor
      · unfold read_coefficient
        rw [if_pos hd]; dsimp only
        rw [if_pos hl]
      · unfold read_coefficient
        rw [if_pos hd2]; dsimp only
        rw [hrd, hre]; dsimp only
        rw [if_pos hl2]
    · have hl2 : ¬ (((read_double_from_string c).2 ++ ' ' :: u).length =
          (c ++ ' ' :: u).length ∨ read_double_erange c = true) := by
        rintro (h | h)
        · apply hl; left
          simp only [List.length_append] at h
          omega
        · exact hl (Or.inr h)
      have e1 : ∀ e, read_coefficient s1 sign c e =
          read_variable s1 sign (read_double_from_string c).1 true
            (read_double_from_string c).2 e := by
        intro e
        unfold read_coefficient
        rw [if_pos hd]; dsimp only
        rw [if_neg hl]
      have e2 : ∀ e, read_coefficient s2 sign (c ++ ' ' :: u) e =
          read_variable s2 sign (read_double_from_string c).1 true
            ((read_double_from_string c).2 ++ ' ' :: u) e := by
        intro e
        unfold read_coefficient
        rw [if_pos hd2]; dsimp only
        rw [hrd, hre]; dsimp only
        rw [if_neg hl2]
      rcases read_variable_append_space s1 s2 sign (read_double_from_string c).1 true
        (read_double_from_string c).2 u with h | ⟨m, cur, h⟩
      · left; intro e
        rw [e1, e2]; exact h e
      · right
        refine ⟨m, cur, fun e => ?_⟩
        rw [e1, e2]; exact h e
  · have hd2 : ¬ (isdigit (peek (c ++ ' ' :: u)) = true) := by
      rw [isdigit_peek_append_space]; exact hd
    have e1 : ∀ e, read_coefficient s1 sign c e = read_variable s1 sign 0 false c e := by
      intro e
      unfold read_coefficient
      rw [if_neg hd]
    have e2 : ∀ e, read_coefficient s2 sign (c ++ ' ' :: u) e =
        read_variable s2 sign 0 false (c ++ ' ' :: u) e := by
      intro e
      unfold read_coefficient
      rw [if_neg hd2]
    rcases read_variable_append_space s1 s2 sign 0 false c u with h | ⟨m, cur, h⟩
    · left; intro e
      rw [e1, e2]; exact h e
    · right
      refine ⟨m, cur, fun e => ?_⟩
      rw [e1, e2]; exact h e

theorem read_coefficient_nil (string : List Char) (sign : Char) (e : MONOMIALS_ERRNO) :
    read_coefficient string sign [] e = input_error string := by
  rfl

theorem monomial_create_from_string_append_space (s u : List Char) (m : Monomial)
    (e : MONOMIALS_ERRNO) (h : (monomial_create_from_string s e).monomial = some m) :
    monomial_create_from_string (s ++ ' ' :: u) e =
      { monomial := some m,
        end_cursor := (monomial_create_from_string s e).end_cursor ++ ' ' :: u,
        monomials_errno := e } := by
  have hs1 : skip_spaces s ≠ [] := by
    intro hnil
    unfold monomial_create_from_string at h
    dsimp only at h
    rw [hnil] at h
    cases h
  have hsign : (peek (skip_spaces s ++ ' ' :: u) = '+' ∨ peek (skip_spaces s ++ ' ' :: u) = '-') =
      (peek (skip_spaces s) = '+' ∨ peek (skip_spaces s) = '-') := by
    rw [peek_append_space _ _ '+' (by decide) (by decide),
      peek_append_space _ _ '-' (by decide) (by decide)]
  have hpk : peek (skip_spaces s ++ ' ' :: u) = peek (skip_spaces s) :=
    peek_append _ _ hs1
  have hcur : (if peek (skip_spaces s) = '+' ∨ peek (skip_spaces s) = '-' then
        (skip_spaces s ++ ' ' :: u).tail else skip_spaces s ++ ' ' :: u) =
      (if peek (skip_spaces s) = '+' ∨ peek (skip_spaces s) = '-' then (skip_spaces s).tail
        else skip_spaces s) ++ ' ' :: u := by
    split
    · exact List.tail_append_of_ne_nil hs1
    · rfl
  have hs2 : skip_spaces (if peek (skip_spaces s) = '+' ∨ peek (skip_spaces s) = '-' then
      (skip_spaces s).tail else skip_spaces s) ≠ [] := by
    intro hnil
    unfold monomial_create_from_string at h
    dsimp only at h
    rw [hnil] at h
    cases h
  have e1 : monomial_create_from_string s e =
      read_coefficient s
        (if peek (skip_spaces s) = '+' ∨ peek (skip_spaces s) = '-' then peek (skip_spaces s)
          else '+')
        (skip_spaces (if peek (skip_spaces s) = '+' ∨ peek (skip_spaces s) = '-' then
          (skip_spaces s).tail else skip_spaces s)) e := rfl
  have e2 : monomial_create_from_string (s ++ ' ' :: u) e =
      read_coefficient (s ++ ' ' :: u)
        (if peek (skip_spaces s) = '+' ∨ peek (skip_spaces s) = '-' then peek (skip_spaces s)
          else '+')
        (skip_spaces (if peek (skip_spaces s) = '+' ∨ peek (skip_spaces s) = '-' then
          (skip_spaces s).tail else skip_spaces s) ++ ' ' :: u) e := by
    unfold monomial_create_from_string
    dsimp only
    rw [skip_spaces_append s _ hs1]
    simp only [hsign, hpk]
    rw [hcur, skip_spaces_append _ _ hs2]
  rw [e1] at h
  rw [e1, e2]
  rcases read_coefficient_append_space s (s ++ ' ' :: u)
    (if peek (skip_spaces s) = '+' ∨ peek (skip_spaces s) = '-' then peek (skip_spaces s)
      else '+')
    (skip_spaces (if peek (skip_spaces s) = '+' ∨ peek (skip_spaces s) = '-' then
      (skip_spaces s).tail else skip_spaces s)) u with hf | ⟨m2, cur, hok⟩
  · rw [(hf e).1] at h
    cases h
  · rw [(hok e).1] at h
    rw [(hok e).1, (hok e).2]
    injection h with h
    rw [h]


/-! ## The polynomial reader: text appended to a line -/

theorem skip_spaces_space (u : List Char) : skip_spaces (' ' :: u) = skip_spaces u := by
  rw [skip_spaces, if_pos rfl]

theorem parses_append_inner (u1 u2 : List Char) (extra : List Monomial)
    (h1 : ParsesTo (skip_spaces u1) extra) (h2 : ParsesTo (skip_spaces u2) extra)
    (cursor : List Char) (terms : List Monomial) (h : ParsesTo cursor terms) :
    ∀ c, skip_spaces c = cursor →
      ∃ terms2, ParsesTo (skip_spaces (c ++ ' ' :: u1)) terms2 ∧
        ParsesTo (skip_spaces (c ++ ' ' :: u2)) terms2 ∧
        (terms2 = terms ∨ terms2 = terms ++ extra) := by
  induction h with
  | done cursor hnul =>
    intro c hc
    by_cases hnil : cursor = []
    · rw [hnil] at hc
      refine ⟨extra, ?_, ?_, Or.inr rfl⟩
      · rw [skip_spaces_append_nil c _ hc, skip_spaces_space]; exact h1
      · rw [skip_spaces_append_nil c _ hc, skip_spaces_space]; exact h2
    · have hne : skip_spaces c ≠ [] := by rw [hc]; exact hnil
      refine ⟨[], ?_, ?_, Or.inl rfl⟩
      · rw [skip_spaces_append c _ hne, hc]
        exact ParsesTo.done _ (by rw [peek_append _ _ hnil]; exact hnul)
      · rw [skip_spaces_append c _ hne, hc]
        exact ParsesTo.done _ (by rw [peek_append _ _ hnil]; exact hnul)
  | term cursor m terms hnul hm hrest ih =>
    intro c hc
    have hnil : cursor ≠ [] := by
      intro h0; rw [h0] at hnul; exact hnul rfl
    have hne : skip_spaces c ≠ [] := by rw [hc]; exact hnil
    have hr1 := monomial_create_from_string_append_space cursor u1 m
      MONOMIALS_ERRNO.MONOMIAL_SUCCESS hm
    have hr2 := monomial_create_from_string_append_space cursor u2 m
      MONOMIALS_ERRNO.MONOMIAL_SUCCESS hm
    obtain ⟨terms2, p1, p2, hor⟩ := ih
      (monomial_create_from_string cursor MONOMIALS_ERRNO.MONOMIAL_SUCCESS).end_cursor rfl
    refine ⟨m :: terms2, ?_, ?_, ?_⟩
    · rw [skip_spaces_append c _ hne, hc]
      exact ParsesTo.term _ m terms2 (by rw [peek_append _ _ hnil]; exact hnul)
        (by rw [hr1]) (by rw [hr1]; exact p1)
    · rw [skip_spaces_append c _ hne, hc]
      exact ParsesTo.term _ m terms2 (by rw [peek_append _ _ hnil]; exact hnul)
        (by rw [hr2]) (by rw [hr2]; exact p2)
    · rcases hor with h | h
      · left; rw [h]
      · right; rw [h]; rfl

theorem parses_append_first (u1 u2 : List Char) (extra : List Monomial)
    (h1 : ParsesTo (skip_spaces u1) extra) (h2 : ParsesTo (skip_spaces u2) extra)
    (line : List Char) (terms : List Monomial) (h : ParsesTo line terms)
    (hline : peek line ≠ NUL) :
    ∃ terms2, ParsesTo (line ++ ' ' :: u1) terms2 ∧ ParsesTo (line ++ ' ' :: u2) terms2 ∧
      (terms2 = terms ∨ terms2 = terms ++ extra) := by
  have hnil : line ≠ [] := by
    intro h0; rw [h0] at hline; exact hline rfl
  cases h with
  | done _ hnul => exact absurd hnul hline
  | term _ m terms hnul hm hrest =>
    have hr1 := monomial_create_from_string_append_space line u1 m
      MONOMIALS_ERRNO.MONOMIAL_SUCCESS hm
    have hr2 := monomial_create_from_string_append_space line u2 m
      MONOMIALS_ERRNO.MONOMIAL_SUCCESS hm
    obtain ⟨terms2, p1, p2, hor⟩ := parses_append_inner u1 u2 extra h1 h2 _ _ hrest
      (monomial_create_from_string line MONOMIALS_ERRNO.MONOMIAL_SUCCESS).end_cursor rfl
    refine ⟨m :: terms2, ?_, ?_, ?_⟩
    · exact ParsesTo.term _ m terms2 (by rw [peek_append _ _ hnil]; exact hnul)
        (by rw [hr1]) (by rw [hr1]; exact p1)
    · exact ParsesTo.term _ m terms2 (by rw [peek_append _ _ hnil]; exact hnul)
        (by rw [hr2]) (by rw [hr2]; exact p2)
    · rcases hor with h | h
      · left; rw [h]
      · right; rw [h]; rfl

theorem polynomial_create_from_string_congr (s1 s2 : List Char) (t1 t2 : List Monomial)
    (h1 : ParsesTo s1 t1) (h2 : ParsesTo s2 t2)
    (hf : t1.filter (fun m => !is_coefficient_null m.coefficient) =
      t2.filter (fun m => !is_coefficient_null m.coefficient)) :
    polynomial_create_from_string s1 = polynomial_create_from_string s2 := by
  obtain ⟨r1, hr1, hc1, hn1, hd1⟩ := polynomial_create_from_string_eq s1 t1 h1
  obtain ⟨r2, hr2, hc2, hn2, hd2⟩ := polynomial_create_from_string_eq s2 t2 h2
  rw [hf] at hc1
  have hch : chain_of r1 = chain_of r2 := hc1.trans hc2.symm
  rw [hr1, hr2]
  congr 1
  cases r1 with
  | none =>
    have : r2 = none := hn2.mpr (by rw [← hch]; rfl)
    rw [this]
  | some P1 =>
    cases r2 with
    | none =>
      have : some P1 = none := hn1.mpr (by rw [hch]; rfl)
      cases this
    | some P2 =>
      have hfirst : P1.first = P2.first := hch
      have e1 := hd1 P1 rfl
      have e2 := hd2 P2 rfl
      cases P1 with
      | mk f1 d1 =>
        cases P2 with
        | mk f2 d2 =>
          simp only at hfirst e1 e2
          subst hfirst
          rw [e1, e2]

theorem polynomial_create_from_string_fails (string : List Char) (h : ParseFails string) :
    polynomial_create_from_string string = .error .fatalExit := by
  unfold polynomial_create_from_string
  rw [create_from_string_loop_fails string h (string.length + 1) [] 0 (Nat.lt_succ_self _)]

theorem monomial_create_from_string_nul (s : List Char) (h : peek s = NUL)
    (e : MONOMIALS_ERRNO) : monomial_create_from_string s e = input_error s := by
  cases s with
  | nil => rfl
  | cons a l =>
    have ha : a = NUL := h
    subst ha
    rfl

theorem monomial_create_from_string_blank (s : List Char) (h : skip_spaces s = [])
    (e : MONOMIALS_ERRNO) : monomial_create_from_string s e = input_error s := by
  unfold monomial_create_from_string
  dsimp only
  rw [h]
  rfl

theorem parses_with_plus (t : List Char) (terms : List Monomial) (lead gap : Nat)
    (sign : Option Bool) (hsign : sign ≠ some true)
    (hd : isdigit (peek t) = true ∨ peek t = 'x') (h : ParsesTo t terms) :
    ParsesTo (List.replicate lead ' ' ++ (sign_text sign ++ (List.replicate gap ' ' ++ t)))
      terms := by
  have hb : peek t ≠ ' ' ∧ peek t ≠ '+' ∧ peek t ≠ '-' ∧ peek t ≠ NUL := by
    rcases hd with hd | hd
    · have hdn := isdigit_ne _ hd
      exact ⟨hdn.2.2.1, hdn.2.2.2.2.1, hdn.2.2.2.2.2.1, hdn.2.2.2.2.2.2.2.2⟩
    · rw [hd]; exact ⟨by decide, by decide, by decide, by decide⟩
  cases h with
  | done _ hnul => exact absurd hnul hb.2.2.2
  | term _ m terms hnul hm hrest =>
    have e1 : monomial_create_from_string t MONOMIALS_ERRNO.MONOMIAL_SUCCESS =
        read_coefficient t '+' t MONOMIALS_ERRNO.MONOMIAL_SUCCESS :=
      monomial_create_from_string_sign 0 0 none t MONOMIALS_ERRNO.MONOMIAL_SUCCESS
        ⟨hb.1, hb.2.1, hb.2.2.1⟩
    have e2 := monomial_create_from_string_sign lead gap sign t
      MONOMIALS_ERRNO.MONOMIAL_SUCCESS ⟨hb.1, hb.2.1, hb.2.2.1⟩
    rw [if_neg hsign] at e2
    rw [e1] at hm hrest
    rcases read_coefficient_origin t
      (List.replicate lead ' ' ++ (sign_text sign ++ (List.replicate gap ' ' ++ t))) '+' t
      with hf | ⟨m2, cur, hok⟩
    · rw [(hf _).1] at hm; cases hm
    · rw [(hok _).1] at hm hrest
      have hnul2 : peek (List.replicate lead ' ' ++
          (sign_text sign ++ (List.replicate gap ' ' ++ t))) ≠ NUL := by
        intro hc
        have := monomial_create_from_string_nul _ hc MONOMIALS_ERRNO.MONOMIAL_SUCCESS
        rw [e2, (hok _).2] at this
        cases this
      exact ParsesTo.term _ m terms hnul2 (by rw [e2, (hok _).2]; exact hm)
        (by rw [e2, (hok _).2]; exact hrest)


theorem parses_zero_term (ed : List Char) (hne : ed ≠ []) (hed : ∀ c ∈ ed, isdigit c = true)
    (hmax : (digits_value 10 ed : Int) ≤ LONG_MAX) :
    ParsesTo ('0' :: 'x' :: '^' :: ed)
      [⟨0, int_to_unsigned (long_to_int (digits_value 10 ed : Int))⟩] := by
  have hb : peek ('0' :: 'x' :: '^' :: ed) ≠ ' ' ∧ peek ('0' :: 'x' :: '^' :: ed) ≠ '+' ∧
      peek ('0' :: 'x' :: '^' :: ed) ≠ '-' :=
    ⟨show '0' ≠ ' ' by decide, show '0' ≠ '+' by decide, show '0' ≠ '-' by decide⟩
  have e1 : monomial_create_from_string ('0' :: 'x' :: '^' :: ed)
      MONOMIALS_ERRNO.MONOMIAL_SUCCESS =
      read_coefficient ('0' :: 'x' :: '^' :: ed) '+' ('0' :: 'x' :: '^' :: ed)
        MONOMIALS_ERRNO.MONOMIAL_SUCCESS :=
    monomial_create_from_string_sign 0 0 none _ MONOMIALS_ERRNO.MONOMIAL_SUCCESS hb
  have hs : ∀ u : List Char, (u = [] ∨ peek u = ' ') → strtod (['0'] ++ u) = ((0 : ℚ), u) := by
    intro u hu
    have h := (strtod_run ['0'] [] u (by simp) (by decide) (by simp) hu).1
    rw [h]
    have hv : digits_value 10 ['0'] = 0 := by decide
    rw [hv]
    simp
  have e2 : read_coefficient ('0' :: 'x' :: '^' :: ed) '+' (['0'] ++ 'x' :: '^' :: ed)
      MONOMIALS_ERRNO.MONOMIAL_SUCCESS =
      read_variable ('0' :: 'x' :: '^' :: ed) '+' 0 true ('x' :: '^' :: ed)
        MONOMIALS_ERRNO.MONOMIAL_SUCCESS :=
    read_coefficient_run _ '+' ['0'] 0 (by simp) (by decide) (by decide) hs (by decide!)
      ('x' :: '^' :: ed) (Or.inr (Or.inr rfl)) _
  have e3 := read_variable_power ('0' :: 'x' :: '^' :: ed) '+' 0 true ed []
    MONOMIALS_ERRNO.MONOMIAL_SUCCESS hne hed (by decide) hmax
  rw [List.append_nil] at e3
  have e4 : monomial_create_from_string ('0' :: 'x' :: '^' :: ed)
      MONOMIALS_ERRNO.MONOMIAL_SUCCESS =
      { monomial := some ⟨0, int_to_unsigned (long_to_int (digits_value 10 ed : Int))⟩,
        end_cursor := [], monomials_errno := MONOMIALS_ERRNO.MONOMIAL_SUCCESS } := by
    rw [e1]
    exact e2.trans (e3.trans (by simp [term_read, monomial_create]))
  exact ParsesTo.term _ _ [] (show '0' ≠ NUL by decide) (by rw [e4])
    (by rw [e4]; exact ParsesTo.done [] rfl)

/-! ## A zero term after a line -/

/-- C26, amended: for a line on which `polynomial_create_from_string` returns and
an exponent `k` that fits a `long` (`k <= LONG_MAX`), the line followed by
` + 0x^k` gives the same result: the same chain with the same cached degree, or
the null value for both.  The line `+2x - 11 + 0x^12` is read as
`{(-11,0), (2,1)}` with the cached degree 1. -/
theorem zero_term_appended (line : List Char) (k : Nat) (r : Option Polynomial)
    (hline : polynomial_create_from_string line = .ok r) (hk : (k : Int) ≤ LONG_MAX) :
    polynomial_create_from_string (line ++ (" + 0x^".toList ++ format_ld k)) = .ok r ∧
    polynomial_create_from_string "+2x - 11".toList =
      .ok (some { first := [⟨-11, 0⟩, ⟨2, 1⟩], degree := 1 }) ∧
    polynomial_create_from_string "+2x - 11 + 0x^12".toList =
      .ok (some { first := [⟨-11, 0⟩, ⟨2, 1⟩], degree := 1 }) := by
  refine ⟨?_, by decide!, by decide!⟩
  obtain ⟨terms, hp⟩ := parses_of_returns line r hline
  obtain ⟨hv, hdig, hne⟩ := format_ld_spec k
  have hz := parses_zero_term (format_ld k) hne hdig (by rw [hv]; exact hk)
  have hd0 : isdigit (peek ('0' :: 'x' :: '^' :: format_ld k)) = true ∨
      peek ('0' :: 'x' :: '^' :: format_ld k) = 'x' :=
    Or.inl (show isdigit '0' = true by decide)
  have hz1 : ParsesTo ('+' :: ' ' :: '0' :: 'x' :: '^' :: format_ld k)
      [⟨0, int_to_unsigned (long_to_int (digits_value 10 (format_ld k) : Int))⟩] :=
    parses_with_plus _ _ 0 1 (some false) (by decide) hd0 hz
  have hz0 : ParsesTo (' ' :: '+' :: ' ' :: '0' :: 'x' :: '^' :: format_ld k)
      [⟨0, int_to_unsigned (long_to_int (digits_value 10 (format_ld k) : Int))⟩] :=
    parses_with_plus _ _ 1 1 (some false) (by decide) hd0 hz
  have hsk : skip_spaces ('+' :: ' ' :: '0' :: 'x' :: '^' :: format_ld k) =
      '+' :: ' ' :: '0' :: 'x' :: '^' :: format_ld k :=
    skip_spaces_id _ (show '+' ≠ ' ' by decide)
  have h0 : is_coefficient_null (0 : ℚ) = true := by decide!
  have hfz : ([⟨0, int_to_unsigned (long_to_int (digits_value 10 (format_ld k) : Int))⟩] :
      List Monomial).filter (fun m => !is_coefficient_null m.coefficient) = [] := by
    simp [List.filter, h0]
  have htext : line ++ (" + 0x^".toList ++ format_ld k) =
      line ++ ' ' :: ('+' :: ' ' :: '0' :: 'x' :: '^' :: format_ld k) := rfl
  rw [htext, ← hline]
  by_cases hnul : peek line = NUL
  · cases line with
    | nil =>
      exact polynomial_create_from_string_congr _ _ _ [] hz0 (ParsesTo.done [] rfl)
        (by rw [hfz]; rfl)
    | cons a l =>
      exact polynomial_create_from_string_congr _ _ [] [] (ParsesTo.done _ hnul)
        (ParsesTo.done _ hnul) rfl
  · obtain ⟨terms2, p1, _, hor⟩ := parses_append_first _ _ _ (hsk.symm ▸ hz1) (hsk.symm ▸ hz1)
      line terms hp hnul
    apply polynomial_create_from_string_congr _ _ terms2 terms p1 hp
    rcases hor with h | h
    · rw [h]
    · rw [h, List.filter_append, hfz, List.append_nil]

/-- C26, at the line `+2x - 11` of the test and the exponent 12. -/
theorem zero_term_appended_witness :
    polynomial_create_from_string "+2x - 11".toList =
      .ok (some { first := [⟨-11, 0⟩, ⟨2, 1⟩], degree := 1 }) ∧
    ((12 : Nat) : Int) ≤ LONG_MAX ∧
    polynomial_create_from_string ("+2x - 11".toList ++ (" + 0x^".toList ++ format_ld 12)) =
      .ok (some { first := [⟨-11, 0⟩, ⟨2, 1⟩], degree := 1 }) :=
  ⟨by decide!, by decide,
    (zero_term_appended "+2x - 11".toList 12 _ (by decide!) (by decide)).1⟩

/-- C26 as stated fails for an exponent beyond `LONG_MAX`: the line `2x` is read
as `{(2,1)}`, and followed by ` + 0x^9223372036854775808` it ends in the fatal
exit, the exponent being out of the range of `strtol`. -/
theorem zero_term_exponent_out_of_range :
    polynomial_create_from_string "2x".toList =
      .ok (some { first := [⟨2, 1⟩], degree := 1 }) ∧
    format_ld (2 ^ 63) = "9223372036854775808".toList ∧
    polynomial_create_from_string ("2x".toList ++ (" + 0x^".toList ++ format_ld (2 ^ 63))) =
      .error .fatalExit := by
  have hf : format_ld (2 ^ 63) = "9223372036854775808".toList := by decide
  refine ⟨by decide!, hf, ?_⟩
  rw [hf]
  decide!

/-! ## Lines of spaces, and spaces at the end of a line -/

/-- C29: `polynomial_create_from_string` returns the null value on the empty
string and ends in the fatal exit on every non-empty line made only of spaces;
and after a non-empty line on which it returns, spaces added at the end are
skipped: the result is the same. -/
theorem trailing_spaces (line : List Char) (r : Option Polynomial) (n : Nat)
    (hline : polynomial_create_from_string line = .ok r) (hne : peek line ≠ NUL) :
    polynomial_create_from_string (line ++ List.replicate n ' ') = .ok r ∧
    polynomial_create_from_string [] = .ok none ∧
    (∀ k, polynomial_create_from_string (List.replicate (k + 1) ' ') = .error .fatalExit) ∧
    polynomial_create_from_string "2x   ".toList =
      .ok (some { first := [⟨2, 1⟩], degree := 1 }) ∧
    polynomial_create_from_string " ".toList = .error .fatalExit := by
  refine ⟨?_, by decide!, ?_, by decide!, by decide!⟩
  · cases n with
    | zero => rw [List.replicate_zero, List.append_nil]; exact hline
    | succ k =>
      obtain ⟨terms, hp⟩ := parses_of_returns line r hline
      have hsp : ParsesTo (skip_spaces (List.replicate k ' ')) [] := by
        have := skip_spaces_replicate k []
        rw [List.append_nil] at this
        rw [this]
        exact ParsesTo.done [] rfl
      obtain ⟨terms2, p1, _, hor⟩ := parses_append_first _ _ [] hsp hsp line terms hp hne
      rw [List.replicate_succ, ← hline]
      apply polynomial_create_from_string_congr _ _ terms2 terms p1 hp
      rcases hor with h | h
      · rw [h]
      · rw [h, List.append_nil]
  · intro k
    apply polynomial_create_from_string_fails
    have hblank : skip_spaces (List.replicate (k + 1) ' ') = [] := by
      have := skip_spaces_replicate (k + 1) []
      rw [List.append_nil] at this
      exact this
    refine ParseFails.here _ ?_ ?_
    · rw [List.replicate_succ]
      exact (show ' ' ≠ NUL by decide)
    · rw [monomial_create_from_string_blank _ hblank]
      rfl

/-- C29, at the line `2x` followed by two spaces. -/
theorem trailing_spaces_witness :
    polynomial_create_from_string "2x".toList =
      .ok (some { first := [⟨2, 1⟩], degree := 1 }) ∧
    peek "2x".toList ≠ NUL ∧
    polynomial_create_from_string ("2x".toList ++ List.replicate 2 ' ') =
      .ok (some { first := [⟨2, 1⟩], degree := 1 }) :=
  ⟨by decide!, by decide,
    (trailing_spaces "2x".toList _ 2 (by decide!) (by decide)).1⟩

/-! ## A missing sign between two terms -/

theorem term_text_returns (s : List Char) (m : Monomial)
    (h : monomial_create_from_string s MONOMIALS_ERRNO.MONOMIAL_SUCCESS =
      { monomial := some m, end_cursor := [],
        monomials_errno := MONOMIALS_ERRNO.MONOMIAL_SUCCESS }) :
    ∃ r, polynomial_create_from_string s = .ok r := by
  have hnul : peek s ≠ NUL := by
    intro hc
    rw [monomial_create_from_string_nul s hc] at h
    cases h
  have hp : ParsesTo s [m] :=
    ParsesTo.term s m [] hnul (by rw [h]) (by rw [h]; exact ParsesTo.done [] rfl)
  obtain ⟨r, hr, _⟩ := polynomial_create_from_string_eq s [m] hp
  exact ⟨r, hr⟩

/-- C30: a missing sign between two parts of a line is read as `+`: for texts `s`
and `t` on each of which `polynomial_create_from_string` returns, `t` starting
with a digit or `x`, the reader returns the same result on `s`, a space, `t` as
on `s`, ` + `, `t`.  A term text that parses alone, the term reader returning a
term and leaving the end cursor at the end of the text, is such a text.  So `2 3`
is read as `{(5,0)}` and `x^2 x` as `{(1,1), (1,2)}`. -/
theorem missing_sign_is_plus (s t : List Char) (rs rt : Option Polynomial)
    (hs : polynomial_create_from_string s = .ok rs)
    (ht : polynomial_create_from_string t = .ok rt)
    (hd : isdigit (peek t) = true ∨ peek t = 'x') :
    (∃ r, polynomial_create_from_string (s ++ ' ' :: t) = .ok r ∧
      polynomial_create_from_string (s ++ (" + ".toList ++ t)) = .ok r) ∧
    (∀ text m,
      monomial_create_from_string text MONOMIALS_ERRNO.MONOMIAL_SUCCESS =
        { monomial := some m, end_cursor := [],
          monomials_errno := MONOMIALS_ERRNO.MONOMIAL_SUCCESS } →
      ∃ r, polynomial_create_from_string text = .ok r) ∧
    polynomial_create_from_string "2 3".toList =
      .ok (some { first := [⟨5, 0⟩], degree := 0 }) ∧
    polynomial_create_from_string "2 + 3".toList =
      .ok (some { first := [⟨5, 0⟩], degree := 0 }) ∧
    polynomial_create_from_string "x^2 x".toList =
      .ok (some { first := [⟨1, 1⟩, ⟨1, 2⟩], degree := 2 }) ∧
    polynomial_create_from_string "x^2 + x".toList =
      .ok (some { first := [⟨1, 1⟩, ⟨1, 2⟩], degree := 2 }) := by
  refine ⟨?_, term_text_returns, by decide!, by decide!, by decide!, by decide!⟩
  obtain ⟨ts, hps⟩ := parses_of_returns s rs hs
  obtain ⟨tt, hpt⟩ := parses_of_returns t rt ht
  have hb : peek t ≠ ' ' := by
    rcases hd with hd | hd
    · exact (isdigit_ne _ hd).2.2.1
    · rw [hd]; decide
  have h1 : ParsesTo (skip_spaces t) tt := by
    rw [skip_spaces_id t hb]; exact hpt
  have hplus : ParsesTo ('+' :: ' ' :: t) tt :=
    parses_with_plus t tt 0 1 (some false) (by decide) hd hpt
  have h2 : ParsesTo (skip_spaces ('+' :: ' ' :: t)) tt := by
    rw [skip_spaces_id ('+' :: ' ' :: t) (show '+' ≠ ' ' by decide)]; exact hplus
  have htext : s ++ (" + ".toList ++ t) = s ++ ' ' :: ('+' :: ' ' :: t) := rfl
  rw [htext]
  have key : ∃ terms2, ParsesTo (s ++ ' ' :: t) terms2 ∧
      ParsesTo (s ++ ' ' :: ('+' :: ' ' :: t)) terms2 := by
    by_cases hnul : peek s = NUL
    · cases s with
      | nil =>
        exact ⟨tt, parses_with_plus t tt 1 0 none (by decide) hd hpt,
          parses_with_plus t tt 1 1 (some false) (by decide) hd hpt⟩
      | cons a l => exact ⟨[], ParsesTo.done _ hnul, ParsesTo.done _ hnul⟩
    · obtain ⟨terms2, p1, p2, _⟩ := parses_append_first t ('+' :: ' ' :: t) tt h1 h2 s ts
        hps hnul
      exact ⟨terms2, p1, p2⟩
  obtain ⟨terms2, p1, p2⟩ := key
  obtain ⟨r, hr, _⟩ := polynomial_create_from_string_eq _ _ p1
  refine ⟨r, hr, ?_⟩
  rw [← hr]
  exact (polynomial_create_from_string_congr _ _ _ _ p1 p2 rfl).symm

/-- C30, at the texts `2` and `3`. -/
theorem missing_sign_is_plus_witness :
    polynomial_create_from_string "2".toList = .ok (some { first := [⟨2, 0⟩], degree := 0 }) ∧
    polynomial_create_from_string "3".toList = .ok (some { first := [⟨3, 0⟩], degree := 0 }) ∧
    (isdigit (peek "3".toList) = true ∨ peek "3".toList = 'x') ∧
    ∃ r, polynomial_create_from_string ("2".toList ++ ' ' :: "3".toList) = .ok r ∧
      polynomial_create_from_string ("2".toList ++ (" + ".toList ++ "3".toList)) = .ok r :=
  ⟨by decide!, by decide!, Or.inl (by decide),
    (missing_sign_is_plus "2".toList "3".toList
      (some { first := [⟨2, 0⟩], degree := 0 }) (some { first := [⟨3, 0⟩], degree := 0 })
      (by decide!) (by decide!) (Or.inl (by decide))).1⟩


/-! ## Progress of the term reader and termination of the polynomial reader -/

theorem skip_spaces_suffix (s : List Char) : skip_spaces s <:+ s := by
  induction s with
  | nil => exact List.suffix_refl _
  | cons c t ih =>
    unfold skip_spaces
    split
    · exact ih.trans (List.suffix_cons c t)
    · exact List.suffix_refl _

theorem read_mantissa_suffix (base : Nat) (digit : Char → Bool) (s : List Char)
    (v : ℚ) (after : List Char) (h : read_mantissa base digit s = some (v, after)) :
    after <:+ s := by
  unfold read_mantissa at h
  dsimp only at h
  have h1 : s.dropWhile digit <:+ s := List.dropWhile_suffix _
  have h2 : (s.dropWhile digit).tail.dropWhile digit <:+ s :=
    (List.dropWhile_suffix _).trans ((List.tail_suffix _).trans h1)
  by_cases hc : ((s.takeWhile digit).isEmpty &&
      (if peek (s.dropWhile digit) = '.' then (s.dropWhile digit).tail.takeWhile digit
        else []).isEmpty) = true
  · rw [if_pos hc] at h; cases h
  · rw [if_neg hc] at h
    simp only [Option.some.injEq, Prod.mk.injEq] at h
    rw [← h.2]
    split
    · exact h2
    · exact h1

theorem read_exponent_suffix (lower upper : Char) (s : List Char) (neg : Bool) (e : Nat)
    (after : List Char) (h : read_exponent lower upper s = some (neg, e, after)) :
    after <:+ s := by
  cases s with
  | nil => simp [read_exponent] at h
  | cons c rest =>
    unfold read_exponent at h
    dsimp only at h
    have h2 : (if peek rest = '+' ∨ peek rest = '-' then rest.tail else rest) <:+ rest := by
      split
      · exact List.tail_suffix rest
      · exact List.suffix_refl _
    by_cases hc : c = lower ∨ c = upper
    · rw [if_pos hc] at h
      by_cases hd : isdigit (peek (if peek rest = '+' ∨ peek rest = '-' then rest.tail
          else rest)) = true
      · rw [if_pos hd] at h
        simp only [Option.some.injEq, Prod.mk.injEq] at h
        rw [← h.2.2]
        exact (List.dropWhile_suffix _).trans (h2.trans (List.suffix_cons c rest))
      · rw [if_neg hd] at h; cases h
    · rw [if_neg hc] at h; cases h

theorem strtod_decimal_suffix (s : List Char) : (strtod_decimal s).2 <:+ s := by
  unfold strtod_decimal
  cases hm : read_mantissa 10 isdigit s with
  | none => exact List.suffix_refl _
  | some r =>
    obtain ⟨v, after⟩ := r
    have h1 := read_mantissa_suffix _ _ _ _ _ hm
    dsimp only
    cases he : read_exponent 'e' 'E' after with
    | none => exact h1
    | some q =>
      obtain ⟨neg, e, fin⟩ := q
      exact (read_exponent_suffix _ _ _ _ _ _ he).trans h1

theorem strtod_hexadecimal_suffix (s : List Char) (r : ℚ × List Char)
    (h : strtod_hexadecimal s = some r) : r.2 <:+ s := by
  unfold strtod_hexadecimal at h
  cases hm : read_mantissa 16 isxdigit s with
  | none => rw [hm] at h; cases h
  | some q =>
    obtain ⟨v, after⟩ := q
    have h1 := read_mantissa_suffix _ _ _ _ _ hm
    rw [hm] at h
    dsimp only at h
    cases he : read_exponent 'p' 'P' after with
    | none =>
      rw [he] at h
      simp only [Option.some.injEq] at h
      rw [← h]; exact h1
    | some q2 =>
      obtain ⟨neg, e, fin⟩ := q2
      have h2 := read_exponent_suffix _ _ _ _ _ _ he
      rw [he] at h
      simp only [Option.some.injEq] at h
      rw [← h]
      exact h2.trans h1

theorem strtod_suffix (s : List Char) : (strtod s).2 <:+ s := by
  unfold strtod
  split
  · rename_i c t
    split
    · cases hh : strtod_hexadecimal t with
      | none => exact strtod_decimal_suffix _
      | some r =>
        exact (strtod_hexadecimal_suffix t r hh).trans
          ((List.suffix_cons c t).trans (List.suffix_cons '0' (c :: t)))
    · exact strtod_decimal_suffix _
  · exact strtod_decimal_suffix _

theorem read_double_from_string_suffix (s : List Char) :
    (read_double_from_string s).2 <:+ s := by
  unfold read_double_from_string
  dsimp only
  have h1 := skip_spaces_suffix s
  split
  · exact List.suffix_refl _
  · split
    · exact (List.drop_suffix _ _).trans h1
    · split
      · exact List.suffix_refl _
      · exact (strtod_suffix _).trans h1

theorem read_variable_suffix (string : List Char) (sign : Char) (coefficient : ℚ)
    (coeff_read : Bool) (cursor : List Char) (e : MONOMIALS_ERRNO)
    (h : (read_variable string sign coefficient coeff_read cursor e).monomial ≠ none) :
    (read_variable string sign coefficient coeff_read cursor e).end_cursor <:+ cursor := by
  have h1 : cursor.tail <:+ cursor := List.tail_suffix _
  have h2 : (strtol cursor.tail.tail).2.1 <:+ cursor := by
    rw [strtol_end]
    exact (List.dropWhile_suffix _).trans ((List.tail_suffix _).trans h1)
  unfold read_variable term_read input_error at h ⊢
  dsimp only at h ⊢
  split_ifs at h ⊢ <;>
    first
    | exact absurd rfl h
    | exact h1
    | exact h2
    | exact List.suffix_refl _

theorem read_coefficient_suffix (string : List Char) (sign : Char) (cursor : List Char)
    (e : MONOMIALS_ERRNO) (h : (read_coefficient string sign cursor e).monomial ≠ none) :
    (read_coefficient string sign cursor e).end_cursor <:+ cursor := by
  unfold read_coefficient at h ⊢
  dsimp only at h ⊢
  split_ifs at h ⊢
  · exact absurd rfl h
  · exact (read_variable_suffix _ _ _ _ _ _ h).trans (read_double_from_string_suffix _)
  · exact read_variable_suffix _ _ _ _ _ _ h

theorem monomial_create_from_string_suffix (string : List Char) (e : MONOMIALS_ERRNO) :
    (monomial_create_from_string string e).end_cursor <:+ string := by
  by_cases h : (monomial_create_from_string string e).monomial = none
  · rcases monomial_create_from_string_cases string with hf | ⟨sign, c, d, cur, _, hok⟩
    · rw [hf]; exact List.suffix_refl _
    · rw [hok] at h; cases h
  · have h1 : skip_spaces string <:+ string := skip_spaces_suffix _
    have h2 : (if peek (skip_spaces string) = '+' ∨ peek (skip_spaces string) = '-' then
        (skip_spaces string).tail else skip_spaces string) <:+ skip_spaces string := by
      split
      · exact List.tail_suffix _
      · exact List.suffix_refl _
    exact (read_coefficient_suffix string _ _ e h).trans
      ((skip_spaces_suffix _).trans (h2.trans h1))

theorem term_reads_le (fuel : Nat) :
    ∀ cursor : List Char, term_reads fuel cursor ≤ cursor.length := by
  induction fuel with
  | zero => intro cursor; exact Nat.zero_le _
  | succ fuel ih =>
    intro cursor
    rw [term_reads]
    by_cases hnul : peek cursor = NUL
    · rw [if_pos hnul]; exact Nat.zero_le _
    · rw [if_neg hnul]
      have hpos : 1 ≤ cursor.length := by
        cases cursor with
        | nil => exact absurd rfl hnul
        | cons a l => simp
      dsimp only
      rcases monomial_create_from_string_cases cursor with hf | ⟨sign, c, d, cur, hl, hok⟩
      · rw [hf, if_pos (show (input_error cursor).monomials_errno =
            MONOMIALS_ERRNO.MONOMIAL_INPUT_ERROR from rfl)]
        exact hpos
      · rw [hok]
        have hne : ¬ ((term_read sign c d cur MONOMIALS_ERRNO.MONOMIAL_SUCCESS).monomials_errno =
            MONOMIALS_ERRNO.MONOMIAL_INPUT_ERROR) := by
          intro hc; cases hc
        rw [if_neg hne]
        have hcur : (term_read sign c d cur MONOMIALS_ERRNO.MONOMIAL_SUCCESS).end_cursor = cur :=
          rfl
        have h1 := ih (skip_spaces cur)
        have h2 := skip_spaces_length cur
        show 1 + term_reads fuel (skip_spaces cur) ≤ cursor.length
        omega

theorem parses_length (cursor : List Char) (terms : List Monomial) (h : ParsesTo cursor terms) :
    terms.length ≤ cursor.length := by
  induction h with
  | done cursor _ => exact Nat.zero_le _
  | term cursor m terms hnul hm hrest ih =>
    rcases monomial_create_from_string_cases cursor with hf | ⟨sign, c, d, cur, hl, hok⟩
    · rw [hf] at hm; cases hm
    · rw [hok] at ih
      have hcur : (term_read sign c d cur MONOMIALS_ERRNO.MONOMIAL_SUCCESS).end_cursor = cur :=
        rfl
      rw [hcur] at ih
      have h2 := skip_spaces_length cur
      simp only [List.length_cons]
      omega

/-- C27: every call of `monomial_create_from_string` that returns a term leaves
the end cursor inside the string, strictly after its start: the text at the end
cursor is a proper suffix of the text at the start.  So the loop of
`polynomial_create_from_string` ends on every line: the function returns (a chain
or the null value) or ends in the fatal exit, its loop never runs out of the
`length + 1` iterations (more fuel gives the same result), and it calls the term
reader at most once for each character of the line. -/
theorem parser_progress (string : List Char) :
    (∀ e m, (monomial_create_from_string string e).monomial = some m →
      (monomial_create_from_string string e).end_cursor <:+ string ∧
        (monomial_create_from_string string e).end_cursor.length < string.length) ∧
    ((∃ r, polynomial_create_from_string string = .ok r) ∨
      polynomial_create_from_string string = .error .fatalExit) ∧
    (∀ fuel chain max_monomial_degree, string.length < fuel →
      create_from_string_loop fuel string chain max_monomial_degree ≠ .error .diverges ∧
        create_from_string_loop fuel string chain max_monomial_degree =
          create_from_string_loop (string.length + 1) string chain max_monomial_degree) ∧
    (∀ fuel, term_reads fuel string ≤ string.length) ∧
    (∀ terms, ParsesTo string terms → terms.length ≤ string.length) := by
  refine ⟨?_, ?_, ?_, fun fuel => term_reads_le fuel string, parses_length string⟩
  · intro e m hm
    refine ⟨monomial_create_from_string_suffix string e, ?_⟩
    rcases monomial_create_from_string_cases string with hf | ⟨sign, c, d, cur, hl, hok⟩
    · rw [hf] at hm; cases hm
    · rw [hok]; exact hl
  · rcases parses_or_fails string.length string (le_refl _) with ⟨terms, hp⟩ | hf
    · obtain ⟨r, hr, _⟩ := polynomial_create_from_string_eq string terms hp
      exact Or.inl ⟨r, hr⟩
    · exact Or.inr (polynomial_create_from_string_fails string hf)
  · intro fuel chain mx hfuel
    rcases parses_or_fails string.length string (le_refl _) with ⟨terms, hp⟩ | hf
    · rw [create_from_string_loop_spec string terms hp fuel chain mx hfuel,
        create_from_string_loop_spec string terms hp (string.length + 1) chain mx
          (Nat.lt_succ_self _)]
      exact ⟨fun hc => (by cases hc), rfl⟩
    · rw [create_from_string_loop_fails string hf fuel chain mx hfuel,
        create_from_string_loop_fails string hf (string.length + 1) chain mx
          (Nat.lt_succ_self _)]
      exact ⟨fun hc => (by cases hc), rfl⟩


/-! ## Commutativity of the product -/

theorem product_sum_nil_right (A : List Monomial) (d : Nat) : product_sum A [] d = 0 := by
  induction A with
  | nil => exact product_sum_nil [] d
  | cons a A ih =>
    rw [product_sum_cons, ih]
    simp

theorem product_sum_cons_right (A : List Monomial) (b : Monomial) (B : List Monomial)
    (d : Nat) :
    product_sum A (b :: B) d =
      ((A.filter (fun a => a.degree + b.degree = d)).map
        (fun a => a.coefficient * b.coefficient)).sum + product_sum A B d := by
  induction A with
  | nil =>
    rw [product_sum_nil, product_sum_nil]
    simp
  | cons a A ih =>
    rw [product_sum_cons, product_sum_cons, ih]
    by_cases h : a.degree + b.degree = d
    · simp [List.filter_cons, h]
      ring
    · simp [List.filter_cons, h]
      ring

theorem product_sum_comm (A B : List Monomial) (d : Nat) :
    product_sum A B d = product_sum B A d := by
  induction A with
  | nil => rw [product_sum_nil, product_sum_nil_right]
  | cons a A ih =>
    rw [product_sum_cons, product_sum_cons_right, ih]
    congr 1
    have hf : B.filter (fun b => a.degree + b.degree = d) =
        B.filter (fun b => b.degree + a.degree = d) := by
      apply List.filter_congr
      intro b _
      rw [Nat.add_comm]
    rw [hf]
    congr 1
    apply List.map_congr_left
    intro b _
    exact mul_comm _ _

/-- C31: with coefficients as exact numbers, for chains `A` and `B` whose cached
degree is their largest term degree, `polynomial_product A B` and
`polynomial_product B A` both return, and they return the same chain: the same
terms in the same order, with the same cached degree. -/
theorem polynomial_product_comm (A B : Polynomial) (hA : cached_degree_exact A)
    (hB : cached_degree_exact B) :
    ∃ R, polynomial_product A B = .ok R ∧ polynomial_product B A = .ok R := by
  have hAle : ∀ m ∈ A.first, m.degree ≤ A.degree := fun m hm => hA ▸ le_max_degree _ m hm
  have hBle : ∀ m ∈ B.first, m.degree ≤ B.degree := fun m hm => hB ▸ le_max_degree _ m hm
  obtain ⟨R, hR, hfirst, hdeg⟩ := polynomial_product_eq A B hAle hBle
  obtain ⟨R2, hR2, hfirst2, hdeg2⟩ := polynomial_product_eq B A hBle hAle
  refine ⟨R, hR, ?_⟩
  rw [hR2]
  congr 1
  have hf : R2.first = R.first := by
    rw [hfirst, hfirst2, Nat.add_comm B.degree A.degree]
    apply dense_chain_congr
    intro i _
    exact product_sum_comm B.first A.first i
  cases R with
  | mk f d =>
    cases R2 with
    | mk f2 d2 =>
      simp only at hf hdeg hdeg2
      subst hf
      rw [hdeg, hdeg2]

/-- C31, at the chains `2x` and `1 + 3x^2`. -/
theorem polynomial_product_comm_witness :
    cached_degree_exact { first := [⟨2, 1⟩], degree := 1 } ∧
    cached_degree_exact { first := [⟨1, 0⟩, ⟨3, 2⟩], degree := 2 } ∧
    polynomial_product { first := [⟨2, 1⟩], degree := 1 }
        { first := [⟨1, 0⟩, ⟨3, 2⟩], degree := 2 } =
      .ok { first := [⟨2, 1⟩, ⟨6, 3⟩], degree := 3 } ∧
    polynomial_product { first := [⟨1, 0⟩, ⟨3, 2⟩], degree := 2 }
        { first := [⟨2, 1⟩], degree := 1 } =
      .ok { first := [⟨2, 1⟩, ⟨6, 3⟩], degree := 3 } :=
  have h := polynomial_product_comm { first := [⟨2, 1⟩], degree := 1 }
    { first := [⟨1, 0⟩, ⟨3, 2⟩], degree := 2 } (by decide) (by decide)
  have e : polynomial_product { first := [⟨2, 1⟩], degree := 1 }
        { first := [⟨1, 0⟩, ⟨3, 2⟩], degree := 2 } =
      .ok { first := [⟨2, 1⟩, ⟨6, 3⟩], degree := 3 } := by decide!
  ⟨by decide, by decide, e,
    let ⟨R, h1, h2⟩ := h
    h2.trans (h1.symm.trans e)⟩

/-! ## The sum is not associative -/

/-- C32: because every sum strips the coefficients below the tolerance,
`polynomial_sum` is not associative even with coefficients as exact numbers:
there are non-empty normalized chains `A`, `B`, `C` whose intermediate sums are
not empty and for which `sum(sum(A, B), C)` differs from `sum(A, sum(B, C))`.
With `A = 1 + 1.00005x`, `B = 1 - x` and `C = 1 + 0.0001x`, the sum `A + B` is
`2` (the coefficient `0.00005` is stripped), so the first is `3 + 0.0001x`, and
`B + C` is `2 - 0.9999x`, so the second is `3 + 0.00015x`. -/
theorem polynomial_sum_not_associative :
    (∃ A B C AB BC L R, A.first ≠ [] ∧ B.first ≠ [] ∧ C.first ≠ [] ∧
      normalized A ∧ normalized B ∧ normalized C ∧
      polynomial_sum A B = .ok AB ∧ AB.first ≠ [] ∧
      polynomial_sum B C = .ok BC ∧ BC.first ≠ [] ∧
      polynomial_sum AB C = .ok L ∧ polynomial_sum A BC = .ok R ∧ L ≠ R) ∧
    normalized { first := [⟨1, 0⟩, ⟨100005 / 100000, 1⟩], degree := 1 } ∧
    normalized { first := [⟨1, 0⟩, ⟨-1, 1⟩], degree := 1 } ∧
    normalized { first := [⟨1, 0⟩, ⟨1 / 10000, 1⟩], degree := 1 } ∧
    polynomial_sum { first := [⟨1, 0⟩, ⟨100005 / 100000, 1⟩], degree := 1 }
        { first := [⟨1, 0⟩, ⟨-1, 1⟩], degree := 1 } =
      .ok { first := [⟨2, 0⟩], degree := 0 } ∧
    polynomial_sum { first := [⟨2, 0⟩], degree := 0 }
        { first := [⟨1, 0⟩, ⟨1 / 10000, 1⟩], degree := 1 } =
      .ok { first := [⟨3, 0⟩, ⟨1 / 10000, 1⟩], degree := 1 } ∧
    polynomial_sum { first := [⟨1, 0⟩, ⟨-1, 1⟩], degree := 1 }
        { first := [⟨1, 0⟩, ⟨1 / 10000, 1⟩], degree := 1 } =
      .ok { first := [⟨2, 0⟩, ⟨-(9999 / 10000), 1⟩], degree := 1 } ∧
    polynomial_sum { first := [⟨1, 0⟩, ⟨100005 / 100000, 1⟩], degree := 1 }
        { first := [⟨2, 0⟩, ⟨-(9999 / 10000), 1⟩], degree := 1 } =
      .ok { first := [⟨3, 0⟩, ⟨15 / 100000, 1⟩], degree := 1 } := by
  have hAB : polynomial_sum { first := [⟨1, 0⟩, ⟨100005 / 100000, 1⟩], degree := 1 }
        { first := [⟨1, 0⟩, ⟨-1, 1⟩], degree := 1 } =
      .ok { first := [⟨2, 0⟩], degree := 0 } := by decide!
  have hL : polynomial_sum { first := [⟨2, 0⟩], degree := 0 }
        { first := [⟨1, 0⟩, ⟨1 / 10000, 1⟩], degree := 1 } =
      .ok { first := [⟨3, 0⟩, ⟨1 / 10000, 1⟩], degree := 1 } := by decide!
  have hBC : polynomial_sum { first := [⟨1, 0⟩, ⟨-1, 1⟩], degree := 1 }
        { first := [⟨1, 0⟩, ⟨1 / 10000, 1⟩], degree := 1 } =
      .ok { first := [⟨2, 0⟩, ⟨-(9999 / 10000), 1⟩], degree := 1 } := by decide!
  have hR : polynomial_sum { first := [⟨1, 0⟩, ⟨100005 / 100000, 1⟩], degree := 1 }
        { first := [⟨2, 0⟩, ⟨-(9999 / 10000), 1⟩], degree := 1 } =
      .ok { first := [⟨3, 0⟩, ⟨15 / 100000, 1⟩], degree := 1 } := by decide!
  refine ⟨⟨_, _, _, _, _, _, _, ?_, ?_, ?_, ?_, ?_, ?_, hAB, ?_, hBC, ?_, hL, hR, ?_⟩,
    by decide!, by decide!, by decide!, hAB, hL, hBC, hR⟩
  · decide
  · decide
  · decide
  · decide!
  · decide!
  · decide!
  · decide
  · decide
  · decide!

end ImacPolynomials
